import Mathlib

/-! Maxine Go client SDK (`client-sdk/go/maxine_client.go`)

A shallow embedding of the registry client: `Register`, `Discover`,
`DiscoverUDP`, `DiscoverTCP`, `Deregister` and the heartbeat loop of
`SendHeartbeat`.

Conventions.
* A Go `string` / `[]byte` is a list of bytes, each byte a natural number
  below 256 (`GoString`).
* A Go `error` result is `Option Err` (`none` is `nil`).
* The network is an explicit argument: the HTTP peer maps a request to a
  response or a transport error, a UDP peer is the datagram it sends, a TCP
  peer the chunks in which its reply reaches the client.
-/

namespace Maxine

/-- A Go string or byte slice: its bytes, each below 256. -/
abbrev GoString := List Nat

/-- The bytes of an ASCII literal of the source. -/
def ascii (s : String) : GoString := s.data.map Char.toNat

/-- Go `error` values that the client can return. -/
inductive Err where
  /-- `fmt.Errorf` result: the formatted message. -/
  | msg (text : GoString)
  /-- connection-level failure reported by `net` / `net/http`. -/
  | transport (detail : GoString)
  /-- `*json.SyntaxError`. -/
  | jsonSyntax
  /-- `*json.UnmarshalTypeError`. -/
  | jsonType
  /-- `*json.UnsupportedTypeError` / `*json.UnsupportedValueError` of `json.Marshal`. -/
  | jsonUnsupported
  /-- `io.EOF`. -/
  | eof
  /-- `io.ErrUnexpectedEOF`. -/
  | unexpectedEOF
  deriving DecidableEq, Repr

/-- Equality of `Except` results is decidable. -/
instance instDecidableEqExcept {ε α : Type} [DecidableEq ε] [DecidableEq α] :
    DecidableEq (Except ε α) := fun a b =>
  match a, b with
  | .ok x, .ok y => if h : x = y then isTrue (by rw [h]) else isFalse (fun h1 => h (by cases h1; rfl))
  | .error x, .error y =>
    if h : x = y then isTrue (by rw [h]) else isFalse (fun h1 => h (by cases h1; rfl))
  | .ok _, .error _ => isFalse (fun h => by cases h)
  | .error _, .ok _ => isFalse (fun h => by cases h)

/-- `type MaxineClient struct { BaseURL string }`. -/
structure MaxineClient where
  BaseURL : GoString
  deriving DecidableEq, Repr

/-- `type ServiceNode struct { NodeName, Address string }`. -/
structure ServiceNode where
  NodeName : GoString
  Address : GoString
  deriving DecidableEq, Repr

/-- `NewMaxineClient`. -/
def NewMaxineClient (baseURL : GoString) : MaxineClient := { BaseURL := baseURL }

/-- An HTTP request as the client hands it to `net/http`. -/
structure HttpRequest where
  method : GoString
  url : GoString
  contentType : GoString
  body : GoString
  deriving DecidableEq, Repr

/-- An HTTP response: `resp.StatusCode` and the bytes `ioutil.ReadAll(resp.Body)` yields. -/
structure HttpResponse where
  StatusCode : Int
  Body : GoString
  deriving DecidableEq, Repr

/-- The HTTP side of the world: the outcome of sending a request. -/
abbrev HttpPeer := HttpRequest → Except Err HttpResponse

/-- A mock registry that answers every request with the given status and body. -/
def mockRegistry (status : Int) (body : GoString) : HttpPeer :=
  fun _ => .ok { StatusCode := status, Body := body }

/-! ## `unicode/utf8`: the byte-level facts the JSON library relies on -/

/-- A UTF-8 continuation byte (`0x80..0xBF`). -/
def isCont (b : Nat) : Bool := decide (0x80 ≤ b) && decide (b ≤ 0xBF)

/-- For a lead byte (the `first` table of `unicode/utf8`): the width of its sequence
and the range accepted for the second byte; `none` for a byte that cannot start a
multi-byte sequence. -/
def leadInfo (b0 : Nat) : Option (Nat × Nat × Nat) :=
  if 0xC2 ≤ b0 ∧ b0 ≤ 0xDF then some (2, 0x80, 0xBF)
  else if b0 = 0xE0 then some (3, 0xA0, 0xBF)
  else if b0 = 0xED then some (3, 0x80, 0x9F)
  else if 0xE1 ≤ b0 ∧ b0 ≤ 0xEF then some (3, 0x80, 0xBF)
  else if b0 = 0xF0 then some (4, 0x90, 0xBF)
  else if 0xF1 ≤ b0 ∧ b0 ≤ 0xF3 then some (4, 0x80, 0xBF)
  else if b0 = 0xF4 then some (4, 0x80, 0x8F)
  else none

/-- Width of the UTF-8 sequence that starts with byte `b0` (at least `0x80`) when
the next three bytes are `b1`, `b2`, `b3` (a missing byte counts as `0`): 2 to 4
for a well-formed sequence as `utf8.DecodeRune` accepts it, otherwise `0`. -/
def utf8LenOf (b0 b1 b2 b3 : Nat) : Nat :=
  match leadInfo b0 with
  | none => 0
  | some (n, lo, hi) =>
    if lo ≤ b1 ∧ b1 ≤ hi ∧ (n < 3 ∨ isCont b2) ∧ (n < 4 ∨ isCont b3) then n else 0

/-- Width of the well-formed UTF-8 sequence at the head of `bs`, as accepted by
`utf8.DecodeRune` (1 to 4), or `0` when `DecodeRune` reports `(RuneError, 1)` or
the input is empty. -/
def utf8Len (bs : GoString) : Nat :=
  match bs with
  | [] => 0
  | b0 :: rest =>
    if b0 < 0x80 then 1 else utf8LenOf b0 (rest.getD 0 0) (rest.getD 1 0) (rest.getD 2 0)

/-- `utf8.Valid` on the bytes after the first `k`, which belong to a sequence
already accepted. -/
def utf8ValidFrom : Nat → GoString → Bool
  | _, [] => true
  | k + 1, _ :: bs => utf8ValidFrom k bs
  | 0, b :: bs =>
    let n := utf8Len (b :: bs)
    if n = 0 then false else utf8ValidFrom (n - 1) bs

/-- `utf8.Valid`. -/
def utf8Valid (bs : GoString) : Bool := utf8ValidFrom 0 bs

/-- The bytes of U+FFFD, `utf8.RuneError`. -/
def runeErrorBytes : GoString := [0xEF, 0xBF, 0xBD]

/-- `utf8.AppendRune`: the UTF-8 encoding of a rune; surrogates and values above
U+10FFFF encode as U+FFFD. -/
def encodeRune (r : Nat) : GoString :=
  if r < 0x80 then [r]
  else if r < 0x800 then [0xC0 + r / 64, 0x80 + r % 64]
  else if 0xD800 ≤ r ∧ r ≤ 0xDFFF then runeErrorBytes
  else if r < 0x10000 then [0xE0 + r / 4096, 0x80 + r / 64 % 64, 0x80 + r % 64]
  else if r ≤ 0x10FFFF then
    [0xF0 + r / 262144, 0x80 + r / 4096 % 64, 0x80 + r / 64 % 64, 0x80 + r % 64]
  else runeErrorBytes

/-! ## `encoding/json`: values -/

/-- A JSON value.  It doubles as the dynamic value held in an `interface{}`:
a number is the `float64` its literal denotes (kept as the literal), an array is
a `[]interface{}`, an object a `map[string]interface{}`.  A Go map has no order:
it is the list of its entries by increasing key, each key once; the parser lists
the members of an object in the order of the text.
`chan` stands for a Go value `json.Marshal` cannot encode (a channel, a
function) and `int` for a Go `int`, which is encoded as a number; the decoder
produces neither (it stores every number as a `float64`). -/
inductive GoValue where
  | null
  | bool (b : Bool)
  | num (lit : GoString)
  | str (s : GoString)
  | arr (xs : List GoValue)
  | obj (kvs : List (GoString × GoValue))
  | chan
  | int (i : Int)

/-- `type RegisterPayload struct`; `Metadata = none` is the nil map, `some []` the
empty map, and a map with entries is the list of them by increasing key. -/
structure RegisterPayload where
  ServiceName : GoString
  NodeName : GoString
  HostName : GoString
  Port : Int
  Weight : Int
  Metadata : Option (List (GoString × GoValue))

/-! ## `encoding/json`: the encoder (`json.Marshal`) -/

/-- Lower-case hexadecimal digit. -/
def hexDigit (n : Nat) : Nat := if n < 10 then 48 + n else 87 + n

/-- How `appendString` (with HTML escaping, as `json.Marshal` has) writes one
ASCII byte. -/
def escapeByte (b : Nat) : GoString :=
  if b = 34 ∨ b = 92 then [92, b]
  else if b = 8 then [92, 98]
  else if b = 12 then [92, 102]
  else if b = 10 then [92, 110]
  else if b = 13 then [92, 114]
  else if b = 9 then [92, 116]
  else if b < 0x20 ∨ b = 60 ∨ b = 62 ∨ b = 38 then
    [92, 117, 48, 48, hexDigit (b / 16), hexDigit (b % 16)]
  else [b]

/-- The body of a JSON string literal for the Go string `s`.  `skip`/`k` carry the
bytes of a multi-byte sequence already handled: copied when `skip = false`,
dropped when `skip = true`. -/
def appendStringFrom : Bool → Nat → GoString → GoString
  | _, _, [] => []
  | true, k + 1, _ :: bs => appendStringFrom true k bs
  | false, k + 1, b :: bs => b :: appendStringFrom false k bs
  | _, 0, b :: bs =>
    if b < 0x80 then escapeByte b ++ appendStringFrom false 0 bs
    else
      let n := utf8Len (b :: bs)
      if n = 0 then ascii "\\ufffd" ++ appendStringFrom false 0 bs
      else if b = 0xE2 ∧ bs.take 2 = [0x80, 0xA8] then
        ascii "\\u2028" ++ appendStringFrom true 2 bs
      else if b = 0xE2 ∧ bs.take 2 = [0x80, 0xA9] then
        ascii "\\u2029" ++ appendStringFrom true 2 bs
      else b :: appendStringFrom false (n - 1) bs

/-- The JSON string literal `json.Marshal` writes for a Go string. -/
def marshalString (s : GoString) : GoString :=
  34 :: appendStringFrom false 0 s ++ [34]

/-- Decimal digits of a natural number, most significant first (`fuel` bounds the
number of digits). -/
def natDigits : Nat → Nat → GoString → GoString
  | 0, _, acc => acc
  | fuel + 1, n, acc =>
    if n < 10 then (48 + n) :: acc else natDigits fuel (n / 10) ((48 + n % 10) :: acc)

/-- `strconv.AppendInt(_, i, 10)`. -/
def marshalInt (i : Int) : GoString :=
  if i < 0 then 45 :: natDigits (i.natAbs + 1) i.natAbs [] else natDigits (i.natAbs + 1) i.natAbs []

/-- Byte-wise `<=` on Go strings, the order in which `json.Marshal` writes map keys. -/
def bytesLE : GoString → GoString → Bool
  | [], _ => true
  | _ :: _, [] => false
  | a :: as, b :: bs => if a < b then true else if b < a then false else bytesLE as bs

/-- Insert a member into a list of members sorted by key. -/
def insertMember (m : GoString × GoString) : List (GoString × GoString) → List (GoString × GoString)
  | [] => [m]
  | x :: xs => if bytesLE m.1 x.1 then m :: x :: xs else x :: insertMember m xs

/-- Members sorted by key. -/
def sortMembers : List (GoString × GoString) → List (GoString × GoString)
  | [] => []
  | m :: ms => insertMember m (sortMembers ms)

/-- Items separated by commas. -/
def joinComma : List GoString → GoString
  | [] => []
  | [x] => x
  | x :: y :: rest => x ++ 44 :: joinComma (y :: rest)

/-- The text `"key":value` of one object member. -/
def memberText (m : GoString × GoString) : GoString := marshalString m.1 ++ 58 :: m.2

/-- Text of an object from its members (key, encoded value), keys sorted. -/
def objectText (ms : List (GoString × GoString)) : GoString :=
  123 :: joinComma ((sortMembers ms).map memberText) ++ [125]

mutual
/-- The encoding `json.Marshal` gives a dynamic value, or its error. -/
def marshalValue : GoValue → Except Err GoString
  | .null => .ok (ascii "null")
  | .bool true => .ok (ascii "true")
  | .bool false => .ok (ascii "false")
  | .num lit => .ok lit
  | .str s => .ok (marshalString s)
  | .arr xs =>
    match marshalElems xs with
    | .ok es => .ok (91 :: joinComma es ++ [93])
    | .error e => .error e
  | .obj kvs =>
    match marshalMembers kvs with
    | .ok ms => .ok (objectText ms)
    | .error e => .error e
  | .chan => .error .jsonUnsupported
  | .int i => .ok (marshalInt i)
/-- Encodings of the elements of a slice. -/
def marshalElems : List GoValue → Except Err (List GoString)
  | [] => .ok []
  | x :: xs =>
    match marshalValue x, marshalElems xs with
    | .ok e, .ok es => .ok (e :: es)
    | .error e, _ => .error e
    | _, .error e => .error e
/-- Encodings of the values of a map. -/
def marshalMembers : List (GoString × GoValue) → Except Err (List (GoString × GoString))
  | [] => .ok []
  | (k, v) :: kvs =>
    match marshalValue v, marshalMembers kvs with
    | .ok e, .ok es => .ok ((k, e) :: es)
    | .error e, _ => .error e
    | _, .error e => .error e
end

/-- The `,"weight":N` member: dropped by `omitempty` when the weight is 0. -/
def weightText (w : Int) : GoString :=
  if w = 0 then [] else ascii ",\"weight\":" ++ marshalInt w

/-- The `,"metadata":{...}` member: dropped by `omitempty` when the map is nil or
has no entries. -/
def metadataText : Option (List (GoString × GoValue)) → Except Err GoString
  | none => .ok []
  | some [] => .ok []
  | some (kv :: kvs) =>
    match marshalMembers (kv :: kvs) with
    | .ok ms => .ok (ascii ",\"metadata\":" ++ objectText ms)
    | .error e => .error e

/-- `json.Marshal(payload)` for a `RegisterPayload`. -/
def marshalPayload (p : RegisterPayload) : Except Err GoString :=
  match metadataText p.Metadata with
  | .error e => .error e
  | .ok md =>
    .ok (ascii "\x7b\"serviceName\":" ++ marshalString p.ServiceName
      ++ ascii ",\"nodeName\":" ++ marshalString p.NodeName
      ++ ascii ",\"hostName\":" ++ marshalString p.HostName
      ++ ascii ",\"port\":" ++ marshalInt p.Port
      ++ weightText p.Weight ++ md ++ [125])

/-- `json.Marshal` of a `ServiceNode`: the encoding a registry written against the
same schema sends. -/
def marshalServiceNode (v : ServiceNode) : GoString :=
  ascii "\x7b\"nodeName\":" ++ marshalString v.NodeName
    ++ ascii ",\"address\":" ++ marshalString v.Address ++ [125]

/-- `json.Marshal(map[string]string{"serviceName": serviceName, "nodeName": nodeName})`:
keys in sorted order. -/
def marshalDeregister (serviceName nodeName : GoString) : GoString :=
  ascii "\x7b\"nodeName\":" ++ marshalString nodeName
    ++ ascii ",\"serviceName\":" ++ marshalString serviceName ++ [125]

/-! ## `encoding/json`: the scanner and decoder -/

/-- JSON white space (`isSpace` of the scanner): space, tab, CR, LF. -/
def isSpace (c : Nat) : Bool := c == 32 || c == 9 || c == 13 || c == 10

/-- Drop leading JSON white space. -/
def skipWs : GoString → GoString
  | [] => []
  | c :: cs => if isSpace c then skipWs cs else c :: cs

/-- Value of a hexadecimal digit. -/
def hexVal (c : Nat) : Option Nat :=
  if 48 ≤ c ∧ c ≤ 57 then some (c - 48)
  else if 97 ≤ c ∧ c ≤ 102 then some (c - 87)
  else if 65 ≤ c ∧ c ≤ 70 then some (c - 55)
  else none

/-- `getu4`: the code unit written by four hexadecimal digits. -/
def hex4 (h1 h2 h3 h4 : Nat) : Option Nat :=
  match hexVal h1, hexVal h2, hexVal h3, hexVal h4 with
  | some a, some b, some c, some d => some (a * 4096 + b * 256 + c * 16 + d)
  | _, _, _, _ => none

/-- The byte a one-letter escape stands for. -/
def simpleEscape (e : Nat) : Option Nat :=
  if e = 34 ∨ e = 92 ∨ e = 47 then some e
  else if e = 98 then some 8
  else if e = 102 then some 12
  else if e = 110 then some 10
  else if e = 114 then some 13
  else if e = 116 then some 9
  else none

/-- `utf16.IsSurrogate`. -/
def isSurrogate (r : Nat) : Bool := decide (0xD800 ≤ r) && decide (r < 0xE000)

/-- `utf16.DecodeRune`: the rune of a surrogate pair, `none` for an invalid pair. -/
def decodeSurrogates (r1 r2 : Nat) : Option Nat :=
  if 0xD800 ≤ r1 ∧ r1 < 0xDC00 ∧ 0xDC00 ≤ r2 ∧ r2 < 0xE000 then
    some ((r1 - 0xD800) * 1024 + (r2 - 0xDC00) + 0x10000)
  else none

/-- Prefix the decoded output of the rest of a string. -/
def consOut (x : GoString) : Except Err (GoString × GoString) → Except Err (GoString × GoString)
  | .ok (s, rest) => .ok (x ++ s, rest)
  | .error e => .error e

/-- `getu4`: the code unit of a `\uXXXX` escape at the head of the input. -/
def getu4 (bs : GoString) : Option Nat :=
  if 6 ≤ bs.length ∧ bs.getD 0 0 = 92 ∧ bs.getD 1 0 = 117 then
    hex4 (bs.getD 2 0) (bs.getD 3 0) (bs.getD 4 0) (bs.getD 5 0)
  else none

/-- Scan and unquote a string literal from just after its opening quote: the Go
string it denotes and the input after the closing quote.  `skip`/`k` carry bytes
already accounted for: the continuation bytes of an accepted UTF-8 sequence
(copied, `skip = false`) or the second escape of a surrogate pair (dropped,
`skip = true`). -/
def strBody : Bool → Nat → GoString → Except Err (GoString × GoString)
  | _, _, [] => .error .unexpectedEOF
  | true, k + 1, _ :: bs => strBody true k bs
  | false, k + 1, b :: bs => consOut [b] (strBody false k bs)
  | _, 0, b :: bs =>
    if b = 34 then .ok ([], bs)
    else if b = 92 then
      match bs with
      | [] => .error .unexpectedEOF
      | e :: bs1 =>
        if e = 117 then
          match bs1 with
          | h1 :: h2 :: h3 :: h4 :: bs2 =>
            match hex4 h1 h2 h3 h4 with
            | none => .error .jsonSyntax
            | some r =>
              if isSurrogate r then
                match (getu4 bs2).bind (decodeSurrogates r) with
                | some dec => consOut (encodeRune dec) (strBody true 6 bs2)
                | none => consOut runeErrorBytes (strBody false 0 bs2)
              else consOut (encodeRune r) (strBody false 0 bs2)
          | short =>
            if short.all (fun c => (hexVal c).isSome) then .error .unexpectedEOF
            else .error .jsonSyntax
        else
          match simpleEscape e with
          | some c => consOut [c] (strBody false 0 bs1)
          | none => .error .jsonSyntax
    else if b < 0x20 then .error .jsonSyntax
    else if b < 0x80 then consOut [b] (strBody false 0 bs)
    else
      let n := utf8Len (b :: bs)
      if n = 0 then consOut runeErrorBytes (strBody false 0 bs)
      else consOut [b] (strBody false (n - 1) bs)

/-- Decimal digit. -/
def isDigit (c : Nat) : Bool := decide (48 ≤ c) && decide (c ≤ 57)

/-- At least one digit, then the rest. -/
def digits1 (bs : GoString) : Except Err (GoString × GoString) :=
  match bs with
  | [] => .error .unexpectedEOF
  | c :: _ => if isDigit c then .ok (bs.span isDigit) else .error .jsonSyntax

/-- Optional exponent part of a number. -/
def numExp (bs : GoString) : Except Err (GoString × GoString) :=
  match bs with
  | e :: rest =>
    if e = 101 ∨ e = 69 then
      match rest with
      | sg :: rest1 =>
        if sg = 43 ∨ sg = 45 then
          match digits1 rest1 with
          | .ok (ds, r) => .ok (e :: sg :: ds, r)
          | .error err => .error err
        else
          match digits1 rest with
          | .ok (ds, r) => .ok (e :: ds, r)
          | .error err => .error err
      | [] => .error .unexpectedEOF
    else .ok ([], bs)
  | [] => .ok ([], [])

/-- Optional fraction part, then optional exponent. -/
def numFrac (bs : GoString) : Except Err (GoString × GoString) :=
  match bs with
  | 46 :: rest =>
    match digits1 rest with
    | .ok (ds, r) =>
      match numExp r with
      | .ok (ex, r1) => .ok (46 :: ds ++ ex, r1)
      | .error err => .error err
    | .error err => .error err
  | _ => numExp bs

/-- Integer part without sign, then fraction and exponent. -/
def numInt (bs : GoString) : Except Err (GoString × GoString) :=
  match bs with
  | [] => .error .unexpectedEOF
  | c :: rest =>
    if c = 48 then
      match numFrac rest with
      | .ok (t, r) => .ok (48 :: t, r)
      | .error err => .error err
    else if isDigit c then
      match numFrac ((c :: rest).span isDigit).2 with
      | .ok (t, r) => .ok (((c :: rest).span isDigit).1 ++ t, r)
      | .error err => .error err
    else .error .jsonSyntax

/-- A number literal at the head of the input: the literal and the input after it. -/
def parseNumber (bs : GoString) : Except Err (GoString × GoString) :=
  match bs with
  | 45 :: rest =>
    match numInt rest with
    | .ok (t, r) => .ok (45 :: t, r)
    | .error err => .error err
  | _ => numInt bs

/-- Match the remaining letters of `true`, `false` or `null`. -/
def expectLit : GoString → GoString → Except Err GoString
  | [], bs => .ok bs
  | _ :: _, [] => .error .unexpectedEOF
  | l :: ls, b :: bs => if l = b then expectLit ls bs else .error .jsonSyntax

/-- `maxNestingDepth` of the scanner. -/
def maxNestingDepth : Nat := 10000

mutual
/-- One JSON value at the head of the input (white space already skipped): the
value and the input after it.  `depth` is the number of open arrays and objects;
`fuel` bounds the number of nested calls, which is at most twice the length of the
input plus one. -/
def parseValue : Nat → Nat → GoString → Except Err (GoValue × GoString)
  | 0, _, _ => .error .unexpectedEOF
  | _ + 1, _, [] => .error .unexpectedEOF
  | fuel + 1, depth, c :: cs =>
    if c = 123 then
      if maxNestingDepth ≤ depth then .error .jsonSyntax
      else
        match skipWs cs with
        | [] => .error .unexpectedEOF
        | d :: rest =>
          if d = 125 then .ok (.obj [], rest)
          else if d = 34 then
            match parseMembers fuel (depth + 1) rest with
            | .ok (ms, r) => .ok (.obj ms, r)
            | .error e => .error e
          else .error .jsonSyntax
    else if c = 91 then
      if maxNestingDepth ≤ depth then .error .jsonSyntax
      else
        match skipWs cs with
        | [] => .error .unexpectedEOF
        | d :: rest =>
          if d = 93 then .ok (.arr [], rest)
          else
            match parseElems fuel (depth + 1) (d :: rest) with
            | .ok (xs, r) => .ok (.arr xs, r)
            | .error e => .error e
    else if c = 34 then
      match strBody false 0 cs with
      | .ok (s, r) => .ok (.str s, r)
      | .error e => .error e
    else if c = 116 then
      match expectLit [114, 117, 101] cs with
      | .ok r => .ok (.bool true, r)
      | .error e => .error e
    else if c = 102 then
      match expectLit [97, 108, 115, 101] cs with
      | .ok r => .ok (.bool false, r)
      | .error e => .error e
    else if c = 110 then
      match expectLit [117, 108, 108] cs with
      | .ok r => .ok (.null, r)
      | .error e => .error e
    else
      match parseNumber (c :: cs) with
      | .ok (lit, r) => .ok (.num lit, r)
      | .error e => .error e
/-- The elements of an array from the start of an element to the closing bracket. -/
def parseElems : Nat → Nat → GoString → Except Err (List GoValue × GoString)
  | 0, _, _ => .error .unexpectedEOF
  | fuel + 1, depth, bs =>
    match parseValue fuel depth bs with
    | .error e => .error e
    | .ok (v, rest) =>
      match skipWs rest with
      | [] => .error .unexpectedEOF
      | d :: rest1 =>
        if d = 44 then
          match parseElems fuel depth (skipWs rest1) with
          | .ok (vs, r) => .ok (v :: vs, r)
          | .error e => .error e
        else if d = 93 then .ok ([v], rest1)
        else .error .jsonSyntax
/-- The members of an object from just after the opening quote of a key to the
closing brace. -/
def parseMembers : Nat → Nat → GoString → Except Err (List (GoString × GoValue) × GoString)
  | 0, _, _ => .error .unexpectedEOF
  | fuel + 1, depth, bs =>
    match strBody false 0 bs with
    | .error e => .error e
    | .ok (k, rest) =>
      match skipWs rest with
      | [] => .error .unexpectedEOF
      | d :: rest1 =>
        if d = 58 then
          match parseValue fuel depth (skipWs rest1) with
          | .error e => .error e
          | .ok (v, rest2) =>
            match skipWs rest2 with
            | [] => .error .unexpectedEOF
            | d2 :: rest3 =>
              if d2 = 44 then
                match skipWs rest3 with
                | [] => .error .unexpectedEOF
                | q :: rest4 =>
                  if q = 34 then
                    match parseMembers fuel depth rest4 with
                    | .ok (ms, r) => .ok ((k, v) :: ms, r)
                    | .error e => .error e
                  else .error .jsonSyntax
              else if d2 = 125 then .ok ([(k, v)], rest3)
              else .error .jsonSyntax
        else .error .jsonSyntax
end

/-- The first JSON value of the input after leading white space, and what follows it. -/
def parseTop (data : GoString) : Except Err (GoValue × GoString) :=
  parseValue (2 * data.length + 2) 0 (skipWs data)

/-- `checkValid` of `json.Unmarshal`: the whole input is one JSON value between
optional white space; anything else is a `*json.SyntaxError`. -/
def checkedValue (data : GoString) : Except Err GoValue :=
  match parseTop data with
  | .error _ => .error .jsonSyntax
  | .ok (v, rest) => if skipWs rest = [] then .ok v else .error .jsonSyntax

/-- `Decoder.readValue` on a stream holding `body` then end of file: the first
JSON value of the stream.  The scanner stops at the byte that ends the value (a
byte that cannot continue it is only reported by the next call of `Decode`), so
what follows the value is left unread.  A stream of white space only is `io.EOF`;
a stream that ends inside the value is `io.ErrUnexpectedEOF`. -/
def streamValue (body : GoString) : Except Err GoValue :=
  if skipWs body = [] then .error .eof
  else
    match parseTop body with
    | .error e => .error e
    | .ok (v, _) => .ok v

/-- Upper-case form of an ASCII letter, other bytes unchanged. -/
def upperByte (c : Nat) : Nat := if 97 ≤ c ∧ c ≤ 122 then c - 32 else c

/-- Whether the key of an object member equals, under Unicode simple case folding,
a field name given in upper-case ASCII letters: besides the two cases of a letter,
U+017F folds to `S` and U+212A to `K`. -/
def foldEq : GoString → GoString → Bool
  | [], [] => true
  | [], _ :: _ => false
  | _ :: _, [] => false
  | c :: ks, t :: ts =>
    if upperByte c = t then foldEq ks ts
    else
      match ks with
      | c1 :: ks1 =>
        if c = 0xC5 ∧ c1 = 0xBF ∧ t = 83 then foldEq ks1 ts
        else
          match ks1 with
          | c2 :: ks2 => if c = 0xE2 ∧ c1 = 0x84 ∧ c2 = 0xAA ∧ t = 75 then foldEq ks2 ts else false
          | [] => false
      | [] => false

/-- Index of the struct field a key selects: an exact match of the JSON name
first, otherwise the first field whose name matches case-insensitively. -/
def fieldIndex (names : List GoString) (key : GoString) : Option Nat :=
  match names.indexOf? key with
  | some i => some i
  | none => (names.map (fun n => n.map upperByte)).findIdx? (fun n => foldEq key n)

/-- Keep the first error (`d.saveError`). -/
def saveError (saved : Option Err) (e : Err) : Option Err :=
  match saved with
  | some e0 => some e0
  | none => some e

/-- JSON names of the fields of `ServiceNode`. -/
def nodeFieldNames : List GoString := [ascii "nodeName", ascii "address"]

/-- Store one object member into a `ServiceNode`: a string sets the field, `null`
leaves it, any other value records an `UnmarshalTypeError`; an unknown key is
skipped. -/
def storeNodeMember (st : ServiceNode × Option Err) (m : GoString × GoValue) :
    ServiceNode × Option Err :=
  match fieldIndex nodeFieldNames m.1, m.2 with
  | none, _ => st
  | some _, .null => st
  | some 0, .str s => ({ st.1 with NodeName := s }, st.2)
  | some _, .str s => ({ st.1 with Address := s }, st.2)
  | some _, _ => (st.1, saveError st.2 .jsonType)

/-- The zero `ServiceNode` of `var node ServiceNode`. -/
def zeroNode : ServiceNode := { NodeName := [], Address := [] }

/-- Decode a JSON value into a zero `ServiceNode` (`d.value`): the node as left by
the decoder and the saved error. -/
def decodeNode (v : GoValue) : ServiceNode × Option Err :=
  match v with
  | .null => (zeroNode, none)
  | .obj ms => ms.foldl storeNodeMember (zeroNode, none)
  | _ => (zeroNode, some .jsonType)

/-- `json.Unmarshal(data, &node)` on a zero node. -/
def jsonUnmarshalNode (data : GoString) : ServiceNode × Option Err :=
  match checkedValue data with
  | .error e => (zeroNode, some e)
  | .ok v => decodeNode v

/-- `json.NewDecoder(body).Decode(&node)` on a zero node. -/
def jsonDecodeNode (body : GoString) : ServiceNode × Option Err :=
  match streamValue body with
  | .error e => (zeroNode, some e)
  | .ok v => decodeNode v

/-- The ASCII white space of `bytes.TrimSpace`: tab, LF, VT, FF, CR, space. -/
def asciiSpace (c : Nat) : Bool :=
  c == 9 || c == 10 || c == 11 || c == 12 || c == 13 || c == 32

/-- Two-byte UTF-8 encodings of white space (`unicode.IsSpace`): U+0085, U+00A0. -/
def space2 (b0 b1 : Nat) : Bool := b0 == 0xC2 && (b1 == 0x85 || b1 == 0xA0)

/-- Three-byte UTF-8 encodings of white space: U+1680, U+2000..U+200A, U+2028,
U+2029, U+202F, U+205F, U+3000. -/
def space3 (b0 b1 b2 : Nat) : Bool :=
  (b0 == 0xE1 && b1 == 0x9A && b2 == 0x80)
  || (b0 == 0xE2 && b1 == 0x80 &&
      ((decide (0x80 ≤ b2) && decide (b2 ≤ 0x8A)) || b2 == 0xA8 || b2 == 0xA9 || b2 == 0xAF))
  || (b0 == 0xE2 && b1 == 0x81 && b2 == 0x9F)
  || (b0 == 0xE3 && b1 == 0x80 && b2 == 0x80)

/-- `bytes.TrimLeftFunc(s, unicode.IsSpace)`. -/
def trimLeft : GoString → GoString
  | [] => []
  | b0 :: bs =>
    if asciiSpace b0 then trimLeft bs
    else
      match bs with
      | [] => [b0]
      | b1 :: bs1 =>
        if space2 b0 b1 then trimLeft bs1
        else
          match bs1 with
          | [] => [b0, b1]
          | b2 :: bs2 => if space3 b0 b1 b2 then trimLeft bs2 else b0 :: b1 :: b2 :: bs2

/-- `bytes.TrimRightFunc(s, unicode.IsSpace)` on the reversed bytes: the last rune
is white space exactly when the bytes end with one of its encodings. -/
def trimLeftRev : GoString → GoString
  | [] => []
  | b0 :: bs =>
    if asciiSpace b0 then trimLeftRev bs
    else
      match bs with
      | [] => [b0]
      | b1 :: bs1 =>
        if space2 b1 b0 then trimLeftRev bs1
        else
          match bs1 with
          | [] => [b0, b1]
          | b2 :: bs2 => if space3 b2 b1 b0 then trimLeftRev bs2 else b0 :: b1 :: b2 :: bs2

/-- `bytes.TrimSpace`. -/
def TrimSpace (s : GoString) : GoString := (trimLeftRev (trimLeft s).reverse).reverse

/-! ## The client operations -/

/-- `http.Post(url, "application/json", body)` as a request. -/
def postRequest (url body : GoString) : HttpRequest :=
  { method := ascii "POST", url := url, contentType := ascii "application/json", body := body }

/-- `http.Get(url)` as a request. -/
def getRequest (url : GoString) : HttpRequest :=
  { method := ascii "GET", url := url, contentType := [], body := [] }

/-- The DELETE request of `Deregister`. -/
def deleteRequest (url body : GoString) : HttpRequest :=
  { method := ascii "DELETE", url := url, contentType := ascii "application/json", body := body }

/-- `MaxineClient.Register`. -/
def Register (c : MaxineClient) (peer : HttpPeer) (payload : RegisterPayload) : Option Err :=
  let url := c.BaseURL ++ ascii "/api/maxine/serviceops/register"
  match marshalPayload payload with
  | .error err => some err
  | .ok data =>
    match peer (postRequest url data) with
    | .error err => some err
    | .ok resp =>
      if resp.StatusCode ≠ 200 then some (.msg (ascii "registration failed: " ++ resp.Body))
      else none

/-- The URL `Discover` requests. -/
def discoverURL (c : MaxineClient) (serviceName : GoString) : GoString :=
  c.BaseURL ++ ascii "/api/maxine/serviceops/discover?serviceName=" ++ serviceName
    ++ ascii "&proxy=false"

/-- `MaxineClient.Discover`: the returned `*ServiceNode` (`none` is `nil`) and error. -/
def Discover (c : MaxineClient) (peer : HttpPeer) (serviceName : GoString) :
    Option ServiceNode × Option Err :=
  match peer (getRequest (discoverURL c serviceName)) with
  | .error err => (none, some err)
  | .ok resp =>
    if resp.StatusCode ≠ 200 then (none, some (.msg (ascii "discovery failed: " ++ resp.Body)))
    else (some (jsonDecodeNode resp.Body).1, (jsonDecodeNode resp.Body).2)

/-- A connection returned by `net.Dial`: the outcome of `conn.Write`, and what the
first `conn.Read` after the bytes written finds: the bytes available to it (one
datagram on UDP; on TCP the part of the peer's reply that has arrived when `Read`
returns, which need not be the whole reply), or the error of `conn.Read`. -/
structure Conn where
  write : GoString → Option Err
  read : GoString → Except Err GoString

/-- `net.Dial(network, address)`. -/
abbrev Dialer := GoString → GoString → Except Err Conn

/-- `fmt.Sprintf("%s:%d", host, port)`. -/
def hostPort (host : GoString) (port : Int) : GoString := host ++ 58 :: marshalInt port

/-- `n, err := conn.Read(buffer)` with a buffer of `size` bytes, then `buffer[:n]`:
the bytes available to the read, cut to the buffer. -/
def connRead (size : Nat) (available : Except Err GoString) : Except Err GoString :=
  match available with
  | .error err => .error err
  | .ok bytes => .ok (bytes.take size)

/-- `MaxineClient.DiscoverUDP`. -/
def DiscoverUDP (_c : MaxineClient) (dial : Dialer) (serviceName : GoString) (udpPort : Int)
    (udpHost : GoString) : Option ServiceNode × Option Err :=
  match dial (ascii "udp") (hostPort udpHost udpPort) with
  | .error err => (none, some err)
  | .ok conn =>
    match conn.write serviceName with
    | some err => (none, some err)
    | none =>
      match connRead 1024 (conn.read serviceName) with
      | .error err => (none, some err)
      | .ok buf => (some (jsonUnmarshalNode buf).1, (jsonUnmarshalNode buf).2)

/-- `MaxineClient.DiscoverTCP`. -/
def DiscoverTCP (_c : MaxineClient) (dial : Dialer) (serviceName : GoString) (tcpPort : Int)
    (tcpHost : GoString) : Option ServiceNode × Option Err :=
  match dial (ascii "tcp") (hostPort tcpHost tcpPort) with
  | .error err => (none, some err)
  | .ok conn =>
    match conn.write (serviceName ++ [10]) with
    | some err => (none, some err)
    | none =>
      match connRead 1024 (conn.read (serviceName ++ [10])) with
      | .error err => (none, some err)
      | .ok buf =>
        (some (jsonUnmarshalNode (TrimSpace buf)).1, (jsonUnmarshalNode (TrimSpace buf)).2)

/-- `http.NewRequest` followed by `http.DefaultClient.Do`: `newRequest` is the
error of building the request for a URL (`none` when it is built). -/
structure HttpClient where
  newRequest : GoString → Option Err
  send : HttpPeer

/-- `MaxineClient.Deregister`. -/
def Deregister (c : MaxineClient) (http : HttpClient) (serviceName nodeName : GoString) :
    Option Err :=
  let url := c.BaseURL ++ ascii "/api/maxine/serviceops/deregister"
  let data := marshalDeregister serviceName nodeName
  match http.newRequest url with
  | some err => some err
  | none =>
    match http.send (deleteRequest url data) with
    | .error err => some err
    | .ok resp =>
      if resp.StatusCode ≠ 200 then some (.msg (ascii "deregistration failed: " ++ resp.Body))
      else none

/-- A mock UDP peer that accepts the request and answers with the datagram `reply`. -/
def mockPeer (reply : GoString) : Dialer :=
  fun _ _ => .ok { write := fun _ => none, read := fun _ => .ok reply }

/-- What the first `conn.Read` finds on a TCP stream that reaches the client in the
given chunks, one per `Read`: the first chunk that holds bytes, `io.EOF` when the
peer closes without sending any. -/
def firstChunk : List GoString → Except Err GoString
  | [] => .error .eof
  | [] :: chunks => firstChunk chunks
  | (b :: bs) :: _ => .ok (b :: bs)

/-- A mock TCP peer that accepts the connection and the request; its reply reaches
the client in the given chunks. -/
def mockStream (chunks : List GoString) : Dialer :=
  fun _ _ => .ok { write := fun _ => none, read := fun _ => firstChunk chunks }

/-- An HTTP client over a mock registry: every request is built and answered with
the given status and body. -/
def mockClient (status : Int) (body : GoString) : HttpClient :=
  { newRequest := fun _ => none, send := mockRegistry status body }

/-! ## The heartbeat loop of `SendHeartbeat` -/

/-- `time.Second`, in nanoseconds. -/
def Second : Nat := 1000000000

/-- Where the goroutine of `SendHeartbeat` stands: about to call `Register`, or in
`time.Sleep`. -/
inductive Phase where
  | registering
  | sleeping
  deriving DecidableEq, Repr

/-- One call `fmt.Printf(format, err)`: the format string and the error printed
with `%v`. -/
structure PrintfCall where
  format : GoString
  arg : Err
  deriving DecidableEq, Repr

/-- State of the heartbeat goroutine: its phase, the payload it captured, the number
of `Register` calls made, and the calls of `fmt.Printf` made so far. -/
structure HbState where
  phase : Phase
  payload : RegisterPayload
  attempts : Nat
  printed : List PrintfCall

/-- What one step of the loop does: a `Register` call with its argument and
result, or a `time.Sleep` with its duration. -/
inductive HbEvent where
  | register (payload : RegisterPayload) (result : Option Err)
  | sleep (nanoseconds : Nat)

/-- `if err != nil { fmt.Printf("Heartbeat failed: %v\n", err) }` after a `Register`
call: the calls of `fmt.Printf` made so far. -/
def report (printed : List PrintfCall) (result : Option Err) : List PrintfCall :=
  match result with
  | some err => printed ++ [{ format := ascii "Heartbeat failed: %v\n", arg := err }]
  | none => printed

/-- One step of the loop `for { err := c.Register(payload); if err != nil { print };
time.Sleep(5 * time.Second) }`; `world n` is the registry as the `n`-th call finds it. -/
def hbStep (c : MaxineClient) (world : Nat → HttpPeer) (s : HbState) : HbEvent × HbState :=
  match s.phase with
  | .registering =>
    (.register s.payload (Register c (world s.attempts) s.payload),
      { s with phase := .sleeping, attempts := s.attempts + 1,
               printed := report s.printed (Register c (world s.attempts) s.payload) })
  | .sleeping => (.sleep (5 * Second), { s with phase := .registering })

/-- The step relation of the loop. -/
def HbStep (c : MaxineClient) (world : Nat → HttpPeer) (s : HbState) (e : HbEvent)
    (t : HbState) : Prop :=
  hbStep c world s = (e, t)

/-- `MaxineClient.SendHeartbeat`: nothing is returned to the caller; the goroutine
it starts begins in this state. -/
def SendHeartbeat (_c : MaxineClient) (payload : RegisterPayload) : Unit × HbState :=
  ((), { phase := .registering, payload := payload, attempts := 0, printed := [] })

/-- States the goroutine started by `SendHeartbeat` can reach. -/
inductive HbReachable (c : MaxineClient) (world : Nat → HttpPeer) (payload : RegisterPayload) :
    HbState → Prop where
  | start : HbReachable c world payload (SendHeartbeat c payload).2
  | step (s : HbState) (e : HbEvent) (t : HbState) :
      HbReachable c world payload s → HbStep c world s e t → HbReachable c world payload t

/-! ## The query of the Discover URL as the registry reads it -/

/-- Split at every occurrence of a separator byte. -/
def splitOn (sep : Nat) : GoString → List GoString
  | [] => [[]]
  | b :: bs =>
    match splitOn sep bs with
    | [] => [[b]]
    | cur :: rest => if b = sep then [] :: cur :: rest else (b :: cur) :: rest

/-- `url.QueryUnescape`: `%XX` is a byte, `+` a space; `none` on a bad escape. -/
def queryUnescape : GoString → Option GoString
  | [] => some []
  | b :: bs =>
    if b = 37 then
      match bs with
      | h1 :: h2 :: rest =>
        match hexVal h1, hexVal h2, queryUnescape rest with
        | some a, some d, some out => some ((a * 16 + d) :: out)
        | _, _, _ => none
      | _ => none
    else
      match queryUnescape bs with
      | some out => some ((if b = 43 then 32 else b) :: out)
      | none => none

/-- Key and value of one `key=value` pair, cut at the first `=`. -/
def cutPair (pair : GoString) : GoString × GoString :=
  (pair.takeWhile (fun b => b != 61), (pair.dropWhile (fun b => b != 61)).drop 1)

/-- `url.ParseQuery`: the parameters of a query string in order; empty pairs, pairs
with a semicolon and pairs with a bad escape are left out. -/
def parseQuery (query : GoString) : List (GoString × GoString) :=
  (splitOn 38 query).filterMap (fun pair =>
    if pair = [] ∨ 59 ∈ pair then none
    else
      match queryUnescape (cutPair pair).1, queryUnescape (cutPair pair).2 with
      | some k, some v => some (k, v)
      | _, _ => none)

/-- The raw query of a URL: what follows the first `?`, up to the first `#`. -/
def rawQuery (url : GoString) : GoString :=
  ((url.takeWhile (fun b => b != 35)).dropWhile (fun b => b != 63)).drop 1

/-! ## Auxiliary notions for the proofs -/

/-- A key written without escapes. -/
def plainKey (key : GoString) : Bool :=
  utf8Valid key && (appendStringFrom false 0 key == key)

/-- The JSON value that the encoding of a node denotes. -/
def nodeValue (v : ServiceNode) : GoValue :=
  .obj [(ascii "nodeName", .str v.NodeName), (ascii "address", .str v.Address)]

/-- An ASCII byte that `bytes.TrimSpace` keeps. -/
def asciiNonSpace (b : Nat) : Bool := decide (b < 128) && !asciiSpace b

/-- The last byte of a byte string (`0` when it is empty). -/
def lastByte : GoString → Nat
  | [] => 0
  | [b] => b
  | _ :: b :: bs => lastByte (b :: bs)

/-- A byte that ends a number: not a digit, `.`, `e` or `E`. -/
def endsNumber (c : Nat) : Bool := !isDigit c && c != 46 && c != 101 && c != 69

/-- An unreserved URL character: a letter, a digit, `-`, `.`, `_` or `~`. -/
def isUnreserved (b : Nat) : Bool :=
  (decide (48 ≤ b) && decide (b ≤ 57)) || (decide (65 ≤ b) && decide (b ≤ 90))
  || (decide (97 ≤ b) && decide (b ≤ 122)) || b == 45 || b == 46 || b == 95 || b == 126

/-- What may follow a number: nothing, or a byte that is not a digit, `.`, `e`, `E`. -/
def tailOK (R : GoString) : Prop := R = [] ∨ ∃ c cs, R = c :: cs ∧ endsNumber c = true

/-- Locality of `parseValue` with fuel `f`: a successful parse stops after an ASCII
byte other than white space and gives the same value whatever follows it; when the
value ends in a digit, what follows must not continue a number. -/
def LocalV (f : Nat) : Prop :=
  ∀ d bs v rest, parseValue f d bs = .ok (v, rest) →
    ∃ pre e, bs = pre ++ e :: rest ∧ asciiNonSpace e = true
      ∧ ∀ R, tailOK R ∨ isDigit e = false → parseValue f d (pre ++ e :: R) = .ok (v, R)

/-- Locality of `parseElems` with fuel `f`: a successful parse stops after `]`. -/
def LocalE (f : Nat) : Prop :=
  ∀ d bs vs rest, parseElems f d bs = .ok (vs, rest) →
    ∃ pre, bs = pre ++ 93 :: rest ∧ ∀ R, parseElems f d (pre ++ 93 :: R) = .ok (vs, R)

/-- Locality of `parseMembers` with fuel `f`: a successful parse stops after the
closing brace. -/
def LocalM (f : Nat) : Prop :=
  ∀ d bs ms rest, parseMembers f d bs = .ok (ms, rest) →
    ∃ pre, bs = pre ++ 125 :: rest ∧ ∀ R, parseMembers f d (pre ++ 125 :: R) = .ok (ms, R)

/-- Whether the bytes are a sequence of white-space runes in UTF-8, white space as
`unicode.IsSpace` knows it (what `bytes.TrimSpace` removes). -/
def spaceRunes : GoString → Bool
  | [] => true
  | b0 :: bs =>
    if asciiSpace b0 then spaceRunes bs
    else
      match bs with
      | [] => false
      | b1 :: bs1 =>
        if space2 b0 b1 then spaceRunes bs1
        else
          match bs1 with
          | [] => false
          | b2 :: bs2 => space3 b0 b1 b2 && spaceRunes bs2

/-- `json.Valid`: whether the bytes are one JSON value between optional white space. -/
def Valid (data : GoString) : Bool :=
  match checkedValue data with
  | .ok _ => true
  | .error _ => false

/-- Whether a JSON value is an object with exactly the members `nodeName` and
`address`, in either order, holding the strings of the node `v`. -/
def denotesNode : GoValue → ServiceNode → Bool
  | .obj [(k1, .str s1), (k2, .str s2)], v =>
    (k1 == ascii "nodeName" && s1 == v.NodeName && k2 == ascii "address" && s2 == v.Address)
    || (k1 == ascii "address" && s1 == v.Address && k2 == ascii "nodeName" && s2 == v.NodeName)
  | _, _ => false

/-- A well-formed JSON encoding of the node `v`: a JSON text (one value between
optional white space, in any spelling the JSON grammar allows) whose value is
the object with the two members of `v`. -/
def encodesNode (r : GoString) (v : ServiceNode) : Bool :=
  match checkedValue r with
  | .ok val => denotesNode val v
  | .error _ => false

/-- A value the node decoder accepts: `null` or an object. -/
def isNullOrObject : GoValue → Bool
  | .null => true
  | .obj _ => true
  | _ => false

/-- The errors of decoding a reply. -/
def isDecodeError : Err → Bool
  | .jsonSyntax => true
  | .jsonType => true
  | .eof => true
  | .unexpectedEOF => true
  | _ => false

/-- A value the decoder stores into a string field without error. -/
def isStringOrNull : GoValue → Bool
  | .str _ => true
  | .null => true
  | _ => false

/-- An object member that names a field of `ServiceNode` and holds a value other
than a string or `null`. -/
def badNodeMember (m : GoString × GoValue) : Bool :=
  (fieldIndex nodeFieldNames m.1).isSome && !isStringOrNull m.2

/-- The errors of the JSON scanner: a syntax error, or the end of the input inside
a value. -/
def isScanError : Err → Bool
  | .jsonSyntax => true
  | .unexpectedEOF => true
  | _ => false

/-- Whether the input begins, after white space, with a JSON value. -/
def beginsWithValue (data : GoString) : Bool :=
  match parseTop data with
  | .ok _ => true
  | .error _ => false

/-- A value `json.Unmarshal` stores into a `ServiceNode` without error: `null`, or
an object in which every member that names a field holds a string or `null`. -/
def acceptedAsNode : GoValue → Bool
  | .null => true
  | .obj ms => !ms.any badNodeMember
  | _ => false

/-- A reply that is not a JSON text, but has no white space around it to trim. -/
def notJsonReply : GoString := ascii "node n1 at h1:8080"

/-- A well-formed encoding of the scenario node with white space between the
tokens, the members in the other order and an escaped letter. -/
def spacedEncoding : GoString :=
  ascii " \x7b \"address\" : \"h1:8080\" ,\n \"nodeName\":\"n\\u0031\" \x7d "

/-- The state of the heartbeat goroutine after `n` steps. -/
def hbRun (c : MaxineClient) (world : Nat → HttpPeer) : Nat → HbState → HbState
  | 0, s => s
  | n + 1, s => hbRun c world n (hbStep c world s).2

/-- A registry that is down (503) when the first `Register` call reaches it and
answers 200 afterwards. -/
def flakyWorld : Nat → HttpPeer :=
  fun n => if n = 0 then mockRegistry 503 (ascii "down") else mockRegistry 200 []

/-- A JSON number literal: the text `strconv` writes for a finite `float64` is one. -/
def isNumberLit (lit : GoString) : Bool :=
  match parseNumber lit with
  | .ok (_, []) => true
  | _ => false

/-- Keys in increasing byte order without repetition: the order in which
`json.Marshal` writes a map, which has each key once. -/
def keysAscending : List GoString → Bool
  | [] => true
  | k :: ks => ks.all (fun k2 => bytesLE k k2 && k != k2) && keysAscending ks

mutual
/-- A dynamic value as the JSON decoder produces it: `nil`, a `bool`, a `float64`, a
`string` of valid UTF-8, a `[]interface{}` or a `map[string]interface{}` of such
values (a map listed by increasing key). -/
def plainValue : GoValue → Bool
  | .null => true
  | .bool _ => true
  | .num lit => isNumberLit lit
  | .str s => utf8Valid s
  | .arr xs => plainElems xs
  | .obj kvs => plainMembers kvs && keysAscending (kvs.map Prod.fst)
  | .chan => false
  | .int _ => false
/-- Every element is a plain value. -/
def plainElems : List GoValue → Bool
  | [] => true
  | x :: xs => plainValue x && plainElems xs
/-- Every key is valid UTF-8 and every value a plain value. -/
def plainMembers : List (GoString × GoValue) → Bool
  | [] => true
  | (k, v) :: kvs => utf8Valid k && plainValue v && plainMembers kvs
end

mutual
/-- How deep arrays and objects are nested in a value. -/
def nesting : GoValue → Nat
  | .arr xs => nestingElems xs + 1
  | .obj kvs => nestingMembers kvs + 1
  | _ => 0
/-- The deepest nesting among the elements. -/
def nestingElems : List GoValue → Nat
  | [] => 0
  | x :: xs => max (nesting x) (nestingElems xs)
/-- The deepest nesting among the values of the members. -/
def nestingMembers : List (GoString × GoValue) → Nat
  | [] => 0
  | (_, v) :: kvs => max (nesting v) (nestingMembers kvs)
end

/-- Round trip of one dynamic value: `json.Marshal` encodes it, the encoding does
not begin with white space, and the parser reads the encoding back as the value
whatever follows it (as long as that does not continue a number). -/
def RTValue (v : GoValue) : Prop :=
  ∃ text, marshalValue v = .ok text
    ∧ (∃ b tl, text = b :: tl ∧ isSpace b = false ∧ b ≠ 93)
    ∧ ∀ f d R, 2 * (text ++ R).length + 1 ≤ f → d + nesting v ≤ maxNestingDepth → tailOK R →
        parseValue f d (text ++ R) = .ok (v, R)

/-- Round trip of the elements of a slice, up to the closing bracket. -/
def RTElems (xs : List GoValue) : Prop :=
  ∃ es, marshalElems xs = .ok es ∧ (xs = [] → es = [])
    ∧ (xs ≠ [] → (∃ b tl, joinComma es = b :: tl ∧ isSpace b = false ∧ b ≠ 93)
        ∧ ∀ f d R, 2 * (joinComma es ++ 93 :: R).length + 2 ≤ f →
            d + nestingElems xs ≤ maxNestingDepth →
            parseElems f d (joinComma es ++ 93 :: R) = .ok (xs, R))

/-- Round trip of the members of a map written in the order given, from just after
the opening quote of the first key up to the closing brace. -/
def RTMembers (kvs : List (GoString × GoValue)) : Prop :=
  ∃ ms, marshalMembers kvs = .ok ms ∧ ms.map Prod.fst = kvs.map Prod.fst ∧ (kvs = [] → ms = [])
    ∧ (kvs ≠ [] → ∃ body, joinComma (ms.map memberText) = 34 :: body
        ∧ ∀ f d R, 2 * (body ++ 125 :: R).length + 2 ≤ f →
            d + nestingMembers kvs ≤ maxNestingDepth →
            parseMembers f d (body ++ 125 :: R) = .ok (kvs, R))

/-- The text of a JSON object with two members that hold strings, keys and strings
written as `json.Marshal` writes them, with the bytes `w 0`, ..., `w 9` between the
tokens. -/
def twoMemberText (w : Nat → GoString) (k1 s1 k2 s2 : GoString) : GoString :=
  w 0 ++ 123 :: (w 1 ++ marshalString k1 ++ (w 2 ++ 58 :: (w 3 ++ marshalString s1
    ++ (w 4 ++ 44 :: (w 5 ++ marshalString k2 ++ (w 6 ++ 58 :: (w 7 ++ marshalString s2
    ++ (w 8 ++ 125 :: w 9))))))))

/-! ## Example values -/

/-- A client bound to a local registry. -/
def exampleClient : MaxineClient := NewMaxineClient (ascii "http://localhost:8080")

/-- The payload of the scenario: `svc-a`, `n1`, `h1`, port 8080. -/
def examplePayload : RegisterPayload :=
  { ServiceName := ascii "svc-a", NodeName := ascii "n1", HostName := ascii "h1", Port := 8080,
    Weight := 0, Metadata := none }

/-- A payload whose metadata holds a channel, which has no JSON encoding. -/
def chanPayload : RegisterPayload :=
  { examplePayload with Metadata := some [(ascii "notify", GoValue.chan)] }

/-- The node of the scenario. -/
def exampleNode : ServiceNode := { NodeName := ascii "n1", Address := ascii "h1:8080" }

/-- A node whose name is 1100 letters `a`: its encoding is longer than the 1024-byte
read buffer. -/
def longNode : ServiceNode := { NodeName := List.replicate 1100 97, Address := ascii "h1:8080" }

theorem leadInfo_size (b0 n lo hi : Nat) (h : leadInfo b0 = some (n, lo, hi)) :
    2 ≤ n ∧ n ≤ 4 ∧ 0x80 ≤ lo ∧ hi ≤ 0xBF ∧ 0xC2 ≤ b0 := by
  unfold leadInfo at h
  split_ifs at h <;> simp at h <;> omega

/-- The width reported depends only on the bytes it covers. -/
theorem utf8LenOf_congr (b0 x1 x2 x3 y1 y2 y3 : Nat)
    (h1 : 2 ≤ utf8LenOf b0 x1 x2 x3 → y1 = x1)
    (h2 : 3 ≤ utf8LenOf b0 x1 x2 x3 → y2 = x2)
    (h3 : 4 ≤ utf8LenOf b0 x1 x2 x3 → y3 = x3)
    (hn : utf8LenOf b0 x1 x2 x3 ≠ 0) :
    utf8LenOf b0 y1 y2 y3 = utf8LenOf b0 x1 x2 x3 := by
  unfold utf8LenOf at *
  cases hl : leadInfo b0 with
  | none => simp [hl] at hn
  | some t =>
    obtain ⟨n, lo, hi⟩ := t
    have hs := leadInfo_size b0 n lo hi hl
    simp only [hl] at h1 h2 h3 hn ⊢
    by_cases hc : lo ≤ x1 ∧ x1 ≤ hi ∧ (n < 3 ∨ isCont x2 = true) ∧ (n < 4 ∨ isCont x3 = true)
    · simp only [hc, and_self, if_true] at h1 h2 h3 hn ⊢
      have e1 := h1 hs.1
      subst e1
      have hc2 : lo ≤ y1 ∧ y1 ≤ hi ∧ (n < 3 ∨ isCont y2 = true) ∧ (n < 4 ∨ isCont y3 = true) := by
        refine ⟨hc.1, hc.2.1, ?_, ?_⟩
        · by_cases h : n < 3
          · exact Or.inl h
          · rw [h2 (by omega)]; exact hc.2.2.1
        · by_cases h : n < 4
          · exact Or.inl h
          · rw [h3 (by omega)]; exact hc.2.2.2
      simp only [hc2, and_self, if_true]
    · simp [hc] at hn

theorem appendStringFrom_true_zero (s : GoString) :
    appendStringFrom true 0 s = appendStringFrom false 0 s := by
  cases s <;> simp [appendStringFrom]

theorem strBody_copy (k b : Nat) (bs : GoString) :
    strBody false (k + 1) (b :: bs) = consOut [b] (strBody false k bs) := by
  rw [strBody.eq_def]

theorem strBody_escapeByte (b : Nat) (hb : b < 128) (X : GoString) :
    strBody false 0 (escapeByte b ++ X) = consOut [b] (strBody false 0 X) := by
  interval_cases b <;> simp [escapeByte, hexDigit] <;> rw [strBody.eq_def] <;>
    simp [hex4, hexVal, simpleEscape, isSurrogate, encodeRune]

theorem getD_take_append (bs Y : GoString) (i k : Nat) (hi : i < k) (hk : k ≤ bs.length) :
    (bs.take k ++ Y).getD i 0 = bs.getD i 0 := by
  have h1 : i < (bs.take k).length := by simp; omega
  simp [List.getD_eq_getElem?_getD, List.getElem?_append_left h1, List.getElem?_take, hi]

theorem utf8LenOf_getD_length (b0 : Nat) (bs : GoString)
    (hn : utf8LenOf b0 (bs.getD 0 0) (bs.getD 1 0) (bs.getD 2 0) ≠ 0) :
    utf8LenOf b0 (bs.getD 0 0) (bs.getD 1 0) (bs.getD 2 0) - 1 ≤ bs.length := by
  unfold utf8LenOf at *
  cases hl : leadInfo b0 with
  | none => simp [hl] at hn
  | some t =>
    obtain ⟨n, lo, hi⟩ := t
    have hs := leadInfo_size b0 n lo hi hl
    simp only [hl] at hn ⊢
    split_ifs at hn ⊢ with hc
    · obtain ⟨c1, c2, c3, c4⟩ := hc
      match bs, c1, c2, c3, c4 with
      | [], c1, _, _, _ => simp at c1; omega
      | [x1], _, _, c3, _ =>
        simp [isCont] at c3
        simp; omega
      | [x1, x2], _, _, _, c4 =>
        simp [isCont] at c4
        simp; omega
      | x1 :: x2 :: x3 :: r, _, _, _, _ => simp; omega
    · simp

theorem appendStringFrom_copy (k : Nat) : ∀ (bs : GoString), k ≤ bs.length →
    appendStringFrom false k bs = bs.take k ++ appendStringFrom false 0 (bs.drop k) := by
  induction k with
  | zero => intro bs _; simp
  | succ k ih =>
    intro bs h
    cases bs with
    | nil => simp at h
    | cons b bs =>
      simp [appendStringFrom]
      exact ih bs (by simpa using h)

theorem utf8Len_cons_ge (b : Nat) (bs : GoString) (hb : ¬ b < 128) :
    utf8Len (b :: bs) = utf8LenOf b (bs.getD 0 0) (bs.getD 1 0) (bs.getD 2 0) := by
  simp [utf8Len, hb]

/-- After a lead byte, the decoder sees the same sequence width in the encoder's
output as the encoder saw in the string. -/
theorem utf8Len_appendString (b : Nat) (bs Y : GoString) (hb : ¬ b < 128)
    (hn : utf8Len (b :: bs) ≠ 0) :
    utf8Len (b :: (appendStringFrom false (utf8Len (b :: bs) - 1) bs ++ Y)) = utf8Len (b :: bs) := by
  rw [utf8Len_cons_ge b bs hb] at hn ⊢
  have hlen := utf8LenOf_getD_length b bs hn
  rw [utf8Len_cons_ge b _ hb, appendStringFrom_copy _ bs hlen, List.append_assoc]
  apply utf8LenOf_congr
  · intro h; exact getD_take_append bs _ 0 _ (by omega) hlen
  · intro h; exact getD_take_append bs _ 1 _ (by omega) hlen
  · intro h; exact getD_take_append bs _ 2 _ (by omega) hlen
  · exact hn

theorem utf8ValidFrom_zero_cons (b : Nat) (bs : GoString) (h : utf8ValidFrom 0 (b :: bs) = true) :
    utf8Len (b :: bs) ≠ 0 ∧ utf8ValidFrom (utf8Len (b :: bs) - 1) bs = true := by
  simp only [utf8ValidFrom] at h
  split_ifs at h with h0
  · exact ⟨h0, h⟩

theorem strBody_quote (rest : GoString) : strBody false 0 (34 :: rest) = .ok ([], rest) := by
  rw [strBody.eq_def]; simp

theorem take_two_eq (bs : GoString) (x y : Nat) (h : bs.take 2 = [x, y]) :
    ∃ r, bs = x :: y :: r := by
  match bs, h with
  | [], h => simp at h
  | [_], h => simp at h
  | a :: b :: r, h =>
    simp at h
    obtain ⟨rfl, rfl⟩ := h
    exact ⟨r, rfl⟩

theorem strBody_u2028 (Z : GoString) :
    strBody false 0 (ascii "\\u2028" ++ Z) = consOut [0xE2, 0x80, 0xA8] (strBody false 0 Z) := by
  have e : ascii "\\u2028" = [92, 117, 50, 48, 50, 56] := by decide
  rw [e, strBody.eq_def]
  simp [hex4, hexVal, isSurrogate, encodeRune]

theorem strBody_u2029 (Z : GoString) :
    strBody false 0 (ascii "\\u2029" ++ Z) = consOut [0xE2, 0x80, 0xA9] (strBody false 0 Z) := by
  have e : ascii "\\u2029" = [92, 117, 50, 48, 50, 57] := by decide
  rw [e, strBody.eq_def]
  simp [hex4, hexVal, isSurrogate, encodeRune]

theorem strBody_appendString_aux (rest : GoString) : ∀ (s : GoString),
    (∀ k, k ≤ s.length → utf8ValidFrom k s = true →
      strBody false k (appendStringFrom false k s ++ 34 :: rest) = .ok (s, rest))
    ∧ (∀ k, k ≤ s.length → utf8ValidFrom k s = true →
      strBody false 0 (appendStringFrom true k s ++ 34 :: rest) = .ok (s.drop k, rest)) := by
  intro s
  induction s with
  | nil =>
    constructor
    · intro k hk _
      have : k = 0 := by simpa using hk
      subst this
      simp [appendStringFrom, strBody_quote]
    · intro k hk _
      have : k = 0 := by simpa using hk
      subst this
      simp [appendStringFrom, strBody_quote]
  | cons b bs ih =>
    have hcopy0 : utf8ValidFrom 0 (b :: bs) = true →
        strBody false 0 (appendStringFrom false 0 (b :: bs) ++ 34 :: rest) = .ok (b :: bs, rest) := by
      intro hv
      obtain ⟨hn, hv1⟩ := utf8ValidFrom_zero_cons b bs hv
      by_cases hb : b < 128
      · have h1 : utf8Len (b :: bs) = 1 := by simp [utf8Len, hb]
        rw [h1] at hv1
        have e : appendStringFrom false 0 (b :: bs) = escapeByte b ++ appendStringFrom false 0 bs := by
          simp [appendStringFrom, hb]
        rw [e, List.append_assoc, strBody_escapeByte b hb, ih.1 0 (Nat.zero_le _) hv1]
        rfl
      · have hlen : utf8Len (b :: bs) - 1 ≤ bs.length := by
          rw [utf8Len_cons_ge b bs hb] at hn ⊢
          exact utf8LenOf_getD_length b bs hn
        by_cases hA : b = 0xE2 ∧ bs.take 2 = [0x80, 0xA8]
        · obtain ⟨rfl, ht⟩ := hA
          obtain ⟨r, rfl⟩ := take_two_eq bs _ _ ht
          have h3 : utf8Len (0xE2 :: 0x80 :: 0xA8 :: r) = 3 := by
            simp [utf8Len, utf8LenOf, leadInfo, isCont]
          rw [h3] at hv1
          have e : appendStringFrom false 0 (0xE2 :: 0x80 :: 0xA8 :: r)
              = ascii "\\u2028" ++ appendStringFrom true 2 (0x80 :: 0xA8 :: r) := by
            simp only [appendStringFrom]
            simp [h3]
          rw [e, List.append_assoc, strBody_u2028, ih.2 2 (by simp) hv1]
          rfl
        · by_cases hB : b = 0xE2 ∧ bs.take 2 = [0x80, 0xA9]
          · obtain ⟨rfl, ht⟩ := hB
            obtain ⟨r, rfl⟩ := take_two_eq bs _ _ ht
            have h3 : utf8Len (0xE2 :: 0x80 :: 0xA9 :: r) = 3 := by
              simp [utf8Len, utf8LenOf, leadInfo, isCont]
            rw [h3] at hv1
            have e : appendStringFrom false 0 (0xE2 :: 0x80 :: 0xA9 :: r)
                = ascii "\\u2029" ++ appendStringFrom true 2 (0x80 :: 0xA9 :: r) := by
              simp only [appendStringFrom]
              simp [h3]
            rw [e, List.append_assoc, strBody_u2029, ih.2 2 (by simp) hv1]
            rfl
          · have e : appendStringFrom false 0 (b :: bs)
                = b :: appendStringFrom false (utf8Len (b :: bs) - 1) bs := by
              simp only [appendStringFrom]
              simp [hb, hn, hA, hB]
            rw [e, List.cons_append, strBody.eq_def]
            have h34 : b ≠ 34 := by omega
            have h92 : b ≠ 92 := by omega
            have h32 : ¬ b < 32 := by omega
            simp only [h34, h92, h32, hb, if_false]
            rw [utf8Len_appendString b bs _ hb hn]
            simp only [hn, if_false]
            rw [ih.1 _ hlen hv1]
            rfl
    refine ⟨?_, ?_⟩
    · intro k hk hv
      cases k with
      | zero => exact hcopy0 hv
      | succ k =>
        simp only [appendStringFrom, List.cons_append]
        rw [strBody_copy, ih.1 k (by simpa using hk) (by simpa [utf8ValidFrom] using hv)]
        rfl
    · intro k hk hv
      cases k with
      | zero =>
        rw [appendStringFrom_true_zero]
        exact hcopy0 hv
      | succ k =>
        simp only [appendStringFrom, List.drop_succ_cons]
        exact ih.2 k (by simpa using hk) (by simpa [utf8ValidFrom] using hv)

/-- Decoding the literal the encoder writes for a valid UTF-8 string gives the string back. -/
theorem strBody_appendString (s rest : GoString) (hv : utf8Valid s = true) :
    strBody false 0 (appendStringFrom false 0 s ++ 34 :: rest) = .ok (s, rest) :=
  (strBody_appendString_aux rest s).1 0 (Nat.zero_le _) hv

theorem skipWs_cons_of_not_space (c : Nat) (cs : GoString) (h : isSpace c = false) :
    skipWs (c :: cs) = c :: cs := by
  simp [skipWs, h]

theorem parseValue_marshalString (f d : Nat) (s R : GoString) (hv : utf8Valid s = true) :
    parseValue (f + 1) d (marshalString s ++ R) = .ok (.str s, R) := by
  simp only [marshalString, List.cons_append, List.append_assoc, List.singleton_append]
  rw [parseValue]
  simp [strBody_appendString s R hv]

theorem parseMembers_last (f d : Nat) (key vt : GoString) (v : GoValue) (rest : GoString)
    (hkey : plainKey key = true)
    (hsk : skipWs (vt ++ 125 :: rest) = vt ++ 125 :: rest)
    (hval : parseValue f d (vt ++ 125 :: rest) = .ok (v, 125 :: rest)) :
    parseMembers (f + 1) d (key ++ 34 :: 58 :: (vt ++ 125 :: rest)) = .ok ([(key, v)], rest) := by
  simp only [plainKey, Bool.and_eq_true, beq_iff_eq] at hkey
  have hk := strBody_appendString key (58 :: (vt ++ 125 :: rest)) hkey.1
  rw [hkey.2] at hk
  rw [parseMembers]
  simp [hk, skipWs, isSpace, hsk, hval]

theorem parseMembers_more (f d : Nat) (key vt : GoString) (v : GoValue) (more : GoString)
    (ms : List (GoString × GoValue)) (rest : GoString)
    (hkey : plainKey key = true)
    (hsk : skipWs (vt ++ 44 :: 34 :: more) = vt ++ 44 :: 34 :: more)
    (hval : parseValue f d (vt ++ 44 :: 34 :: more) = .ok (v, 44 :: 34 :: more))
    (hmore : parseMembers f d more = .ok (ms, rest)) :
    parseMembers (f + 1) d (key ++ 34 :: 58 :: (vt ++ 44 :: 34 :: more))
      = .ok ((key, v) :: ms, rest) := by
  simp only [plainKey, Bool.and_eq_true, beq_iff_eq] at hkey
  have hk := strBody_appendString key (58 :: (vt ++ 44 :: 34 :: more)) hkey.1
  rw [hkey.2] at hk
  rw [parseMembers]
  simp [hk, skipWs, isSpace, hsk, hval, hmore]

theorem parseValue_object (f d : Nat) (body : GoString) (ms : List (GoString × GoValue))
    (rest : GoString) (hd : d < maxNestingDepth)
    (hm : parseMembers f (d + 1) body = .ok (ms, rest)) :
    parseValue (f + 1) d (123 :: 34 :: body) = .ok (.obj ms, rest) := by
  rw [parseValue]
  simp [skipWs, isSpace, hm, Nat.not_le.mpr hd]

theorem skipWs_marshalString (s R : GoString) :
    skipWs (marshalString s ++ R) = marshalString s ++ R := by
  simp [marshalString, skipWs, isSpace]

theorem marshalServiceNode_eq (v : ServiceNode) :
    marshalServiceNode v = 123 :: 34 :: (ascii "nodeName" ++ 34 :: 58 :: (marshalString v.NodeName
      ++ 44 :: 34 :: (ascii "address" ++ 34 :: 58 :: (marshalString v.Address ++ 125 :: [])))) := by
  have e1 : ascii "\x7b\"nodeName\":" = 123 :: 34 :: (ascii "nodeName" ++ [34, 58]) := by decide
  have e2 : ascii ",\"address\":" = 44 :: 34 :: (ascii "address" ++ [34, 58]) := by decide
  simp [marshalServiceNode, e1, e2]

theorem parseValue_marshalServiceNode (f : Nat) (v : ServiceNode) (rest : GoString)
    (h1 : utf8Valid v.NodeName = true) (h2 : utf8Valid v.Address = true) :
    parseValue (f + 4) 0 (marshalServiceNode v ++ rest) = .ok (nodeValue v, rest) := by
  rw [marshalServiceNode_eq]
  simp only [List.cons_append, List.append_assoc, List.nil_append]
  apply parseValue_object _ _ _ _ _ (by decide)
  apply parseMembers_more (f + 2) 1 _ _ (.str v.NodeName) _ _ _ (by decide)
    (skipWs_marshalString _ _) (parseValue_marshalString _ _ _ _ h1)
  exact parseMembers_last (f + 1) 1 _ _ (.str v.Address) _ (by decide)
    (skipWs_marshalString _ _) (parseValue_marshalString _ _ _ _ h2)

theorem marshalServiceNode_length (v : ServiceNode) : 3 ≤ (marshalServiceNode v).length := by
  rw [marshalServiceNode_eq]
  simp
  omega

theorem skipWs_marshalServiceNode (v : ServiceNode) (rest : GoString) :
    skipWs (marshalServiceNode v ++ rest) = marshalServiceNode v ++ rest := by
  rw [marshalServiceNode_eq]
  simp [skipWs, isSpace]

theorem parseTop_marshalServiceNode (v : ServiceNode) (rest : GoString)
    (h1 : utf8Valid v.NodeName = true) (h2 : utf8Valid v.Address = true) :
    parseTop (marshalServiceNode v ++ rest) = .ok (nodeValue v, rest) := by
  unfold parseTop
  rw [skipWs_marshalServiceNode]
  have hl := marshalServiceNode_length v
  obtain ⟨f, hf⟩ : ∃ f, 2 * (marshalServiceNode v ++ rest).length + 2 = f + 4 :=
    ⟨2 * (marshalServiceNode v ++ rest).length - 2, by simp; omega⟩
  rw [hf]
  exact parseValue_marshalServiceNode f v rest h1 h2

theorem trimLeft_cons_nonSpace (b : Nat) (bs : GoString) (h : asciiNonSpace b = true) :
    trimLeft (b :: bs) = b :: bs := by
  simp only [asciiNonSpace, Bool.and_eq_true, decide_eq_true_eq, Bool.not_eq_true'] at h
  obtain ⟨hlt, hsp⟩ := h
  have h2 : ∀ b1, space2 b b1 = false := by
    intro b1; simp [space2]; intro hb; omega
  have h3 : ∀ b1 b2, space3 b b1 b2 = false := by
    intro b1 b2
    have e1 : (b == 0xE1) = false := by simp; omega
    have e2 : (b == 0xE2) = false := by simp; omega
    have e3 : (b == 0xE3) = false := by simp; omega
    simp [space3, e1, e2, e3]
  match bs with
  | [] => simp [trimLeft, hsp]
  | [b1] => simp [trimLeft, hsp, h2]
  | b1 :: b2 :: r => simp [trimLeft, hsp, h2, h3]

theorem trimLeftRev_cons_nonSpace (b : Nat) (bs : GoString) (h : asciiNonSpace b = true) :
    trimLeftRev (b :: bs) = b :: bs := by
  simp only [asciiNonSpace, Bool.and_eq_true, decide_eq_true_eq, Bool.not_eq_true'] at h
  obtain ⟨hlt, hsp⟩ := h
  have h2 : ∀ b1, space2 b1 b = false := by
    intro b1
    have e1 : (b == 0x85) = false := by simp; omega
    have e2 : (b == 0xA0) = false := by simp; omega
    simp [space2, e1, e2]
  have h3 : ∀ b1 b2, space3 b2 b1 b = false := by
    intro b1 b2
    have e1 : (b == 0x80) = false := by simp; omega
    have e2 : (b == 0xA8) = false := by simp; omega
    have e3 : (b == 0xA9) = false := by simp; omega
    have e4 : (b == 0xAF) = false := by simp; omega
    have e5 : (b == 0x9F) = false := by simp; omega
    have e6 : decide (0x80 ≤ b) = false := by simp; omega
    simp [space3, e1, e2, e3, e4, e5, e6]
  match bs with
  | [] => simp [trimLeftRev, hsp]
  | [b1] => simp [trimLeftRev, hsp, h2]
  | b1 :: b2 :: r => simp [trimLeftRev, hsp, h2, h3]

theorem trimLeft_append_spaces (pre s : GoString) (h : ∀ b ∈ pre, asciiSpace b = true) :
    trimLeft (pre ++ s) = trimLeft s := by
  induction pre with
  | nil => rfl
  | cons b pre ih =>
    have hb := h b (by simp)
    rw [List.cons_append, trimLeft.eq_def]
    simp only [hb, if_true]
    exact ih (fun x hx => h x (by simp [hx]))

theorem trimLeftRev_append_spaces (pre s : GoString) (h : ∀ b ∈ pre, asciiSpace b = true) :
    trimLeftRev (pre ++ s) = trimLeftRev s := by
  induction pre with
  | nil => rfl
  | cons b pre ih =>
    have hb := h b (by simp)
    rw [List.cons_append, trimLeftRev.eq_def]
    simp only [hb, if_true]
    exact ih (fun x hx => h x (by simp [hx]))

theorem trimLeft_length_le (s : GoString) : (trimLeft s).length ≤ s.length := by
  induction s using trimLeft.induct <;> rw [trimLeft.eq_def] <;> simp_all <;> omega

theorem trimLeftRev_length_le (s : GoString) : (trimLeftRev s).length ≤ s.length := by
  induction s using trimLeftRev.induct <;> rw [trimLeftRev.eq_def] <;> simp_all <;> omega

theorem TrimSpace_length_le (s : GoString) : (TrimSpace s).length ≤ s.length := by
  unfold TrimSpace
  have h1 := trimLeftRev_length_le (trimLeft s).reverse
  have h2 := trimLeft_length_le s
  simp at h1 ⊢
  omega

/-! ## Register, Deregister and the status check of Discover -/

/-- C1 (as stated, refuted): with a payload `json.Marshal` rejects, `Register`
returns the marshalling error whatever the registry would answer: an error under
status 200, and not the registration error under status 500. -/
theorem register_chanPayload_counterexample :
    Register exampleClient (mockRegistry 200 (ascii "ok")) chanPayload = some Err.jsonUnsupported
    ∧ Register exampleClient (mockRegistry 500 (ascii "boom")) chanPayload
        ≠ some (Err.msg (ascii "registration failed: boom")) := by
  decide

/-- C1 (amended): for every payload that `json.Marshal` encodes, `Register` against
a registry answering `(status, body)` returns no error when the status is 200 and
otherwise the error `registration failed: ` followed by the body, byte for byte. -/
theorem register_status_contract (c : MaxineClient) (p : RegisterPayload) (data : GoString)
    (status : Int) (body : GoString) (hdata : marshalPayload p = .ok data) :
    (status = 200 → Register c (mockRegistry status body) p = none)
    ∧ (status ≠ 200 →
        Register c (mockRegistry status body) p
          = some (Err.msg (ascii "registration failed: " ++ body))) := by
  constructor
  · intro h
    simp [Register, hdata, mockRegistry, h]
  · intro h
    simp [Register, hdata, mockRegistry, h]

/-- C1 witness: the scenario payload against a registry answering 503. -/
theorem register_status_contract_witness :
    marshalPayload examplePayload
        = .ok (ascii "\x7b\"serviceName\":\"svc-a\",\"nodeName\":\"n1\",\"hostName\":\"h1\",\"port\":8080\x7d")
    ∧ Register exampleClient (mockRegistry 503 (ascii "down")) examplePayload
        = some (Err.msg (ascii "registration failed: down")) :=
  ⟨by decide,
   (register_status_contract exampleClient examplePayload
      (ascii "\x7b\"serviceName\":\"svc-a\",\"nodeName\":\"n1\",\"hostName\":\"h1\",\"port\":8080\x7d")
      503 (ascii "down") (by decide)).2 (by decide)⟩

/-- C4: `Deregister` returns no error exactly when the request is built, the
registry answers it, and the answer has status 200; an answer with any other
status gives the error `deregistration failed: ` followed by the raw body. -/
theorem deregister_contract (c : MaxineClient) (http : HttpClient)
    (serviceName nodeName : GoString) :
    (Deregister c http serviceName nodeName = none ↔
      ∃ resp, http.newRequest (c.BaseURL ++ ascii "/api/maxine/serviceops/deregister") = none
        ∧ http.send (deleteRequest (c.BaseURL ++ ascii "/api/maxine/serviceops/deregister")
            (marshalDeregister serviceName nodeName)) = .ok resp
        ∧ resp.StatusCode = 200)
    ∧ (∀ resp, http.newRequest (c.BaseURL ++ ascii "/api/maxine/serviceops/deregister") = none →
        http.send (deleteRequest (c.BaseURL ++ ascii "/api/maxine/serviceops/deregister")
            (marshalDeregister serviceName nodeName)) = .ok resp →
        resp.StatusCode ≠ 200 →
        Deregister c http serviceName nodeName
          = some (Err.msg (ascii "deregistration failed: " ++ resp.Body))) := by
  constructor
  · unfold Deregister
    cases hreq : http.newRequest (c.BaseURL ++ ascii "/api/maxine/serviceops/deregister") with
    | some e => simp [hreq]
    | none =>
      cases hsend : http.send (deleteRequest (c.BaseURL ++ ascii "/api/maxine/serviceops/deregister")
          (marshalDeregister serviceName nodeName)) with
      | error e => simp [hreq, hsend]
      | ok resp =>
        by_cases hst : resp.StatusCode = 200 <;> simp [hreq, hsend, hst]
  · intro resp hreq hsend hst
    simp [Deregister, hreq, hsend, hst]

/-- C4 witness: a registry that answers 404 `node not found`. -/
theorem deregister_contract_witness :
    Deregister exampleClient (mockClient 404 (ascii "node not found")) (ascii "svc-a") (ascii "n1")
      = some (Err.msg (ascii "deregistration failed: node not found")) :=
  (deregister_contract exampleClient (mockClient 404 (ascii "node not found")) (ascii "svc-a")
    (ascii "n1")).2 ⟨404, ascii "node not found"⟩ rfl rfl (by decide)

/-- C5: when the registry answers the GET of `Discover` with a status other than
200, the result is a nil node and the error `discovery failed: ` followed by the
raw body; the body is not decoded. -/
theorem discover_non200 (c : MaxineClient) (peer : HttpPeer) (serviceName : GoString)
    (resp : HttpResponse) (hresp : peer (getRequest (discoverURL c serviceName)) = .ok resp)
    (hstatus : resp.StatusCode ≠ 200) :
    Discover c peer serviceName
      = (none, some (Err.msg (ascii "discovery failed: " ++ resp.Body))) := by
  simp [Discover, hresp, hstatus]

/-- C5 witness: status 404 with a body that is a well-formed node encoding. -/
theorem discover_non200_witness :
    Discover exampleClient (mockRegistry 404 (marshalServiceNode exampleNode)) (ascii "svc-a")
      = (none, some (Err.msg (ascii "discovery failed: " ++ marshalServiceNode exampleNode))) :=
  discover_non200 exampleClient (mockRegistry 404 (marshalServiceNode exampleNode)) (ascii "svc-a")
    ⟨404, marshalServiceNode exampleNode⟩ rfl (by decide)

/-! ## The heartbeat loop keeps its payload -/

/-- Every reachable state of the heartbeat goroutine still holds the payload given
to `SendHeartbeat`. -/
theorem hbReachable_payload (c : MaxineClient) (world : Nat → HttpPeer) (payload : RegisterPayload)
    (s : HbState) (hs : HbReachable c world payload s) : s.payload = payload := by
  induction hs with
  | start => rfl
  | step s e t _ hstep ih =>
    unfold HbStep hbStep at hstep
    cases hph : s.phase <;> simp [hph] at hstep <;> rw [← hstep.2] <;> exact ih

/-! ## The Discover URL -/

/-- C8 (code defect): `Discover` pastes the service name into the URL unescaped.
For the name `svc&proxy=true` the query the registry parses has three parameters,
`serviceName=svc`, `proxy=true`, `proxy=false`, and not the two the caller meant. -/
theorem discover_query_unescaped :
    discoverURL exampleClient (ascii "svc&proxy=true")
      = ascii "http://localhost:8080/api/maxine/serviceops/discover?serviceName=svc&proxy=true&proxy=false"
    ∧ parseQuery (rawQuery (discoverURL exampleClient (ascii "svc&proxy=true")))
      = [(ascii "serviceName", ascii "svc"), (ascii "proxy", ascii "true"),
         (ascii "proxy", ascii "false")]
    ∧ parseQuery (rawQuery (discoverURL exampleClient (ascii "svc&proxy=true")))
      ≠ [(ascii "serviceName", ascii "svc&proxy=true"), (ascii "proxy", ascii "false")] := by
  decide

/-! ## Discover: decoding the reply -/

/-- C2 (as stated, refuted): a node whose encoding exceeds the 1024-byte buffer is
cut by `DiscoverUDP` and `DiscoverTCP`, which then fail; `DiscoverTCP` also fails
on the 37-byte encoding of the scenario node when it arrives in two chunks, since
it reads once; and a node whose name is not valid UTF-8 comes back changed even
over HTTP. -/
theorem discover_roundtrip_counterexample :
    DiscoverUDP exampleClient (mockPeer (marshalServiceNode longNode)) (ascii "svc-a") 9000
        (ascii "h") = (some zeroNode, some Err.jsonSyntax)
    ∧ DiscoverTCP exampleClient (mockStream [marshalServiceNode longNode]) (ascii "svc-a") 9000
        (ascii "h") = (some zeroNode, some Err.jsonSyntax)
    ∧ DiscoverTCP exampleClient
        (mockStream [(marshalServiceNode exampleNode).take 20, (marshalServiceNode exampleNode).drop 20])
        (ascii "svc-a") 9000 (ascii "h") = (some zeroNode, some Err.jsonSyntax)
    ∧ Discover exampleClient (mockRegistry 200 (marshalServiceNode longNode)) (ascii "svc-a")
        = (some longNode, none)
    ∧ Discover exampleClient
        (mockRegistry 200 (marshalServiceNode { NodeName := [0xFF], Address := ascii "h1:8080" }))
        (ascii "svc-a")
        = (some { NodeName := [0xEF, 0xBF, 0xBD], Address := ascii "h1:8080" }, none) := by
  decide!

theorem lastByte_append_cons (l : GoString) (x : Nat) (rest : GoString) :
    lastByte (l ++ x :: rest) = lastByte (x :: rest) := by
  induction l with
  | nil => rfl
  | cons a l ih =>
    cases l with
    | nil => simp [lastByte]
    | cons a2 l => simpa [lastByte] using ih

theorem lastByte_reverse_cons (y : Nat) (ys : GoString) : lastByte ((y :: ys).reverse) = y := by
  rw [List.reverse_cons, lastByte_append_cons]
  rfl

/-- C3 (as stated, refuted): HTTP `Discover` decodes the first JSON value of the
body and ignores what follows, so a well-formed encoding followed by other bytes
is returned as a success. -/
theorem discover_trailing_bytes_counterexample :
    Discover exampleClient (mockRegistry 200 (marshalServiceNode exampleNode ++ ascii "garbage"))
      (ascii "svc-a") = (some exampleNode, none) := by
  decide

/-- C9 (as stated, refuted): the reply `{}` is returned by all three variants as a
success whose node has an empty name and an empty address. -/
theorem discover_empty_object_counterexample :
    Discover exampleClient (mockRegistry 200 (ascii "\x7b\x7d")) (ascii "svc-a")
        = (some { NodeName := [], Address := [] }, none)
    ∧ DiscoverUDP exampleClient (mockPeer (ascii "\x7b\x7d")) (ascii "svc-a") 9000 (ascii "h")
        = (some { NodeName := [], Address := [] }, none)
    ∧ DiscoverTCP exampleClient (mockStream [ascii "\x7b\x7d"]) (ascii "svc-a") 9000 (ascii "h")
        = (some { NodeName := [], Address := [] }, none) := by
  decide

theorem parseValue_nil (f d : Nat) : parseValue f d [] = .error .unexpectedEOF := by
  cases f <;> simp [parseValue]

/-- What `json.Unmarshal` accepts as one value, the stream decoder reads as the same value. -/
theorem streamValue_of_checkedValue (r : GoString) (v : GoValue) (h : checkedValue r = .ok v) :
    streamValue r = .ok v := by
  unfold checkedValue at h
  cases hp : parseTop r with
  | error e => simp [hp] at h
  | ok res =>
    obtain ⟨v1, rest⟩ := res
    simp only [hp] at h
    split_ifs at h with hs
    have hv : v1 = v := by simpa using h
    subst hv
    have hne : skipWs r ≠ [] := by
      intro h0
      unfold parseTop at hp
      rw [h0, parseValue_nil] at hp
      simp at hp
    unfold streamValue
    simp only [hne, if_false, hp]

theorem span_digits (ds : GoString) (c : Nat) (R : GoString) (hds : ∀ b ∈ ds, isDigit b = true)
    (hc : isDigit c = false) : (ds ++ c :: R).span isDigit = (ds, c :: R) := by
  induction ds with
  | nil => simp [List.span_eq_take_drop, List.takeWhile, List.dropWhile, hc]
  | cons d ds ih =>
    have hd := hds d (by simp)
    have := ih (fun b hb => hds b (by simp [hb]))
    simp [List.span_eq_take_drop, List.takeWhile, List.dropWhile, hd] at this ⊢
    exact this

theorem consOut_eq_ok (x : GoString) (r : Except Err (GoString × GoString)) (s rest : GoString)
    (h : consOut x r = .ok (s, rest)) : ∃ s1, r = .ok (s1, rest) ∧ s = x ++ s1 := by
  cases r with
  | error e => simp [consOut] at h
  | ok p =>
    obtain ⟨s1, r1⟩ := p
    simp [consOut] at h
    exact ⟨s1, by rw [h.2], h.1.symm⟩

theorem strBody_length (sk : Bool) (k : Nat) (bs : GoString) : ∀ (s rest : GoString),
    strBody sk k bs = .ok (s, rest) → rest.length < bs.length := by
  induction sk, k, bs using strBody.induct <;> intro s rest h <;> rw [strBody.eq_def] at h <;>
    simp only [*, if_true, if_false, reduceCtorEq, List.length_cons] at h ⊢
  case case16 hn ih =>
    have hn2 : utf8Len (_ :: _) = 0 := hn
    rw [if_pos hn2] at h
    obtain ⟨s1, h1, hs1⟩ := consOut_eq_ok _ _ _ _ h
    have := ih s1 rest h1
    omega
  all_goals first
    | omega
    | (simp at h; done)
    | (simp at h; rw [← h.2]; omega)
    | (rename_i ih
       have := ih s rest h
       omega)
    | (rename_i ih
       obtain ⟨s1, h1, hs1⟩ := consOut_eq_ok _ _ _ _ h
       have := ih s1 rest h1
       omega)

theorem skipWs_length_le (bs : GoString) : (skipWs bs).length ≤ bs.length := by
  induction bs with
  | nil => simp [skipWs]
  | cons b bs ih =>
    unfold skipWs
    split_ifs
    · simp; omega
    · simp

theorem expectLit_length (lit : GoString) : ∀ (bs rest : GoString),
    expectLit lit bs = .ok rest → rest.length ≤ bs.length := by
  induction lit with
  | nil => intro bs rest h; simp [expectLit] at h; rw [h]
  | cons l ls ih =>
    intro bs rest h
    cases bs with
    | nil => simp [expectLit] at h
    | cons b bs =>
      simp only [expectLit] at h
      split_ifs at h
      have := ih bs rest h
      simp; omega

theorem dropWhile_length_le (p : Nat → Bool) (bs : GoString) :
    (bs.dropWhile p).length ≤ bs.length := by
  induction bs with
  | nil => simp
  | cons b bs ih =>
    simp only [List.dropWhile]
    split
    · simp; omega
    · simp

theorem span_cons_digit (c : Nat) (cs : GoString) (hc : isDigit c = true) :
    ((c :: cs).span isDigit).2.length ≤ cs.length := by
  simp only [List.span_eq_take_drop, List.dropWhile, hc]
  exact dropWhile_length_le isDigit cs

theorem digits1_length (bs lit rest : GoString) (h : digits1 bs = .ok (lit, rest)) :
    rest.length < bs.length := by
  unfold digits1 at h
  cases bs with
  | nil => simp at h
  | cons c cs =>
    simp only at h
    split_ifs at h with hc
    have := span_cons_digit c cs hc
    simp only [Except.ok.injEq] at h
    rw [h] at this
    simp at this ⊢
    omega

theorem numExp_length (bs lit rest : GoString) (h : numExp bs = .ok (lit, rest)) :
    rest.length ≤ bs.length := by
  unfold numExp at h
  split at h
  · split_ifs at h
    · split at h
      · split_ifs at h
        · split at h
          · rename_i hd
            have := digits1_length _ _ _ hd
            simp at h; rw [← h.2]; simp at this ⊢; omega
          · simp at h
        · split at h
          · rename_i hd
            have := digits1_length _ _ _ hd
            simp at h; rw [← h.2]; simp at this ⊢; omega
          · simp at h
      · simp at h
    · simp at h; rw [← h.2]
  · simp at h; rw [← h.2]

theorem numFrac_length (bs lit rest : GoString) (h : numFrac bs = .ok (lit, rest)) :
    rest.length ≤ bs.length := by
  unfold numFrac at h
  split at h
  · split at h
    · rename_i hd
      have h1 := digits1_length _ _ _ hd
      split at h
      · rename_i he
        have h2 := numExp_length _ _ _ he
        simp at h; rw [← h.2]; simp; omega
      · simp at h
    · simp at h
  · exact numExp_length _ _ _ h

theorem numInt_length (bs lit rest : GoString) (h : numInt bs = .ok (lit, rest)) :
    rest.length < bs.length := by
  unfold numInt at h
  split at h
  · simp at h
  · rename_i c cs
    split_ifs at h with h48 hc
    · split at h
      · rename_i hf
        have := numFrac_length _ _ _ hf
        simp at h; rw [← h.2]; simp; omega
      · simp at h
    · split at h
      · rename_i hf
        have h1 := numFrac_length _ _ _ hf
        have h2 := span_cons_digit c cs hc
        simp at h; rw [← h.2]
        simp; omega
      · simp at h

theorem parseNumber_length (bs lit rest : GoString) (h : parseNumber bs = .ok (lit, rest)) :
    rest.length < bs.length := by
  unfold parseNumber at h
  split at h
  · split at h
    · rename_i hn
      have := numInt_length _ _ _ hn
      simp at h; rw [← h.2]; simp; omega
    · simp at h
  · exact numInt_length _ _ _ h

theorem skipWs_cons_length (bs : GoString) (d : Nat) (rest : GoString)
    (h : skipWs bs = d :: rest) : rest.length < bs.length := by
  have := skipWs_length_le bs
  rw [h] at this
  simp at this
  omega

theorem parse_length (f : Nat) :
    (∀ d bs v rest, parseValue f d bs = .ok (v, rest) → rest.length < bs.length)
    ∧ (∀ d bs vs rest, parseElems f d bs = .ok (vs, rest) → rest.length < bs.length)
    ∧ (∀ d bs ms rest, parseMembers f d bs = .ok (ms, rest) → rest.length < bs.length) := by
  induction f with
  | zero =>
    refine ⟨?_, ?_, ?_⟩ <;> intro d bs v rest h
    · simp [parseValue] at h
    · simp [parseElems] at h
    · simp [parseMembers] at h
  | succ f ih =>
    obtain ⟨ihV, ihE, ihM⟩ := ih
    refine ⟨?_, ?_, ?_⟩
    · intro d bs v rest h
      cases bs with
      | nil => simp [parseValue] at h
      | cons c cs =>
        rw [parseValue] at h
        repeat' (split at h <;> try (rename_i heq; first
          | have := skipWs_cons_length _ _ _ heq
          | have := ihE _ _ _ _ heq
          | have := ihM _ _ _ _ heq
          | have := strBody_length _ _ _ _ _ heq
          | have := expectLit_length _ _ _ heq
          | have := parseNumber_length _ _ _ heq))
        all_goals first
          | (simp at h; done)
          | (simp at h; obtain ⟨_, h2⟩ := h; subst h2; simp only [List.length_cons] at *; omega)
    · intro d bs vs rest h
      rw [parseElems] at h
      repeat' (split at h <;> try (rename_i heq; first
        | have := skipWs_cons_length _ _ _ heq
        | have := Nat.lt_of_lt_of_le (ihE _ _ _ _ heq) (skipWs_length_le _)
        | have := ihV _ _ _ _ heq))
      all_goals first
        | (simp at h; done)
        | (simp at h; obtain ⟨_, h2⟩ := h; subst h2; simp only [List.length_cons] at *; omega)
    · intro d bs ms rest h
      rw [parseMembers] at h
      repeat' (split at h <;> try (rename_i heq; first
        | have := skipWs_cons_length _ _ _ heq
        | have := Nat.lt_of_lt_of_le (ihV _ _ _ _ heq) (skipWs_length_le _)
        | have := ihM _ _ _ _ heq
        | have := strBody_length _ _ _ _ _ heq))
      all_goals first
        | (simp at h; done)
        | (simp at h; obtain ⟨_, h2⟩ := h; subst h2; simp only [List.length_cons] at *; omega)

/-- One more unit of fuel does not change the result once the fuel is twice the
length of the input (plus one for a value, plus two for elements or members). -/
theorem parse_fuel_succ (f : Nat) :
    (∀ d bs, 2 * bs.length + 1 ≤ f → parseValue (f + 1) d bs = parseValue f d bs)
    ∧ (∀ d bs, 2 * bs.length + 2 ≤ f → parseElems (f + 1) d bs = parseElems f d bs)
    ∧ (∀ d bs, 2 * bs.length + 2 ≤ f → parseMembers (f + 1) d bs = parseMembers f d bs) := by
  induction f with
  | zero =>
    refine ⟨?_, ?_, ?_⟩ <;> intro d bs h <;> omega
  | succ f ih =>
    obtain ⟨ihV, ihE, ihM⟩ := ih
    refine ⟨?_, ?_, ?_⟩
    · intro d bs hb
      cases bs with
      | nil => simp [parseValue]
      | cons c cs =>
        conv_lhs => rw [parseValue]
        conv_rhs => rw [parseValue]
        simp only [List.length_cons] at hb
        repeat' (first
          | rw [ihM]
          | rw [ihE]
          | (split <;> try (rename_i heq; first
              | have := skipWs_cons_length _ _ _ heq)))
        all_goals first
          | rfl
          | omega
          | (simp only [List.length_cons] at *; omega)
    · intro d bs hb
      conv_lhs => rw [parseElems]
      conv_rhs => rw [parseElems]
      repeat' (first
        | rw [ihV]
        | rw [ihE]
        | (split <;> try (rename_i heq; first
            | have := skipWs_cons_length _ _ _ heq
            | have := Nat.lt_of_lt_of_le ((parse_length f).1 _ _ _ _ heq) (skipWs_length_le _)
            | have := (parse_length f).1 _ _ _ _ heq)))
      all_goals first
        | rfl
        | omega
        | (simp only [List.length_cons] at *; omega)
        | (refine Nat.le_trans (Nat.add_le_add_right (Nat.mul_le_mul_left 2
            (skipWs_length_le _)) _) ?_
           simp only [List.length_cons] at *
           omega)
    · intro d bs hb
      conv_lhs => rw [parseMembers]
      conv_rhs => rw [parseMembers]
      repeat' (first
        | rw [ihV]
        | rw [ihM]
        | (split <;> try (rename_i heq; first
            | have := skipWs_cons_length _ _ _ heq
            | have := Nat.lt_of_lt_of_le ((parse_length f).1 _ _ _ _ heq) (skipWs_length_le _)
            | have := (parse_length f).1 _ _ _ _ heq
            | have := strBody_length _ _ _ _ _ heq)))
      all_goals first
        | rfl
        | omega
        | (simp only [List.length_cons] at *; omega)
        | (refine Nat.le_trans (Nat.add_le_add_right (Nat.mul_le_mul_left 2
            (skipWs_length_le _)) _) ?_
           simp only [List.length_cons] at *
           omega)

theorem parseValue_fuel_add (k : Nat) (d : Nat) (bs : GoString) :
    parseValue (2 * bs.length + 1 + k) d bs = parseValue (2 * bs.length + 1) d bs := by
  induction k with
  | zero => rfl
  | succ k ih =>
    rw [← ih, ← Nat.add_assoc]
    exact (parse_fuel_succ _).1 d bs (by omega)

/-- The fuel given to the parser by `parseTop` is enough: any larger amount gives
the same result. -/
theorem parseTop_fuel (data : GoString) (k : Nat) :
    parseValue (2 * data.length + 2 + k) 0 (skipWs data) = parseTop data := by
  unfold parseTop
  have hl := skipWs_length_le data
  obtain ⟨a, ha⟩ : ∃ a, 2 * data.length + 2 = 2 * (skipWs data).length + 1 + a :=
    ⟨2 * data.length + 2 - (2 * (skipWs data).length + 1), by omega⟩
  rw [ha, Nat.add_assoc, parseValue_fuel_add, parseValue_fuel_add]

/-! ## The Discover URL for names without reserved characters -/

theorem isUnreserved_bounds (b : Nat) (h : isUnreserved b = true) :
    b ≠ 35 ∧ b ≠ 63 ∧ b ≠ 38 ∧ b ≠ 61 ∧ b ≠ 59 ∧ b ≠ 37 ∧ b ≠ 43 := by
  simp [isUnreserved] at h
  omega

theorem takeWhile_append_of_all (p : Nat → Bool) (xs ys : GoString) (h : ∀ b ∈ xs, p b = true) :
    (xs ++ ys).takeWhile p = xs ++ ys.takeWhile p := by
  induction xs with
  | nil => rfl
  | cons x xs ih =>
    simp [List.takeWhile, h x (by simp)]
    exact ih (fun b hb => h b (by simp [hb]))

theorem dropWhile_append_of_all (p : Nat → Bool) (xs ys : GoString) (h : ∀ b ∈ xs, p b = true) :
    (xs ++ ys).dropWhile p = ys.dropWhile p := by
  induction xs with
  | nil => rfl
  | cons x xs ih =>
    simp [List.dropWhile, h x (by simp)]
    exact ih (fun b hb => h b (by simp [hb]))

theorem takeWhile_of_all (p : Nat → Bool) (xs : GoString) (h : ∀ b ∈ xs, p b = true) :
    xs.takeWhile p = xs := by
  have := takeWhile_append_of_all p xs [] h
  simpa using this

theorem splitOn_ne_nil (sep : Nat) (xs : GoString) : splitOn sep xs ≠ [] := by
  induction xs with
  | nil => simp [splitOn]
  | cons x xs ih =>
    rw [splitOn]
    split
    · simp
    · split <;> simp

theorem splitOn_append_sep (sep : Nat) (xs ys : GoString) (h : ∀ b ∈ xs, b ≠ sep) :
    splitOn sep (xs ++ sep :: ys) = xs :: splitOn sep ys := by
  induction xs with
  | nil =>
    simp only [List.nil_append, splitOn]
    cases hs : splitOn sep ys with
    | nil => exact absurd hs (splitOn_ne_nil sep ys)
    | cons cur rest => simp
  | cons x xs ih =>
    have hx : x ≠ sep := h x (by simp)
    rw [List.cons_append, splitOn, ih (fun b hb => h b (by simp [hb]))]
    simp [hx]

theorem queryUnescape_unreserved (xs : GoString) (h : ∀ b ∈ xs, isUnreserved b = true) :
    queryUnescape xs = some xs := by
  induction xs with
  | nil => rfl
  | cons x xs ih =>
    have hx := isUnreserved_bounds x (h x (by simp))
    rw [queryUnescape.eq_def]
    simp [hx.2.2.2.2.2.1, hx.2.2.2.2.2.2, ih (fun b hb => h b (by simp [hb]))]

theorem cutPair_unreserved (key value : GoString) (hk : ∀ b ∈ key, isUnreserved b = true) :
    cutPair (key ++ 61 :: value) = (key, value) := by
  have hp : ∀ b ∈ key, (fun b => b != 61) b = true := by
    intro b hb
    have := isUnreserved_bounds b (hk b hb)
    simp [this.2.2.2.1]
  simp only [cutPair, takeWhile_append_of_all _ key _ hp, dropWhile_append_of_all _ key _ hp]
  simp [List.takeWhile, List.dropWhile]

/-- Where the missing escaping does not show: for a base URL without `?` or `#` and a
service name made of unreserved characters only, the query that `Discover`
requests parses to exactly `serviceName` = the name and `proxy` = `false`. -/
theorem discover_query_unreserved (c : MaxineClient) (serviceName : GoString)
    (hbase : ∀ b ∈ c.BaseURL, b ≠ 35 ∧ b ≠ 63)
    (hname : ∀ b ∈ serviceName, isUnreserved b = true) :
    parseQuery (rawQuery (discoverURL c serviceName))
      = [(ascii "serviceName", serviceName), (ascii "proxy", ascii "false")] := by
  have e1 : ascii "/api/maxine/serviceops/discover?serviceName="
      = ascii "/api/maxine/serviceops/discover" ++ 63 :: (ascii "serviceName" ++ [61]) := by decide
  have e2 : ascii "&proxy=false" = 38 :: (ascii "proxy" ++ 61 :: ascii "false") := by decide
  have hraw : rawQuery (discoverURL c serviceName)
      = (ascii "serviceName" ++ 61 :: serviceName) ++ 38 :: (ascii "proxy" ++ 61 :: ascii "false") := by
    have hall : ∀ b ∈ discoverURL c serviceName, (fun b => b != 35) b = true := by
      intro b hb
      simp only [discoverURL, List.mem_append] at hb
      rcases hb with ((hb | hb) | hb) | hb
      · simp [(hbase b hb).1]
      · have : ∀ x ∈ ascii "/api/maxine/serviceops/discover?serviceName=", x ≠ 35 := by decide
        simp [this b hb]
      · simp [(isUnreserved_bounds b (hname b hb)).1]
      · have : ∀ x ∈ ascii "&proxy=false", x ≠ 35 := by decide
        simp [this b hb]
    have hpre : ∀ b ∈ c.BaseURL ++ ascii "/api/maxine/serviceops/discover",
        (fun b => b != 63) b = true := by
      intro b hb
      simp only [List.mem_append] at hb
      rcases hb with hb | hb
      · simp [(hbase b hb).2]
      · have : ∀ x ∈ ascii "/api/maxine/serviceops/discover", x ≠ 63 := by decide
        simp [this b hb]
    unfold rawQuery
    rw [takeWhile_of_all _ _ hall]
    unfold discoverURL
    rw [e1, e2]
    have e3 : c.BaseURL ++ (ascii "/api/maxine/serviceops/discover" ++ 63 :: (ascii "serviceName"
        ++ [61])) ++ serviceName ++ 38 :: (ascii "proxy" ++ 61 :: ascii "false")
        = (c.BaseURL ++ ascii "/api/maxine/serviceops/discover") ++ 63 :: (ascii "serviceName"
          ++ 61 :: serviceName ++ 38 :: (ascii "proxy" ++ 61 :: ascii "false")) := by
      simp
    rw [e3, dropWhile_append_of_all _ _ _ hpre]
    simp [List.dropWhile]
  have hamp : ∀ b ∈ ascii "serviceName" ++ 61 :: serviceName, b ≠ 38 := by
    intro b hb
    simp only [List.mem_append, List.mem_cons] at hb
    rcases hb with hb | hb | hb
    · have : ∀ x ∈ ascii "serviceName", x ≠ 38 := by decide
      exact this b hb
    · omega
    · exact (isUnreserved_bounds b (hname b hb)).2.2.1
  have hsemi : ¬ 59 ∈ ascii "serviceName" ++ 61 :: serviceName := by
    intro hb
    simp only [List.mem_append, List.mem_cons] at hb
    rcases hb with hb | hb | hb
    · revert hb; decide
    · omega
    · exact (isUnreserved_bounds 59 (hname 59 hb)).2.2.2.2.1 rfl
  have hkey : ∀ b ∈ ascii "serviceName", isUnreserved b = true := by decide
  have hsplit2 : splitOn 38 (ascii "proxy" ++ 61 :: ascii "false")
      = [ascii "proxy" ++ 61 :: ascii "false"] := by decide
  rw [hraw, parseQuery, splitOn_append_sep 38 _ _ hamp, hsplit2]
  have hq2 : (if (ascii "proxy" ++ 61 :: ascii "false") = [] ∨ 59 ∈ (ascii "proxy" ++ 61 :: ascii "false")
      then none
      else
        match queryUnescape (cutPair (ascii "proxy" ++ 61 :: ascii "false")).1,
          queryUnescape (cutPair (ascii "proxy" ++ 61 :: ascii "false")).2 with
        | some k, some v => some (k, v)
        | _, _ => none) = some (ascii "proxy", ascii "false") := by decide
  simp only [List.filterMap_cons, List.filterMap_nil, hq2]
  have hne : ¬ (ascii "serviceName" ++ 61 :: serviceName = [] ∨
      59 ∈ ascii "serviceName" ++ 61 :: serviceName) := by
    intro h
    rcases h with h | h
    · simp at h
    · exact hsemi h
  simp only [hne, if_false, cutPair_unreserved _ _ hkey, queryUnescape_unreserved _ hkey,
    queryUnescape_unreserved _ hname]

/-! ## The decoder does not look past the value it reads -/

theorem hex4_quote (a b c d : Nat) (h : a = 34 ∨ b = 34 ∨ c = 34 ∨ d = 34) :
    hex4 a b c d = none := by
  have h34 : hexVal 34 = none := by decide
  rcases h with rfl | rfl | rfl | rfl
  · simp [hex4, h34]
  · cases ha : hexVal a <;> simp [hex4, h34, ha]
  · cases ha : hexVal a <;> cases hb : hexVal b <;> simp [hex4, h34, ha, hb]
  · cases ha : hexVal a <;> cases hb : hexVal b <;> cases hc : hexVal c <;>
      simp [hex4, h34, ha, hb, hc]

theorem getD_append_left (pre X : GoString) (i : Nat) (h : i < pre.length) :
    (pre ++ X).getD i 0 = pre.getD i 0 := by
  simp [List.getD_eq_getElem?_getD, List.getElem?_append_left h]

theorem getD_append_quote (pre X : GoString) : (pre ++ 34 :: X).getD pre.length 0 = 34 := by
  induction pre with
  | nil => rfl
  | cons a pre ih => simpa using ih

/-- The look-ahead for the second escape of a surrogate pair does not reach past a
closing quote. -/
theorem getu4_quote (pre R R1 : GoString) :
    getu4 (pre ++ 34 :: R) = getu4 (pre ++ 34 :: R1) := by
  by_cases h6 : 6 ≤ pre.length
  · simp only [getu4, List.length_append, List.length_cons]
    rw [getD_append_left _ _ 0 (by omega), getD_append_left _ _ 1 (by omega),
      getD_append_left _ _ 2 (by omega), getD_append_left _ _ 3 (by omega),
      getD_append_left _ _ 4 (by omega), getD_append_left _ _ 5 (by omega),
      getD_append_left _ _ 0 (by omega), getD_append_left _ _ 1 (by omega),
      getD_append_left _ _ 2 (by omega), getD_append_left _ _ 3 (by omega),
      getD_append_left _ _ 4 (by omega), getD_append_left _ _ 5 (by omega)]
    have e1 : 6 ≤ pre.length + (R.length + 1) := by omega
    have e2 : 6 ≤ pre.length + (R1.length + 1) := by omega
    simp only [e1, e2, true_and]
  · have hn : ∀ X : GoString, getu4 (pre ++ 34 :: X) = none := by
      intro X
      have hq := getD_append_quote pre X
      unfold getu4
      split_ifs with hc
      · obtain ⟨_, h0, h1⟩ := hc
        have hl : pre.length = 0 ∨ pre.length = 1 ∨ pre.length = 2 ∨ pre.length = 3
            ∨ pre.length = 4 ∨ pre.length = 5 := by omega
        rcases hl with hl | hl | hl | hl | hl | hl <;> rw [hl] at hq
        · omega
        · omega
        · exact hex4_quote _ _ _ _ (Or.inl hq)
        · exact hex4_quote _ _ _ _ (Or.inr (Or.inl hq))
        · exact hex4_quote _ _ _ _ (Or.inr (Or.inr (Or.inl hq)))
        · exact hex4_quote _ _ _ _ (Or.inr (Or.inr (Or.inr hq)))
      · rfl
    rw [hn R, hn R1]

theorem utf8LenOf_low1 (b x1 x2 x3 : Nat) (h : x1 < 0x80) : utf8LenOf b x1 x2 x3 = 0 := by
  unfold utf8LenOf
  cases hl : leadInfo b with
  | none => rfl
  | some t =>
    obtain ⟨n, lo, hi⟩ := t
    have hs := leadInfo_size b n lo hi hl
    have : ¬ (lo ≤ x1) := by omega
    simp [this]

theorem utf8LenOf_low2 (b x1 x2 x3 y3 : Nat) (h : x2 < 0x80) :
    utf8LenOf b x1 x2 x3 = utf8LenOf b x1 x2 y3 := by
  unfold utf8LenOf
  cases hl : leadInfo b with
  | none => rfl
  | some t =>
    obtain ⟨n, lo, hi⟩ := t
    have hc : isCont x2 = false := by simp [isCont]; omega
    by_cases h3 : n < 3
    · have h4 : n < 4 := by omega
      simp [h3, h4]
    · simp [h3, hc]

/-- The look-ahead of the UTF-8 decoder does not reach past a closing quote. -/
theorem utf8Len_quote (b : Nat) (pre R R1 : GoString) :
    utf8Len (b :: (pre ++ 34 :: R)) = utf8Len (b :: (pre ++ 34 :: R1)) := by
  simp only [utf8Len]
  split_ifs
  · rfl
  · match pre with
    | [] =>
      simp only [List.nil_append, List.getD_cons_zero]
      rw [utf8LenOf_low1 _ _ _ _ (by omega), utf8LenOf_low1 _ _ _ _ (by omega)]
    | [a] =>
      simp only [List.cons_append, List.nil_append, List.getD_cons_zero, List.getD_cons_succ]
      exact utf8LenOf_low2 _ _ _ _ _ (by omega)
    | [a, c] =>
      simp only [List.cons_append, List.nil_append, List.getD_cons_zero, List.getD_cons_succ]
    | a :: c :: e :: t =>
      simp only [List.cons_append, List.getD_cons_zero, List.getD_cons_succ]

theorem strBody_local (sk : Bool) (k : Nat) (bs : GoString) : ∀ (s rest : GoString),
    strBody sk k bs = .ok (s, rest) →
    ∃ pre, bs = pre ++ 34 :: rest ∧ ∀ R, strBody sk k (pre ++ 34 :: R) = .ok (s, R) := by
  induction sk, k, bs using strBody.induct <;> intro s rest h <;> rw [strBody.eq_def] at h <;>
    simp only [*, if_true, if_false, reduceCtorEq, List.length_cons] at h
  case case2 k b bs ih =>
    obtain ⟨pre, hp, hR⟩ := ih s rest h
    refine ⟨b :: pre, by rw [hp]; rfl, ?_⟩
    intro R
    rw [List.cons_append, strBody.eq_def]
    exact hR R
  case case3 k b bs ih =>
    obtain ⟨s1, h1, hs1⟩ := consOut_eq_ok _ _ _ _ h
    obtain ⟨pre, hp, hR⟩ := ih s1 rest h1
    refine ⟨b :: pre, by rw [hp]; rfl, ?_⟩
    intro R
    rw [List.cons_append, strBody.eq_def]
    simp only [hR R, hs1]
    rfl
  case case4 x bs =>
    simp only [Except.ok.injEq, Prod.mk.injEq] at h
    obtain ⟨rfl, rfl⟩ := h
    refine ⟨[], rfl, ?_⟩
    intro R
    rw [List.nil_append, strBody.eq_def]
    simp
  case case7 x h1 h2 h3 h4 bs2 r hx hsur dec hdec hne ih =>
    obtain ⟨s1, hs, hs1⟩ := consOut_eq_ok _ _ _ _ h
    obtain ⟨pre, hp, hR⟩ := ih s1 rest hs
    refine ⟨92 :: 117 :: h1 :: h2 :: h3 :: h4 :: pre, by rw [hp]; rfl, ?_⟩
    intro R
    rw [hp] at hdec
    rw [List.cons_append, strBody.eq_def]
    simp only [List.cons_append, hx, hsur, if_true, getu4_quote pre R rest, hdec, hR R, hs1]
    simp [consOut]
  case case8 x h1 h2 h3 h4 bs2 r hx hsur hdec hne ih =>
    obtain ⟨s1, hs, hs1⟩ := consOut_eq_ok _ _ _ _ h
    obtain ⟨pre, hp, hR⟩ := ih s1 rest hs
    refine ⟨92 :: 117 :: h1 :: h2 :: h3 :: h4 :: pre, by rw [hp]; rfl, ?_⟩
    intro R
    rw [hp] at hdec
    rw [List.cons_append, strBody.eq_def]
    simp only [List.cons_append, hx, hsur, if_true, getu4_quote pre R rest, hdec, hR R, hs1]
    simp [consOut]
  case case9 x h1 h2 h3 h4 bs2 r hx hsur hne ih =>
    obtain ⟨s1, hs, hs1⟩ := consOut_eq_ok _ _ _ _ h
    obtain ⟨pre, hp, hR⟩ := ih s1 rest hs
    refine ⟨92 :: 117 :: h1 :: h2 :: h3 :: h4 :: pre, by rw [hp]; rfl, ?_⟩
    intro R
    rw [List.cons_append, strBody.eq_def]
    simp only [List.cons_append, hx, hsur, if_false, hR R, hs1]
    simp [consOut]
  case case12 x e bs1 he dec hdec hne ih =>
    obtain ⟨s1, hs, hs1⟩ := consOut_eq_ok _ _ _ _ h
    obtain ⟨pre, hp, hR⟩ := ih s1 rest hs
    refine ⟨92 :: e :: pre, by rw [hp]; rfl, ?_⟩
    intro R
    rw [List.cons_append, strBody.eq_def]
    simp only [List.cons_append, he, hdec, if_false, hR R, hs1]
    simp [consOut]
  case case15 x b bs h34 h92 h32 h128 ih =>
    obtain ⟨s1, hs, hs1⟩ := consOut_eq_ok _ _ _ _ h
    obtain ⟨pre, hp, hR⟩ := ih s1 rest hs
    refine ⟨b :: pre, by rw [hp]; rfl, ?_⟩
    intro R
    rw [List.cons_append, strBody.eq_def]
    simp only [h34, h92, h32, h128, if_false, if_true, hR R, hs1]
    simp [consOut]
  case case16 x b bs h34 h92 h32 h128 n hn ih =>
    have hn2 : utf8Len (b :: bs) = 0 := hn
    rw [if_pos hn2] at h
    obtain ⟨s1, hs, hs1⟩ := consOut_eq_ok _ _ _ _ h
    obtain ⟨pre, hp, hR⟩ := ih s1 rest hs
    refine ⟨b :: pre, by rw [hp]; rfl, ?_⟩
    intro R
    rw [hp] at hn2
    rw [List.cons_append, strBody.eq_def]
    simp only [h34, h92, h32, h128, if_false, utf8Len_quote b pre R rest, hn2, if_true, hR R, hs1]
    simp [consOut]
  case case17 x b bs h34 h92 h32 h128 n hn ih =>
    have hn2 : ¬ utf8Len (b :: bs) = 0 := hn
    obtain ⟨s1, hs, hs1⟩ := consOut_eq_ok _ _ _ _ h
    obtain ⟨pre, hp, hR⟩ := ih s1 rest hs
    subst hp
    refine ⟨b :: pre, rfl, ?_⟩
    intro R
    have hR2 : strBody false (utf8Len (b :: (pre ++ 34 :: rest)) - 1) (pre ++ 34 :: R)
        = .ok (s1, R) := hR R
    rw [List.cons_append, strBody.eq_def]
    simp only [h34, h92, h32, h128, if_false, utf8Len_quote b pre R rest, hn2, hR2, hs1]
    simp [consOut]

theorem tailOK_notDigit (R : GoString) (h : tailOK R) :
    R = [] ∨ ∃ c cs, R = c :: cs ∧ isDigit c = false := by
  rcases h with h | ⟨c, cs, h, hc⟩
  · exact Or.inl h
  · refine Or.inr ⟨c, cs, h, ?_⟩
    simp only [endsNumber, Bool.and_eq_true, Bool.not_eq_true'] at hc
    exact hc.1.1.1

theorem span_digits_tail (ds R : GoString) (hds : ∀ b ∈ ds, isDigit b = true)
    (hR : R = [] ∨ ∃ c cs, R = c :: cs ∧ isDigit c = false) :
    (ds ++ R).span isDigit = (ds, R) := by
  rcases hR with rfl | ⟨c, cs, rfl, hc⟩
  · induction ds with
    | nil => rfl
    | cons d ds ih =>
      have hd := hds d (by simp)
      have := ih (fun b hb => hds b (by simp [hb]))
      simp [List.span_eq_take_drop, List.takeWhile, List.dropWhile, hd] at this ⊢
      exact this
  · exact span_digits ds c cs hds hc

theorem span_shape (x : GoString) :
    x = (x.span isDigit).1 ++ (x.span isDigit).2
    ∧ (∀ b ∈ (x.span isDigit).1, isDigit b = true)
    ∧ ((x.span isDigit).2 = [] ∨ ∃ c cs, (x.span isDigit).2 = c :: cs ∧ isDigit c = false) := by
  rw [List.span_eq_take_drop]
  refine ⟨(List.takeWhile_append_dropWhile isDigit x).symm, ?_, ?_⟩
  · intro b hb
    exact List.mem_takeWhile_imp hb
  · cases hd : x.dropWhile isDigit with
    | nil => exact Or.inl rfl
    | cons c cs =>
      refine Or.inr ⟨c, cs, rfl, ?_⟩
      have := List.head_dropWhile_not isDigit x (by rw [hd]; simp)
      simpa [hd] using this

theorem lastByte_append_ne_nil (l m : GoString) (h : m ≠ []) : lastByte (l ++ m) = lastByte m := by
  obtain ⟨x, xs, rfl⟩ := List.exists_cons_of_ne_nil h
  exact lastByte_append_cons l x xs

theorem lastByte_mem (l : GoString) (h : l ≠ []) : lastByte l ∈ l := by
  induction l with
  | nil => exact absurd rfl h
  | cons a l ih =>
    cases l with
    | nil => simp [lastByte]
    | cons b l =>
      simp only [lastByte]
      exact List.mem_cons_of_mem _ (ih (by simp))

theorem digits1_local (bs ds r : GoString) (h : digits1 bs = .ok (ds, r)) :
    bs = ds ++ r ∧ ds ≠ [] ∧ (∀ b ∈ ds, isDigit b = true)
    ∧ (r = [] ∨ ∃ c cs, r = c :: cs ∧ isDigit c = false)
    ∧ ∀ R, (R = [] ∨ ∃ c cs, R = c :: cs ∧ isDigit c = false) → digits1 (ds ++ R) = .ok (ds, R) := by
  unfold digits1 at h
  cases bs with
  | nil => simp at h
  | cons c cs =>
    simp only at h
    split_ifs at h with hc
    simp only [Except.ok.injEq, Prod.mk.injEq] at h
    obtain ⟨hsh, hall, hrest⟩ := span_shape (c :: cs)
    have e1 : ((c :: cs).span isDigit).1 = ds := by rw [h]
    have e2 : ((c :: cs).span isDigit).2 = r := by rw [h]
    rw [e1, e2] at hsh
    rw [e1] at hall
    rw [e2] at hrest
    have hne : ds ≠ [] := by
      intro h0
      rw [← e1] at h0
      simp [List.span_eq_take_drop, List.takeWhile, hc] at h0
    refine ⟨hsh, hne, hall, hrest, ?_⟩
    intro R hR
    obtain ⟨d0, dt, rfl⟩ := List.exists_cons_of_ne_nil hne
    have hd0 := hall d0 (by simp)
    have hs := span_digits_tail (d0 :: dt) R hall hR
    simp only [digits1, List.cons_append, hd0, if_true] at hs ⊢
    rw [hs]

theorem digits1_lastByte (ds : GoString) (hne : ds ≠ []) (hall : ∀ b ∈ ds, isDigit b = true)
    (pre : GoString) : isDigit (lastByte (pre ++ ds)) = true := by
  rw [lastByte_append_ne_nil _ _ hne]
  exact hall _ (lastByte_mem ds hne)

theorem numExp_tail (R : GoString) (h : tailOK R) : numExp R = .ok ([], R) := by
  rcases h with rfl | ⟨c, cs, rfl, hc⟩
  · rfl
  · simp only [endsNumber, Bool.and_eq_true, Bool.not_eq_true', bne_iff_ne, ne_eq] at hc
    simp [numExp, hc.1.2, hc.2]

theorem numExp_local (bs ex r : GoString) (h : numExp bs = .ok (ex, r)) :
    bs = ex ++ r ∧ (ex ≠ [] → isDigit (lastByte ex) = true)
    ∧ ∀ R, tailOK R → numExp (ex ++ R) = .ok (ex, R) := by
  unfold numExp at h
  split at h
  · rename_i e rest
    split_ifs at h with he
    · split at h
      · rename_i sg rest1
        split_ifs at h with hsg
        · split at h
          · rename_i ds r1 hd
            simp only [Except.ok.injEq, Prod.mk.injEq] at h
            obtain ⟨rfl, rfl⟩ := h
            obtain ⟨hsh, hne, hall, _, hloc⟩ := digits1_local _ _ _ hd
            refine ⟨by rw [hsh]; rfl, fun _ => digits1_lastByte ds hne hall [e, sg], ?_⟩
            intro R hR
            simp only [numExp, List.cons_append, he, hsg, if_true,
              hloc R (tailOK_notDigit R hR)]
          · simp at h
        · split at h
          · rename_i ds r1 hd
            simp only [Except.ok.injEq, Prod.mk.injEq] at h
            obtain ⟨rfl, rfl⟩ := h
            obtain ⟨hsh, hne, hall, _, hloc⟩ := digits1_local _ _ _ hd
            refine ⟨by rw [hsh]; rfl, fun _ => digits1_lastByte ds hne hall [e], ?_⟩
            intro R hR
            obtain ⟨d0, dt, rfl⟩ := List.exists_cons_of_ne_nil hne
            have hd0 : d0 = sg := by
              simp at hsh
              exact hsh.1.symm
            subst hd0
            have := hloc R (tailOK_notDigit R hR)
            simp only [List.cons_append] at this
            simp only [numExp, List.cons_append, he, hsg, if_true, if_false, this]
          · simp at h
      · simp at h
    · simp only [Except.ok.injEq, Prod.mk.injEq] at h
      obtain ⟨rfl, rfl⟩ := h
      refine ⟨rfl, fun hh => absurd rfl hh, ?_⟩
      intro R hR
      exact numExp_tail R hR
  · simp only [Except.ok.injEq, Prod.mk.injEq] at h
    obtain ⟨rfl, rfl⟩ := h
    refine ⟨rfl, fun hh => absurd rfl hh, ?_⟩
    intro R hR
    exact numExp_tail R hR

theorem notDigit_append (t R r : GoString)
    (hx : (t ++ r) = [] ∨ ∃ c cs, (t ++ r) = c :: cs ∧ isDigit c = false) (hR : tailOK R) :
    (t ++ R) = [] ∨ ∃ c cs, (t ++ R) = c :: cs ∧ isDigit c = false := by
  cases t with
  | nil => simpa using tailOK_notDigit R hR
  | cons a t =>
    rcases hx with hx | ⟨c, cs, hx, hc⟩
    · simp at hx
    · simp only [List.cons_append, List.cons.injEq] at hx
      exact Or.inr ⟨a, t ++ R, rfl, by rw [hx.1]; exact hc⟩

theorem numFrac_local (bs t r : GoString) (h : numFrac bs = .ok (t, r)) :
    bs = t ++ r ∧ (t ≠ [] → isDigit (lastByte t) = true)
    ∧ ∀ R, tailOK R → numFrac (t ++ R) = .ok (t, R) := by
  unfold numFrac at h
  split at h
  · rename_i rest
    split at h
    · rename_i ds r0 hd
      split at h
      · rename_i ex r1 he
        simp only [Except.ok.injEq, Prod.mk.injEq] at h
        obtain ⟨rfl, rfl⟩ := h
        obtain ⟨hsh, hne, hall, hrest, hloc⟩ := digits1_local _ _ _ hd
        obtain ⟨hsh2, hlast2, hloc2⟩ := numExp_local _ _ _ he
        refine ⟨by rw [hsh, hsh2]; simp, ?_, ?_⟩
        · intro _
          by_cases hex : ex = []
          · subst hex
            rw [List.append_nil]
            exact digits1_lastByte ds hne hall [46]
          · have : 46 :: ds ++ ex = (46 :: ds) ++ ex := rfl
            rw [this, lastByte_append_ne_nil _ _ hex]
            exact hlast2 hex
        · intro R hR
          rw [hsh2] at hrest
          have hnd := notDigit_append ex R _ hrest hR
          have h1 := hloc (ex ++ R) hnd
          have h2 := hloc2 R hR
          simp only [numFrac, List.cons_append, List.append_assoc, h1, h2]
      · simp at h
    · simp at h
  · rename_i hnot
    obtain ⟨hsh, hlast, hloc⟩ := numExp_local _ _ _ h
    refine ⟨hsh, hlast, ?_⟩
    intro R hR
    have h2 := hloc R hR
    unfold numFrac
    split
    · rename_i rest heq
      exfalso
      cases t with
      | nil =>
        simp only [List.nil_append] at heq
        rcases hR with hR | ⟨c, cs, hR, hc⟩
        · rw [hR] at heq; simp at heq
        · rw [hR] at heq
          simp only [List.cons.injEq] at heq
          rw [heq.1] at hc
          simp [endsNumber] at hc
      | cons a t =>
        simp only [List.cons_append, List.cons.injEq] at heq
        rw [hsh] at hnot
        exact hnot (t ++ r) (by rw [heq.1]; rfl)
    · exact h2

theorem numInt_local (bs t r : GoString) (h : numInt bs = .ok (t, r)) :
    bs = t ++ r ∧ t ≠ [] ∧ isDigit (lastByte t) = true
    ∧ (∃ d tl, t = d :: tl ∧ isDigit d = true)
    ∧ ∀ R, tailOK R → numInt (t ++ R) = .ok (t, R) := by
  unfold numInt at h
  split at h
  · simp at h
  · rename_i c rest
    split_ifs at h with h48 hc
    · split at h
      · rename_i t0 r0 hf
        simp only [Except.ok.injEq, Prod.mk.injEq] at h
        obtain ⟨rfl, rfl⟩ := h
        obtain ⟨hsh, hlast, hloc⟩ := numFrac_local _ _ _ hf
        refine ⟨by rw [hsh, h48]; rfl, by simp, ?_, ⟨48, t0, rfl, by decide⟩, ?_⟩
        · by_cases ht : t0 = []
          · subst ht; decide
          · have : (48 :: t0) = [48] ++ t0 := rfl
            rw [this, lastByte_append_ne_nil _ _ ht]
            exact hlast ht
        · intro R hR
          simp only [numInt, List.cons_append, if_true, hloc R hR]
      · simp at h
    · split at h
      · rename_i t0 r0 hf
        simp only [Except.ok.injEq, Prod.mk.injEq] at h
        obtain ⟨rfl, rfl⟩ := h
        obtain ⟨hsh, hlast, hloc⟩ := numFrac_local _ _ _ hf
        obtain ⟨hs1, hall, hrest⟩ := span_shape (c :: rest)
        have hne : ((c :: rest).span isDigit).1 ≠ [] := by
          simp [List.span_eq_take_drop, List.takeWhile, hc]
        generalize hds : ((c :: rest).span isDigit).1 = ds at *
        generalize hx : ((c :: rest).span isDigit).2 = x at *
        obtain ⟨d0, dt, hd⟩ := List.exists_cons_of_ne_nil hne
        subst hd
        have hd0 : d0 = c := by
          simp only [List.cons_append, List.cons.injEq] at hs1
          exact hs1.1.symm
        subst hd0
        subst hsh
        refine ⟨by rw [hs1, List.append_assoc], by simp, ?_, ⟨d0, dt ++ t0, rfl, hc⟩, ?_⟩
        · by_cases ht : t0 = []
          · subst ht
            rw [List.append_nil]
            exact hall _ (lastByte_mem _ hne)
          · rw [lastByte_append_ne_nil _ _ ht]
            exact hlast ht
        · intro R hR
          have hnd := notDigit_append t0 R _ hrest hR
          have hsp := span_digits_tail _ (t0 ++ R) hall hnd
          have h2 := hloc R hR
          rw [List.append_assoc]
          simp only [List.cons_append] at hsp ⊢
          simp only [numInt, h48, hc, if_false, if_true, hsp, h2]
          rfl
      · simp at h

theorem parseNumber_local (bs t r : GoString) (h : parseNumber bs = .ok (t, r)) :
    bs = t ++ r ∧ t ≠ [] ∧ isDigit (lastByte t) = true
    ∧ (∃ d tl, t = d :: tl ∧ (d = 45 ∨ isDigit d = true))
    ∧ ∀ R, tailOK R → parseNumber (t ++ R) = .ok (t, R) := by
  unfold parseNumber at h
  split at h
  · rename_i rest
    split at h
    · rename_i t0 r0 hn
      simp only [Except.ok.injEq, Prod.mk.injEq] at h
      obtain ⟨rfl, rfl⟩ := h
      obtain ⟨hsh, hne, hlast, _, hloc⟩ := numInt_local _ _ _ hn
      refine ⟨by rw [hsh]; rfl, by simp, ?_, ⟨45, t0, rfl, Or.inl rfl⟩, ?_⟩
      · have : (45 :: t0) = [45] ++ t0 := rfl
        rw [this, lastByte_append_ne_nil _ _ hne]
        exact hlast
      · intro R hR
        simp only [parseNumber, List.cons_append, hloc R hR]
    · simp at h
  · rename_i hnot
    obtain ⟨hsh, hne, hlast, ⟨d, tl, htd, hd⟩, hloc⟩ := numInt_local _ _ _ h
    refine ⟨hsh, hne, hlast, ⟨d, tl, htd, Or.inr hd⟩, ?_⟩
    intro R hR
    have h2 := hloc R hR
    unfold parseNumber
    split
    · rename_i rest heq
      exfalso
      rw [htd] at heq
      simp only [List.cons_append, List.cons.injEq] at heq
      rw [heq.1] at hd
      simp [isDigit] at hd
    · exact h2

theorem expectLit_local (lit : GoString) : ∀ (bs rest : GoString),
    expectLit lit bs = .ok rest → bs = lit ++ rest ∧ ∀ R, expectLit lit (lit ++ R) = .ok R := by
  induction lit with
  | nil => intro bs rest h; simp [expectLit] at h; subst h; exact ⟨rfl, fun R => rfl⟩
  | cons l ls ih =>
    intro bs rest h
    cases bs with
    | nil => simp [expectLit] at h
    | cons b bs =>
      simp only [expectLit] at h
      split_ifs at h with hb
      obtain ⟨h1, h2⟩ := ih bs rest h
      subst hb
      refine ⟨by rw [h1]; rfl, ?_⟩
      intro R
      simp [expectLit, h2 R]

theorem skipWs_decomp (x : GoString) (c : Nat) (cs : GoString) (h : skipWs x = c :: cs) :
    ∃ ws, x = ws ++ c :: cs ∧ (∀ b ∈ ws, isSpace b = true) ∧ isSpace c = false := by
  induction x with
  | nil => simp [skipWs] at h
  | cons a x ih =>
    unfold skipWs at h
    split_ifs at h with ha
    · obtain ⟨ws, h1, h2, h3⟩ := ih h
      refine ⟨a :: ws, by rw [h1]; rfl, ?_, h3⟩
      intro b hb
      simp at hb
      rcases hb with rfl | hb
      · exact ha
      · exact h2 b hb
    · simp only [List.cons.injEq] at h
      obtain ⟨rfl, rfl⟩ := h
      exact ⟨[], rfl, by simp, by simpa using ha⟩

theorem skipWs_spaces_cons (ws : GoString) (c : Nat) (X : GoString)
    (hws : ∀ b ∈ ws, isSpace b = true) (hc : isSpace c = false) :
    skipWs (ws ++ c :: X) = c :: X := by
  induction ws with
  | nil => exact skipWs_cons_of_not_space c X hc
  | cons a ws ih =>
    rw [List.cons_append, skipWs]
    simp only [hws a (by simp), if_true]
    exact ih (fun b hb => hws b (by simp [hb]))

theorem skipWs_self_decomp (x : GoString) :
    ∃ ws, x = ws ++ skipWs x ∧ (∀ b ∈ ws, isSpace b = true) := by
  cases h : skipWs x with
  | nil =>
    refine ⟨x, by simp, ?_⟩
    induction x with
    | nil => simp
    | cons a x ih =>
      unfold skipWs at h
      split_ifs at h with ha
      intro b hb
      simp at hb
      rcases hb with rfl | hb
      · exact ha
      · exact ih h b hb
  | cons c cs =>
    obtain ⟨ws, h1, h2, _⟩ := skipWs_decomp x c cs h
    exact ⟨ws, h1, h2⟩

theorem tailOK_spaces_cons (ws : GoString) (c : Nat) (X : GoString)
    (hws : ∀ b ∈ ws, isSpace b = true) (hc : endsNumber c = true) : tailOK (ws ++ c :: X) := by
  cases ws with
  | nil => exact Or.inr ⟨c, X, rfl, hc⟩
  | cons a ws =>
    refine Or.inr ⟨a, ws ++ c :: X, rfl, ?_⟩
    have ha := hws a (by simp)
    simp only [isSpace, Bool.or_eq_true, beq_iff_eq] at ha
    simp only [endsNumber, isDigit]
    rcases ha with ((rfl | rfl) | rfl) | rfl <;> decide

theorem asciiNonSpace_digit (e : Nat) (h : isDigit e = true) : asciiNonSpace e = true := by
  simp only [isDigit, Bool.and_eq_true, decide_eq_true_eq] at h
  have h1 : e < 128 := by omega
  have h2 : asciiSpace e = false := by
    simp only [asciiSpace, Bool.or_eq_false_iff, beq_eq_false_iff_ne, ne_eq]
    omega
  simp [asciiNonSpace, h1, h2]

theorem parseValue_local_step (f : Nat) (ihE : LocalE f) (ihM : LocalM f) : LocalV (f + 1) := by
  intro d bs v rest h
  cases bs with
  | nil => simp [parseValue] at h
  | cons c cs =>
    rw [parseValue] at h
    by_cases h123 : c = 123
    · subst h123
      simp only [if_true] at h
      by_cases hdep : maxNestingDepth ≤ d
      · simp [hdep] at h
      · simp only [hdep, if_false] at h
        split at h
        · simp at h
        · rename_i d0 r0 hsk
          obtain ⟨ws, hcs, hws, hd0⟩ := skipWs_decomp _ _ _ hsk
          by_cases h125 : d0 = 125
          · subst h125
            simp only [if_true, Except.ok.injEq, Prod.mk.injEq] at h
            obtain ⟨rfl, rfl⟩ := h
            refine ⟨123 :: ws, 125, by rw [hcs]; rfl, by decide, ?_⟩
            intro R _
            rw [List.cons_append, parseValue]
            simp [hdep, skipWs_spaces_cons ws 125 R hws hd0]
          · simp only [h125, if_false] at h
            by_cases h34 : d0 = 34
            · subst h34
              simp only [if_true] at h
              split at h
              · rename_i ms r hm
                simp only [Except.ok.injEq, Prod.mk.injEq] at h
                obtain ⟨rfl, rfl⟩ := h
                obtain ⟨pm, hpm, hloc⟩ := ihM _ _ _ _ hm
                refine ⟨123 :: (ws ++ 34 :: pm), 125, by rw [hcs, hpm]; simp, by decide, ?_⟩
                intro R _
                rw [List.cons_append, parseValue]
                simp [hdep, List.append_assoc, skipWs_spaces_cons ws 34 _ hws hd0, hloc R]
              · simp at h
            · simp [h34] at h
    · simp only [h123, if_false] at h
      by_cases h91 : c = 91
      · subst h91
        simp only [if_true] at h
        by_cases hdep : maxNestingDepth ≤ d
        · simp [hdep] at h
        · simp only [hdep, if_false] at h
          split at h
          · simp at h
          · rename_i d0 r0 hsk
            obtain ⟨ws, hcs, hws, hd0⟩ := skipWs_decomp _ _ _ hsk
            by_cases h93 : d0 = 93
            · subst h93
              simp only [if_true, Except.ok.injEq, Prod.mk.injEq] at h
              obtain ⟨rfl, rfl⟩ := h
              refine ⟨91 :: ws, 93, by rw [hcs]; rfl, by decide, ?_⟩
              intro R _
              rw [List.cons_append, parseValue]
              simp [hdep, skipWs_spaces_cons ws 93 R hws hd0]
            · simp only [h93, if_false] at h
              split at h
              · rename_i xs r he
                simp only [Except.ok.injEq, Prod.mk.injEq] at h
                obtain ⟨rfl, rfl⟩ := h
                obtain ⟨pe, hpe, hloc⟩ := ihE _ _ _ _ he
                cases pe with
                | nil =>
                  simp only [List.nil_append, List.cons.injEq] at hpe
                  exact absurd hpe.1 h93
                | cons p0 pe =>
                  simp only [List.cons_append, List.cons.injEq] at hpe
                  obtain ⟨rfl, rfl⟩ := hpe
                  refine ⟨91 :: (ws ++ d0 :: pe), 93, by rw [hcs]; simp, by decide, ?_⟩
                  intro R _
                  have := hloc R
                  simp only [List.cons_append] at this
                  rw [List.cons_append, parseValue]
                  simp [hdep, List.append_assoc, skipWs_spaces_cons ws d0 _ hws hd0, h93, this]
              · simp at h
      · simp only [h91, if_false] at h
        by_cases h34 : c = 34
        · subst h34
          simp only [if_true] at h
          split at h
          · rename_i s0 r hs
            simp only [Except.ok.injEq, Prod.mk.injEq] at h
            obtain ⟨rfl, rfl⟩ := h
            obtain ⟨ps, hps, hloc⟩ := strBody_local _ _ _ _ _ hs
            refine ⟨34 :: ps, 34, by rw [hps]; rfl, by decide, ?_⟩
            intro R _
            rw [List.cons_append, parseValue]
            simp [hloc R]
          · simp at h
        · simp only [h34, if_false] at h
          by_cases h116 : c = 116
          · subst h116
            simp only [if_true] at h
            split at h
            · rename_i r hl
              simp only [Except.ok.injEq, Prod.mk.injEq] at h
              obtain ⟨rfl, rfl⟩ := h
              obtain ⟨hsh, hloc⟩ := expectLit_local _ _ _ hl
              refine ⟨[116, 114, 117], 101, by rw [hsh]; rfl, by decide, ?_⟩
              intro R _
              have := hloc R
              rw [List.cons_append, parseValue]
              simp only [List.cons_append, List.nil_append] at this ⊢
              simp [this]
            · simp at h
          · simp only [h116, if_false] at h
            by_cases h102 : c = 102
            · subst h102
              simp only [if_true] at h
              split at h
              · rename_i r hl
                simp only [Except.ok.injEq, Prod.mk.injEq] at h
                obtain ⟨rfl, rfl⟩ := h
                obtain ⟨hsh, hloc⟩ := expectLit_local _ _ _ hl
                refine ⟨[102, 97, 108, 115], 101, by rw [hsh]; rfl, by decide, ?_⟩
                intro R _
                have := hloc R
                rw [List.cons_append, parseValue]
                simp only [List.cons_append, List.nil_append] at this ⊢
                simp [this]
              · simp at h
            · simp only [h102, if_false] at h
              by_cases h110 : c = 110
              · subst h110
                simp only [if_true] at h
                split at h
                · rename_i r hl
                  simp only [Except.ok.injEq, Prod.mk.injEq] at h
                  obtain ⟨rfl, rfl⟩ := h
                  obtain ⟨hsh, hloc⟩ := expectLit_local _ _ _ hl
                  refine ⟨[110, 117, 108], 108, by rw [hsh]; rfl, by decide, ?_⟩
                  intro R _
                  have := hloc R
                  rw [List.cons_append, parseValue]
                  simp only [List.cons_append, List.nil_append] at this ⊢
                  simp [this]
                · simp at h
              · simp only [h110, if_false] at h
                split at h
                · rename_i lit r hn
                  simp only [Except.ok.injEq, Prod.mk.injEq] at h
                  obtain ⟨rfl, rfl⟩ := h
                  obtain ⟨hsh, hne, hlast, ⟨d1, tl, hlit, hd1⟩, hloc⟩ := parseNumber_local _ _ _ hn
                  rcases List.eq_nil_or_concat lit with h0 | ⟨l0, e, hle⟩
                  · exact absurd h0 hne
                  · have hle2 : lit = l0 ++ [e] := by rw [hle, List.concat_eq_append]
                    have hlb : lastByte lit = e := by
                      rw [hle2, lastByte_append_cons]
                      rfl
                    rw [hlb] at hlast
                    refine ⟨l0, e, by rw [hsh, hle2]; simp, asciiNonSpace_digit e hlast, ?_⟩
                    intro R hR0
                    have hR : tailOK R := by
                      rcases hR0 with hR0 | hR0
                      · exact hR0
                      · rw [hlast] at hR0; simp at hR0
                    have h2 := hloc R hR
                    have e3 : l0 ++ e :: R = lit ++ R := by rw [hle2]; simp
                    rw [e3]
                    have hc1 : d1 = c := by
                      rw [hlit] at hsh
                      simp only [List.cons_append, List.cons.injEq] at hsh
                      exact hsh.1.symm
                    subst hc1
                    rw [hlit] at h2 ⊢
                    rw [List.cons_append, parseValue]
                    simp only [h123, h91, h34, h116, h102, h110, if_false]
                    simp only [List.cons_append] at h2
                    rw [h2]
                · simp at h

theorem skipWs_head (x : GoString) (c : Nat) (cs : GoString) (h : skipWs x = c :: cs) :
    isSpace c = false := by
  obtain ⟨_, _, _, hc⟩ := skipWs_decomp x c cs h
  exact hc

/-- What `skipWs` returned is left unchanged by `skipWs`, also with another tail
after a byte that was there. -/
theorem skipWs_shape_keep (z pre : GoString) (m : Nat) (r R : GoString) (hm : isSpace m = false)
    (h : skipWs z = pre ++ m :: r) : skipWs (pre ++ m :: R) = pre ++ m :: R := by
  cases pre with
  | nil => exact skipWs_cons_of_not_space m R hm
  | cons a pre =>
    have := skipWs_head z a (pre ++ m :: r) h
    exact skipWs_cons_of_not_space a _ this

theorem skipWs_spaces_append (ws y : GoString) (hws : ∀ b ∈ ws, isSpace b = true) :
    skipWs (ws ++ y) = skipWs y := by
  induction ws with
  | nil => rfl
  | cons a ws ih =>
    rw [List.cons_append, skipWs]
    simp only [hws a (by simp), if_true]
    exact ih (fun b hb => hws b (by simp [hb]))

theorem parseElems_local_step (f : Nat) (ihV : LocalV f) (ihE : LocalE f) : LocalE (f + 1) := by
  intro d bs vs rest h
  rw [parseElems] at h
  split at h
  · simp at h
  · rename_i v r1 hv
    obtain ⟨pv, e, hbs, he, hlocV⟩ := ihV _ _ _ _ hv
    split at h
    · simp at h
    · rename_i d0 r2 hsk
      obtain ⟨ws1, hr1, hws1, hd0⟩ := skipWs_decomp _ _ _ hsk
      by_cases h44 : d0 = 44
      · subst h44
        simp only [if_true] at h
        split at h
        · rename_i vs0 r3 hE
          simp only [Except.ok.injEq, Prod.mk.injEq] at h
          obtain ⟨rfl, rfl⟩ := h
          obtain ⟨pe, hpe, hlocE⟩ := ihE _ _ _ _ hE
          obtain ⟨ws2, hr2, hws2⟩ := skipWs_self_decomp r2
          refine ⟨pv ++ e :: (ws1 ++ 44 :: (ws2 ++ pe)), ?_, ?_⟩
          · rw [hbs, hr1]
            conv_lhs => rw [hr2, hpe]
            simp
          · intro R
            have e1 : pv ++ e :: (ws1 ++ 44 :: (ws2 ++ pe)) ++ 93 :: R
                = pv ++ e :: (ws1 ++ 44 :: (ws2 ++ (pe ++ 93 :: R))) := by simp
            rw [e1, parseElems]
            rw [hlocV _ (Or.inl (tailOK_spaces_cons ws1 44 _ hws1 (by decide)))]
            simp only [skipWs_spaces_cons ws1 44 _ hws1 hd0, if_true]
            rw [skipWs_spaces_append ws2 _ hws2,
              skipWs_shape_keep r2 pe 93 _ R (by decide) hpe, hlocE R]
        · simp at h
      · simp only [h44, if_false] at h
        by_cases h93 : d0 = 93
        · subst h93
          simp only [if_true, Except.ok.injEq, Prod.mk.injEq] at h
          obtain ⟨rfl, rfl⟩ := h
          refine ⟨pv ++ e :: ws1, by rw [hbs, hr1]; simp, ?_⟩
          intro R
          have e1 : pv ++ e :: ws1 ++ 93 :: R = pv ++ e :: (ws1 ++ 93 :: R) := by simp
          rw [e1, parseElems]
          rw [hlocV _ (Or.inl (tailOK_spaces_cons ws1 93 _ hws1 (by decide)))]
          simp [skipWs_spaces_cons ws1 93 _ hws1 hd0]
        · simp [h93] at h

theorem isSpace_of_asciiNonSpace (e : Nat) (h : asciiNonSpace e = true) : isSpace e = false := by
  simp only [asciiNonSpace, Bool.and_eq_true, decide_eq_true_eq, Bool.not_eq_true'] at h
  have h2 := h.2
  simp only [asciiSpace, Bool.or_eq_false_iff, beq_eq_false_iff_ne, ne_eq] at h2
  simp only [isSpace, Bool.or_eq_false_iff, beq_eq_false_iff_ne, ne_eq]
  omega

theorem parseMembers_local_step (f : Nat) (ihV : LocalV f) (ihM : LocalM f) :
    LocalM (f + 1) := by
  intro d bs ms rest h
  rw [parseMembers] at h
  split at h
  · simp at h
  · rename_i k r1 hk
    obtain ⟨ps, hbs, hlocS⟩ := strBody_local _ _ _ _ _ hk
    split at h
    · simp at h
    · rename_i d0 r2 hsk1
      obtain ⟨ws1, hr1, hws1, hd0⟩ := skipWs_decomp _ _ _ hsk1
      by_cases h58 : d0 = 58
      · subst h58
        simp only [if_true] at h
        split at h
        · simp at h
        · rename_i v r3 hv
          obtain ⟨pv, e, hsv, he, hlocV⟩ := ihV _ _ _ _ hv
          obtain ⟨ws2, hr2, hws2⟩ := skipWs_self_decomp r2
          have hes := isSpace_of_asciiNonSpace e he
          split at h
          · simp at h
          · rename_i d2 r4 hsk3
            obtain ⟨ws3, hr3, hws3, hd2⟩ := skipWs_decomp _ _ _ hsk3
            by_cases h44 : d2 = 44
            · subst h44
              simp only [if_true] at h
              split at h
              · simp at h
              · rename_i q r5 hsk4
                obtain ⟨ws4, hr4, hws4, hq⟩ := skipWs_decomp _ _ _ hsk4
                by_cases h34 : q = 34
                · subst h34
                  simp only [if_true] at h
                  split at h
                  · rename_i ms0 r6 hm
                    simp only [Except.ok.injEq, Prod.mk.injEq] at h
                    obtain ⟨rfl, rfl⟩ := h
                    obtain ⟨pm, hpm, hlocM⟩ := ihM _ _ _ _ hm
                    refine ⟨ps ++ 34 :: (ws1 ++ 58 :: (ws2 ++ (pv ++ e :: (ws3 ++ 44 ::
                      (ws4 ++ 34 :: pm))))), ?_, ?_⟩
                    · rw [hbs, hr1]
                      conv_lhs => rw [hr2, hsv, hr3, hr4, hpm]
                      simp
                    · intro R
                      have e1 : ps ++ 34 :: (ws1 ++ 58 :: (ws2 ++ (pv ++ e :: (ws3 ++ 44 ::
                          (ws4 ++ 34 :: pm))))) ++ 125 :: R
                          = ps ++ 34 :: (ws1 ++ 58 :: (ws2 ++ (pv ++ e :: (ws3 ++ 44 ::
                            (ws4 ++ 34 :: (pm ++ 125 :: R)))))) := by simp
                      rw [e1, parseMembers, hlocS]
                      simp only [skipWs_spaces_cons ws1 58 _ hws1 hd0, if_true]
                      rw [skipWs_spaces_append ws2 _ hws2,
                        skipWs_shape_keep r2 pv e _ _ hes hsv,
                        hlocV _ (Or.inl (tailOK_spaces_cons ws3 44 _ hws3 (by decide)))]
                      simp only [skipWs_spaces_cons ws3 44 _ hws3 hd2, if_true,
                        skipWs_spaces_cons ws4 34 _ hws4 hq, hlocM R]
                  · simp at h
                · simp [h34] at h
            · simp only [h44, if_false] at h
              by_cases h125 : d2 = 125
              · subst h125
                simp only [if_true, Except.ok.injEq, Prod.mk.injEq] at h
                obtain ⟨rfl, rfl⟩ := h
                refine ⟨ps ++ 34 :: (ws1 ++ 58 :: (ws2 ++ (pv ++ e :: ws3))), ?_, ?_⟩
                · rw [hbs, hr1]
                  conv_lhs => rw [hr2, hsv, hr3]
                  simp
                · intro R
                  have e1 : ps ++ 34 :: (ws1 ++ 58 :: (ws2 ++ (pv ++ e :: ws3))) ++ 125 :: R
                      = ps ++ 34 :: (ws1 ++ 58 :: (ws2 ++ (pv ++ e :: (ws3 ++ 125 :: R)))) := by
                    simp
                  rw [e1, parseMembers, hlocS]
                  simp only [skipWs_spaces_cons ws1 58 _ hws1 hd0, if_true]
                  rw [skipWs_spaces_append ws2 _ hws2,
                    skipWs_shape_keep r2 pv e _ _ hes hsv,
                    hlocV _ (Or.inl (tailOK_spaces_cons ws3 125 _ hws3 (by decide)))]
                  simp [skipWs_spaces_cons ws3 125 _ hws3 hd2]
              · simp [h125] at h
      · simp [h58] at h

/-- The decoder is local: every successful parse stops where the value ends and
does not depend on what follows. -/
theorem parse_local (f : Nat) : LocalV f ∧ LocalE f ∧ LocalM f := by
  induction f with
  | zero =>
    refine ⟨?_, ?_, ?_⟩
    · intro d bs v rest h; simp [parseValue] at h
    · intro d bs v rest h; simp [parseElems] at h
    · intro d bs v rest h; simp [parseMembers] at h
  | succ f ih =>
    exact ⟨parseValue_local_step f ih.2.1 ih.2.2, parseElems_local_step f ih.1 ih.2.1,
      parseMembers_local_step f ih.1 ih.2.2⟩

/-! ## Trimming a reply that json.Unmarshal accepts -/

theorem asciiSpace_of_isSpace (b : Nat) (h : isSpace b = true) : asciiSpace b = true := by
  simp only [isSpace, Bool.or_eq_true, beq_iff_eq] at h
  rcases h with ((rfl | rfl) | rfl) | rfl <;> decide

theorem skipWs_nil_all (x : GoString) (h : skipWs x = []) : ∀ b ∈ x, isSpace b = true := by
  obtain ⟨ws, h1, h2⟩ := skipWs_self_decomp x
  rw [h, List.append_nil] at h1
  rw [h1]
  exact h2

/-- The first byte of a value is an ASCII byte other than white space. -/
theorem parseValue_first (f d c : Nat) (cs : GoString) (v : GoValue) (rest : GoString)
    (h : parseValue f d (c :: cs) = .ok (v, rest)) : asciiNonSpace c = true := by
  cases f with
  | zero => simp [parseValue] at h
  | succ f =>
    rw [parseValue] at h
    by_cases h1 : c = 123
    · subst h1; decide
    by_cases h2 : c = 91
    · subst h2; decide
    by_cases h3 : c = 34
    · subst h3; decide
    by_cases h4 : c = 116
    · subst h4; decide
    by_cases h5 : c = 102
    · subst h5; decide
    by_cases h6 : c = 110
    · subst h6; decide
    simp only [h1, h2, h3, h4, h5, h6, if_false] at h
    split at h
    · rename_i lit r hn
      obtain ⟨hsh, _, _, ⟨d1, tl, hlit, hd1⟩, _⟩ := parseNumber_local _ _ _ hn
      rw [hlit] at hsh
      simp only [List.cons_append, List.cons.injEq] at hsh
      rw [← hsh.1] at hd1
      rcases hd1 with rfl | hd1
      · decide
      · exact asciiNonSpace_digit c hd1
    · simp at h

/-- `bytes.TrimSpace` removes ASCII white space around bytes that begin and end
with an ASCII byte other than white space. -/
theorem TrimSpace_core (ws post : GoString) (b : Nat) (tl : GoString)
    (hws : ∀ x ∈ ws, asciiSpace x = true) (hpost : ∀ x ∈ post, asciiSpace x = true)
    (hb : asciiNonSpace b = true) (hl : asciiNonSpace (lastByte (b :: tl)) = true) :
    TrimSpace (ws ++ (b :: tl) ++ post) = b :: tl := by
  unfold TrimSpace
  rw [List.append_assoc, trimLeft_append_spaces _ _ hws, List.cons_append,
    trimLeft_cons_nonSpace _ _ hb]
  have hne : (b :: tl).reverse ≠ [] := by simp
  obtain ⟨y, ys, hy⟩ := List.exists_cons_of_ne_nil hne
  have hy2 : lastByte (b :: tl) = y := by
    have : (b :: tl) = (y :: ys).reverse := by rw [← hy]; simp
    rw [this, lastByte_reverse_cons]
  rw [hy2] at hl
  have e1 : (b :: (tl ++ post)).reverse = post.reverse ++ (y :: ys) := by
    rw [← hy]; simp
  rw [e1, trimLeftRev_append_spaces _ _ (by simpa using hpost), trimLeftRev_cons_nonSpace _ _ hl,
    ← hy]
  simp

/-- What `json.Unmarshal` accepts, it accepts with the same value after
`bytes.TrimSpace`. -/
theorem checkedValue_TrimSpace (r : GoString) (v : GoValue) (h : checkedValue r = .ok v) :
    checkedValue (TrimSpace r) = .ok v := by
  unfold checkedValue at h
  cases hp : parseTop r with
  | error e => simp [hp] at h
  | ok res =>
    obtain ⟨v1, rest⟩ := res
    simp only [hp] at h
    split_ifs at h with hs
    have hv : v1 = v := by simpa using h
    subst hv
    unfold parseTop at hp
    obtain ⟨pre, e, hsk, he, hloc⟩ := (parse_local _).1 _ _ _ _ hp
    obtain ⟨ws, hr, hws⟩ := skipWs_self_decomp r
    have hrest := skipWs_nil_all rest hs
    -- the bytes of the value
    obtain ⟨b, tl, hcore⟩ : ∃ b tl, pre ++ [e] = b :: tl := by
      cases pre with
      | nil => exact ⟨e, [], rfl⟩
      | cons a pre => exact ⟨a, pre ++ [e], rfl⟩
    have hsk2 : skipWs r = (b :: tl) ++ rest := by
      rw [hsk, ← hcore]; simp
    have hb : asciiNonSpace b = true := by
      rw [hsk2] at hp
      exact parseValue_first _ _ _ _ _ _ hp
    have hl : asciiNonSpace (lastByte (b :: tl)) = true := by
      rw [← hcore, lastByte_append_cons]
      exact he
    have htrim : TrimSpace r = b :: tl := by
      rw [hr, hsk2, ← List.append_assoc]
      exact TrimSpace_core ws rest b tl (fun x hx => asciiSpace_of_isSpace x (hws x hx))
        (fun x hx => asciiSpace_of_isSpace x (hrest x hx)) hb hl
    have hlen : (b :: tl).length ≤ r.length := by
      have h1 := skipWs_length_le r
      rw [hsk2] at h1
      simp at h1 ⊢
      omega
    have hpar : parseValue (2 * r.length + 2) 0 (b :: tl) = .ok (v1, []) := by
      have := hloc [] (Or.inl (Or.inl rfl))
      rw [← hcore]
      simpa using this
    have hfuel : parseValue (2 * (b :: tl).length + 2) 0 (b :: tl) = .ok (v1, []) := by
      obtain ⟨k, hk⟩ : ∃ k, 2 * r.length + 2 = 2 * (b :: tl).length + 1 + k :=
        ⟨2 * r.length + 2 - (2 * (b :: tl).length + 1), by omega⟩
      rw [hk, parseValue_fuel_add] at hpar
      have := parseValue_fuel_add 1 0 (b :: tl)
      rw [← hpar, ← this]
    rw [htrim]
    unfold checkedValue parseTop
    rw [skipWs_cons_of_not_space b tl (isSpace_of_asciiNonSpace b hb), hfuel]
    simp [skipWs]

theorem jsonUnmarshalNode_TrimSpace (r : GoString) (n : ServiceNode)
    (h : jsonUnmarshalNode r = (n, none)) : jsonUnmarshalNode (TrimSpace r) = (n, none) := by
  unfold jsonUnmarshalNode at h ⊢
  cases hc : checkedValue r with
  | error e => simp [hc] at h
  | ok v =>
    simp only [hc] at h
    simp only [checkedValue_TrimSpace r v hc, h]

/-! ## The three transports differ -/

/-- C10 (as stated, refuted): on the scenario node preceded by a vertical tab,
`DiscoverTCP` succeeds (the tab is trimmed) while `DiscoverUDP` and HTTP `Discover`
fail; on the node followed by `garbage`, HTTP `Discover` succeeds while
`DiscoverUDP` and `DiscoverTCP` fail; and on the encoding alone `DiscoverUDP`
succeeds while `DiscoverTCP` fails when the stream delivers it in two chunks. -/
theorem discover_variants_differ_counterexample :
    (DiscoverTCP exampleClient (mockStream [11 :: marshalServiceNode exampleNode]) (ascii "svc-a")
        9000 (ascii "h") = (some exampleNode, none)
      ∧ DiscoverUDP exampleClient (mockPeer (11 :: marshalServiceNode exampleNode)) (ascii "svc-a")
        9000 (ascii "h") = (some zeroNode, some Err.jsonSyntax)
      ∧ Discover exampleClient (mockRegistry 200 (11 :: marshalServiceNode exampleNode))
        (ascii "svc-a") = (some zeroNode, some Err.jsonSyntax))
    ∧ (Discover exampleClient (mockRegistry 200 (marshalServiceNode exampleNode ++ ascii "garbage"))
        (ascii "svc-a") = (some exampleNode, none)
      ∧ DiscoverUDP exampleClient (mockPeer (marshalServiceNode exampleNode ++ ascii "garbage"))
        (ascii "svc-a") 9000 (ascii "h") = (some zeroNode, some Err.jsonSyntax)
      ∧ DiscoverTCP exampleClient (mockStream [marshalServiceNode exampleNode ++ ascii "garbage"])
        (ascii "svc-a") 9000 (ascii "h") = (some zeroNode, some Err.jsonSyntax))
    ∧ (DiscoverUDP exampleClient (mockPeer (marshalServiceNode exampleNode)) (ascii "svc-a") 9000
        (ascii "h") = (some exampleNode, none)
      ∧ DiscoverTCP exampleClient
        (mockStream [(marshalServiceNode exampleNode).take 20, (marshalServiceNode exampleNode).drop 20])
        (ascii "svc-a") 9000 (ascii "h") = (some zeroNode, some Err.jsonSyntax)) := by
  decide

/-! ## Prefixes of an encoding -/

/-- An object is parsed up to its closing brace, whatever follows. -/
theorem parseValue_object_local (f d : Nat) (cs : GoString) (v : GoValue) (rest : GoString)
    (h : parseValue f d (123 :: cs) = .ok (v, rest)) :
    ∃ pre, 123 :: cs = pre ++ 125 :: rest
      ∧ ∀ R, parseValue f d (pre ++ 125 :: R) = .ok (v, R) := by
  cases f with
  | zero => simp [parseValue] at h
  | succ f =>
    have ihM := (parse_local f).2.2
    rw [parseValue] at h
    simp only [if_true] at h
    by_cases hdep : maxNestingDepth ≤ d
    · simp [hdep] at h
    · simp only [hdep, if_false] at h
      split at h
      · simp at h
      · rename_i d0 r0 hsk
        obtain ⟨ws, hcs, hws, hd0⟩ := skipWs_decomp _ _ _ hsk
        by_cases h125 : d0 = 125
        · subst h125
          simp only [if_true, Except.ok.injEq, Prod.mk.injEq] at h
          obtain ⟨rfl, rfl⟩ := h
          refine ⟨123 :: ws, by rw [hcs]; rfl, ?_⟩
          intro R
          rw [List.cons_append, parseValue]
          simp [hdep, skipWs_spaces_cons ws 125 R hws hd0]
        · simp only [h125, if_false] at h
          by_cases h34 : d0 = 34
          · subst h34
            simp only [if_true] at h
            split at h
            · rename_i ms r hm
              simp only [Except.ok.injEq, Prod.mk.injEq] at h
              obtain ⟨rfl, rfl⟩ := h
              obtain ⟨pm, hpm, hloc⟩ := ihM _ _ _ _ hm
              refine ⟨123 :: (ws ++ 34 :: pm), by rw [hcs, hpm]; simp, ?_⟩
              intro R
              rw [List.cons_append, parseValue]
              simp [hdep, List.append_assoc, skipWs_spaces_cons ws 34 _ hws hd0, hloc R]
            · simp at h
          · simp [h34] at h

/-! ## Truncated encodings -/

theorem trimLeftRev_isSuffix (s : GoString) : trimLeftRev s <:+ s := by
  induction s using trimLeftRev.induct <;> rw [trimLeftRev.eq_def] <;>
    simp only [*, if_true, if_false] <;>
    first
    | exact List.suffix_refl _
    | rename_i ih; exact ih.trans (List.suffix_cons _ _)
    | rename_i ih; exact (ih.trans (List.suffix_cons _ _)).trans (List.suffix_cons _ _)
    | rename_i ih
      exact ((ih.trans (List.suffix_cons _ _)).trans (List.suffix_cons _ _)).trans
        (List.suffix_cons _ _)

theorem trimLeftRev_suffix (s : GoString) : ∃ p, s = p ++ trimLeftRev s := by
  obtain ⟨p, hp⟩ := trimLeftRev_isSuffix s
  exact ⟨p, hp.symm⟩

/-- `bytes.TrimSpace` of bytes that start with an ASCII byte other than white space
is a prefix of them. -/
theorem TrimSpace_initial (b : Nat) (rest : GoString) (hb : asciiNonSpace b = true) :
    ∃ t, b :: rest = TrimSpace (b :: rest) ++ t := by
  unfold TrimSpace
  rw [trimLeft_cons_nonSpace _ _ hb]
  obtain ⟨p, hp⟩ := trimLeftRev_suffix (b :: rest).reverse
  refine ⟨p.reverse, ?_⟩
  have := congrArg List.reverse hp
  rw [List.reverse_reverse, List.reverse_append] at this
  exact this

/-! ## White space around a reply -/

theorem space2_lead (b0 b1 : Nat) (h : space2 b0 b1 = true) :
    b0 = 0xC2 ∧ (b1 = 0x85 ∨ b1 = 0xA0) := by
  simpa [space2] using h

theorem space3_lead (b0 b1 b2 : Nat) (h : space3 b0 b1 b2 = true) :
    (b0 = 0xE1 ∨ b0 = 0xE2 ∨ b0 = 0xE3) ∧ 0x80 ≤ b1 ∧ b1 ≤ 0x9A ∧ 0x80 ≤ b2 ∧ b2 ≤ 0xAF := by
  simp only [space3, Bool.or_eq_true, Bool.and_eq_true, beq_iff_eq, decide_eq_true_eq] at h
  omega

theorem trimLeft_spaceRunes (pre s : GoString) (b : Nat) (h : spaceRunes pre = true)
    (hb : asciiNonSpace b = true) : trimLeft (pre ++ b :: s) = b :: s := by
  induction pre using spaceRunes.induct with
  | case1 => simpa using trimLeft_cons_nonSpace b s hb
  | case2 b0 bs h0 ih =>
    rw [spaceRunes.eq_def] at h
    simp only [h0, if_true] at h
    rw [List.cons_append, trimLeft.eq_def]
    simp only [h0, if_true]
    exact ih h
  | case3 b0 h0 => simp [spaceRunes, h0] at h
  | case4 b0 h0 b1 bs1 h2 ih =>
    rw [spaceRunes.eq_def] at h
    simp only [h0, h2, if_true, if_false] at h
    rw [List.cons_append, List.cons_append, trimLeft.eq_def]
    simp only [h0, h2, if_true, if_false]
    exact ih h
  | case5 b0 h0 b1 h2 => simp [spaceRunes, h0, h2] at h
  | case6 b0 h0 b1 h2 b2 bs2 ih =>
    rw [spaceRunes.eq_def] at h
    simp only [h0, h2, if_false, Bool.and_eq_true, Bool.false_eq_true] at h
    rw [List.cons_append, List.cons_append, List.cons_append, trimLeft.eq_def]
    simp only [h0, h2, h.1, if_true, if_false]
    exact ih h.2

theorem trimLeft_spaceRunes_nil (pre : GoString) (h : spaceRunes pre = true) :
    trimLeft pre = [] := by
  induction pre using spaceRunes.induct with
  | case1 => rfl
  | case2 b0 bs h0 ih =>
    rw [spaceRunes.eq_def] at h
    simp only [h0, if_true] at h
    rw [trimLeft.eq_def]
    simp only [h0, if_true]
    exact ih h
  | case3 b0 h0 => simp [spaceRunes, h0] at h
  | case4 b0 h0 b1 bs1 h2 ih =>
    rw [spaceRunes.eq_def] at h
    simp only [h0, h2, if_true, if_false] at h
    rw [trimLeft.eq_def]
    simp only [h0, h2, if_true, if_false]
    exact ih h
  | case5 b0 h0 b1 h2 => simp [spaceRunes, h0, h2] at h
  | case6 b0 h0 b1 h2 b2 bs2 ih =>
    rw [spaceRunes.eq_def] at h
    simp only [h0, h2, if_false, Bool.and_eq_true, Bool.false_eq_true] at h
    rw [trimLeft.eq_def]
    simp only [h0, h2, h.1, if_true, if_false]
    exact ih h.2

/-- White space after the bytes is removed by the right trim. -/
theorem trimLeftRev_spaceRunes (post : GoString) : ∀ (s : GoString), spaceRunes post = true →
    trimLeftRev (s ++ post).reverse = trimLeftRev s.reverse := by
  induction post using spaceRunes.induct with
  | case1 => intro s _; simp
  | case2 b0 bs h0 ih =>
    intro s h
    rw [spaceRunes.eq_def] at h
    simp only [h0, if_true] at h
    have := ih (s ++ [b0]) h
    rw [List.append_assoc] at this
    rw [List.singleton_append] at this
    rw [this, List.reverse_append, List.reverse_singleton, List.singleton_append,
      trimLeftRev.eq_def]
    simp only [h0, if_true]
  | case3 b0 h0 => intro s h; simp [spaceRunes, h0] at h
  | case4 b0 h0 b1 bs1 h2 ih =>
    intro s h
    rw [spaceRunes.eq_def] at h
    simp only [h0, h2, if_true, if_false] at h
    have := ih (s ++ [b0, b1]) h
    rw [List.append_assoc] at this
    simp only [List.cons_append, List.nil_append] at this
    rw [this]
    have e : (s ++ [b0, b1]).reverse = b1 :: b0 :: s.reverse := by simp
    rw [e, trimLeftRev.eq_def]
    obtain ⟨e0, e1⟩ := space2_lead b0 b1 h2
    have hn : asciiSpace b1 = false := by rcases e1 with rfl | rfl <;> decide
    simp only [hn, h2, if_true, if_false, Bool.false_eq_true]
  | case5 b0 h0 b1 h2 => intro s h; simp [spaceRunes, h0, h2] at h
  | case6 b0 h0 b1 h2 b2 bs2 ih =>
    intro s h
    rw [spaceRunes.eq_def] at h
    simp only [h0, h2, if_false, Bool.and_eq_true, Bool.false_eq_true] at h
    have := ih (s ++ [b0, b1, b2]) h.2
    rw [List.append_assoc] at this
    simp only [List.cons_append, List.nil_append] at this
    rw [this]
    have e : (s ++ [b0, b1, b2]).reverse = b2 :: b1 :: b0 :: s.reverse := by simp
    rw [e, trimLeftRev.eq_def]
    obtain ⟨e0, l1, u1, l2, u2⟩ := space3_lead b0 b1 b2 h.1
    have hn : asciiSpace b2 = false := by
      simp [asciiSpace]; omega
    have hn2 : space2 b1 b2 = false := by
      simp [space2]; omega
    simp only [hn, hn2, h.1, if_true, if_false, Bool.false_eq_true]

theorem spaceRunes_append (a b : GoString) (ha : spaceRunes a = true) (hb : spaceRunes b = true) :
    spaceRunes (a ++ b) = true := by
  induction a using spaceRunes.induct with
  | case1 => simpa using hb
  | case2 b0 bs h0 ih =>
    rw [spaceRunes.eq_def] at ha
    simp only [h0, if_true] at ha
    rw [List.cons_append, spaceRunes.eq_def]
    simp only [h0, if_true]
    exact ih ha
  | case3 b0 h0 => simp [spaceRunes, h0] at ha
  | case4 b0 h0 b1 bs1 h2 ih =>
    rw [spaceRunes.eq_def] at ha
    simp only [h0, h2, if_true, if_false] at ha
    rw [List.cons_append, List.cons_append, spaceRunes.eq_def]
    simp only [h0, h2, if_true, if_false]
    exact ih ha
  | case5 b0 h0 b1 h2 => simp [spaceRunes, h0, h2] at ha
  | case6 b0 h0 b1 h2 b2 bs2 ih =>
    rw [spaceRunes.eq_def] at ha
    simp only [h0, h2, if_false, Bool.and_eq_true, Bool.false_eq_true] at ha
    rw [List.cons_append, List.cons_append, List.cons_append, spaceRunes.eq_def]
    simp only [h0, h2, ha.1, if_false, Bool.true_and]
    exact ih ha.2

theorem spaceRunes_of_ascii (ws : GoString) (h : ∀ b ∈ ws, asciiSpace b = true) :
    spaceRunes ws = true := by
  induction ws with
  | nil => rfl
  | cons b ws ih =>
    rw [spaceRunes.eq_def]
    simp only [h b (by simp), if_true]
    exact ih (fun x hx => h x (by simp [hx]))

/-- `bytes.TrimSpace` removes the white-space runes around bytes that begin and end
with an ASCII byte other than white space. -/
theorem TrimSpace_runes (pre post : GoString) (b : Nat) (tl : GoString)
    (hpre : spaceRunes pre = true) (hpost : spaceRunes post = true)
    (hb : asciiNonSpace b = true) (hl : asciiNonSpace (lastByte (b :: tl)) = true) :
    TrimSpace (pre ++ (b :: tl) ++ post) = b :: tl := by
  unfold TrimSpace
  rw [List.append_assoc, List.cons_append, trimLeft_spaceRunes pre _ b hpre hb,
    ← List.cons_append, trimLeftRev_spaceRunes post _ hpost]
  have hne : (b :: tl).reverse ≠ [] := by simp
  obtain ⟨y, ys, hy⟩ := List.exists_cons_of_ne_nil hne
  have hy2 : lastByte (b :: tl) = y := by
    have : (b :: tl) = (y :: ys).reverse := by rw [← hy]; simp
    rw [this, lastByte_reverse_cons]
  rw [hy2] at hl
  rw [hy, trimLeftRev_cons_nonSpace _ _ hl, ← hy]
  simp

/-- `bytes.TrimSpace` of white space only is empty. -/
theorem TrimSpace_spaceRunes (ws : GoString) (h : spaceRunes ws = true) : TrimSpace ws = [] := by
  unfold TrimSpace
  rw [trimLeft_spaceRunes_nil ws h]
  rfl

/-! ## The bytes of a JSON text -/

/-- Any fuel that covers the input gives the same parse. -/
theorem parseValue_fuel_ge (f d : Nat) (bs : GoString) (h : 2 * bs.length + 1 ≤ f) :
    parseValue f d bs = parseValue (2 * bs.length + 1) d bs := by
  obtain ⟨k, rfl⟩ : ∃ k, f = 2 * bs.length + 1 + k := ⟨f - (2 * bs.length + 1), by omega⟩
  exact parseValue_fuel_add k d bs

theorem parseValue_fuel_eq (f g d : Nat) (bs : GoString) (hf : 2 * bs.length + 1 ≤ f)
    (hg : 2 * bs.length + 1 ≤ g) : parseValue f d bs = parseValue g d bs := by
  rw [parseValue_fuel_ge f d bs hf, parseValue_fuel_ge g d bs hg]

/-- The first JSON value of an input: white space, then the bytes of the value,
which begin and end with an ASCII byte other than white space; the same bytes give
the same value whatever follows them (as long as it does not continue a number). -/
theorem parseTop_core (r : GoString) (val : GoValue) (rest : GoString)
    (h : parseTop r = .ok (val, rest)) :
    ∃ ws b tl, r = ws ++ (b :: tl) ++ rest ∧ (∀ x ∈ ws, isSpace x = true)
      ∧ asciiNonSpace b = true ∧ asciiNonSpace (lastByte (b :: tl)) = true
      ∧ ∀ f R, 2 * ((b :: tl) ++ R).length + 1 ≤ f →
          tailOK R ∨ isDigit (lastByte (b :: tl)) = false →
          parseValue f 0 ((b :: tl) ++ R) = .ok (val, R) := by
  unfold parseTop at h
  obtain ⟨pre, e, hsk, he, _⟩ := (parse_local _).1 _ _ _ _ h
  obtain ⟨ws, hr, hws⟩ := skipWs_self_decomp r
  obtain ⟨b, tl, hcore⟩ : ∃ b tl, pre ++ [e] = b :: tl := by
    cases pre with
    | nil => exact ⟨e, [], rfl⟩
    | cons a pre => exact ⟨a, pre ++ [e], rfl⟩
  have hsk2 : skipWs r = (b :: tl) ++ rest := by
    rw [hsk, ← hcore]; simp
  have hb : asciiNonSpace b = true := by
    rw [hsk2] at h
    exact parseValue_first _ _ _ _ _ _ h
  have hl : asciiNonSpace (lastByte (b :: tl)) = true := by
    rw [← hcore, lastByte_append_cons]
    exact he
  have hle : (skipWs r).length ≤ r.length := skipWs_length_le r
  refine ⟨ws, b, tl, ?_, hws, hb, hl, ?_⟩
  · rw [List.append_assoc, ← hsk2]
    exact hr
  · intro f R hf hR
    -- a fuel that covers both inputs
    have hbig : parseValue (f + (2 * r.length + 2)) 0 (skipWs r) = .ok (val, rest) := by
      rw [← h]
      exact parseValue_fuel_eq _ _ _ _ (by omega) (by omega)
    obtain ⟨pre2, e2, hsk3, _, hloc⟩ := (parse_local _).1 _ _ _ _ hbig
    have hpe : pre2 ++ [e2] = b :: tl := by
      have : pre2 ++ [e2] ++ rest = (b :: tl) ++ rest := by
        rw [← hsk2, hsk3]; simp
      exact List.append_cancel_right this
    have hlast : lastByte (b :: tl) = e2 := by
      rw [← hpe, lastByte_append_cons]
      rfl
    rw [hlast] at hR
    have := hloc R hR
    have e3 : pre2 ++ e2 :: R = (b :: tl) ++ R := by
      rw [← hpe]; simp
    rw [e3] at this
    rw [← this]
    exact parseValue_fuel_eq _ _ _ _ hf (by omega)

/-- The bytes of a JSON value, between JSON white space and followed by anything
that does not continue it, are read as that value. -/
theorem parseTop_of_core (ws : GoString) (b : Nat) (tl R : GoString) (val : GoValue)
    (hws : ∀ x ∈ ws, isSpace x = true) (hb : asciiNonSpace b = true)
    (hp : parseValue (2 * (ws ++ (b :: tl) ++ R).length + 2) 0 ((b :: tl) ++ R) = .ok (val, R)) :
    parseTop (ws ++ (b :: tl) ++ R) = .ok (val, R) := by
  unfold parseTop
  rw [List.append_assoc, skipWs_spaces_append ws _ hws, List.cons_append,
    skipWs_cons_of_not_space b _ (isSpace_of_asciiNonSpace b hb)]
  rw [List.append_assoc] at hp
  exact hp

/-- A JSON text stays one, with the same value, under any JSON white space around
the bytes of its value. -/
theorem checkedValue_core (r : GoString) (val : GoValue) (h : checkedValue r = .ok val) :
    ∃ ws b tl ws2, r = ws ++ (b :: tl) ++ ws2 ∧ (∀ x ∈ ws, isSpace x = true)
      ∧ (∀ x ∈ ws2, isSpace x = true)
      ∧ asciiNonSpace b = true ∧ asciiNonSpace (lastByte (b :: tl)) = true
      ∧ (∀ f R, 2 * ((b :: tl) ++ R).length + 1 ≤ f →
          tailOK R ∨ isDigit (lastByte (b :: tl)) = false →
          parseValue f 0 ((b :: tl) ++ R) = .ok (val, R))
      ∧ checkedValue (b :: tl) = .ok val := by
  unfold checkedValue at h
  cases hp : parseTop r with
  | error e => simp [hp] at h
  | ok res =>
    obtain ⟨v1, rest⟩ := res
    simp only [hp] at h
    split_ifs at h with hs
    have hv : v1 = val := by simpa using h
    subst hv
    obtain ⟨ws, b, tl, hr, hws, hb, hl, hloc⟩ := parseTop_core r v1 rest hp
    refine ⟨ws, b, tl, rest, hr, hws, skipWs_nil_all rest hs, hb, hl, hloc, ?_⟩
    have h1 := hloc (2 * (b :: tl).length + 2) [] (by simp) (Or.inl (Or.inl rfl))
    unfold checkedValue parseTop
    rw [skipWs_cons_of_not_space b tl (isSpace_of_asciiNonSpace b hb)]
    rw [List.append_nil] at h1
    rw [h1]
    simp [skipWs]

/-- After `bytes.TrimSpace`, a JSON text surrounded by white-space runes is the
bytes of its value. -/
theorem TrimSpace_text (r : GoString) (val : GoValue) (pre post : GoString)
    (h : checkedValue r = .ok val) (hpre : spaceRunes pre = true)
    (hpost : spaceRunes post = true) :
    checkedValue (TrimSpace (pre ++ r ++ post)) = .ok val := by
  obtain ⟨ws, b, tl, ws2, hr, hws, hws2, hb, hl, _, hc⟩ := checkedValue_core r val h
  have e : pre ++ r ++ post = (pre ++ ws) ++ (b :: tl) ++ (ws2 ++ post) := by
    rw [hr]; simp
  rw [e, TrimSpace_runes _ _ b tl
    (spaceRunes_append _ _ hpre (spaceRunes_of_ascii ws (fun x hx => asciiSpace_of_isSpace x (hws x hx))))
    (spaceRunes_append _ _ (spaceRunes_of_ascii ws2 (fun x hx => asciiSpace_of_isSpace x (hws2 x hx))) hpost)
    hb hl]
  exact hc

/-! ## The three transports on a reply -/

/-- HTTP `Discover` on a 200 response: the result of the stream decoder. -/
theorem Discover_ok (c : MaxineClient) (serviceName r : GoString) :
    Discover c (mockRegistry 200 r) serviceName
      = (some (jsonDecodeNode r).1, (jsonDecodeNode r).2) := by
  simp [Discover, mockRegistry]

/-- `DiscoverUDP` on a datagram: `json.Unmarshal` of its first 1024 bytes. -/
theorem DiscoverUDP_datagram (c : MaxineClient) (serviceName : GoString) (port : Int)
    (host r : GoString) :
    DiscoverUDP c (mockPeer r) serviceName port host
      = (some (jsonUnmarshalNode (r.take 1024)).1, (jsonUnmarshalNode (r.take 1024)).2) := by
  simp [DiscoverUDP, mockPeer, connRead]

theorem firstChunk_cons (q : GoString) (more : List GoString) (h : q ≠ []) :
    firstChunk (q :: more) = .ok q := by
  cases q with
  | nil => exact absurd rfl h
  | cons b q => rfl

/-- `DiscoverTCP` on a stream: `json.Unmarshal` of the trimmed first 1024 bytes of
the first chunk; later chunks are not read. -/
theorem DiscoverTCP_chunk (c : MaxineClient) (serviceName : GoString) (port : Int)
    (host q : GoString) (more : List GoString) (h : q ≠ []) :
    DiscoverTCP c (mockStream (q :: more)) serviceName port host
      = (some (jsonUnmarshalNode (TrimSpace (q.take 1024))).1,
          (jsonUnmarshalNode (TrimSpace (q.take 1024))).2) := by
  simp [DiscoverTCP, mockStream, connRead, firstChunk_cons q more h]

theorem checkedValue_ne_nil (r : GoString) (val : GoValue) (h : checkedValue r = .ok val) :
    r ≠ [] := by
  intro h0
  subst h0
  simp [checkedValue, parseTop, skipWs, parseValue] at h

/-- On a JSON text, HTTP `Discover` returns what the decoder stores of its value. -/
theorem discover_http_of_text (c : MaxineClient) (serviceName r : GoString) (val : GoValue)
    (h : checkedValue r = .ok val) :
    Discover c (mockRegistry 200 r) serviceName = (some (decodeNode val).1, (decodeNode val).2) := by
  rw [Discover_ok]
  simp [jsonDecodeNode, streamValue_of_checkedValue r val h]

/-- On a JSON text that fits the buffer, `DiscoverUDP` returns what the decoder
stores of its value. -/
theorem discoverUDP_of_text (c : MaxineClient) (serviceName : GoString) (port : Int)
    (host r : GoString) (val : GoValue) (h : checkedValue r = .ok val) (hlen : r.length ≤ 1024) :
    DiscoverUDP c (mockPeer r) serviceName port host
      = (some (decodeNode val).1, (decodeNode val).2) := by
  rw [DiscoverUDP_datagram, List.take_of_length_le hlen]
  simp [jsonUnmarshalNode, h]

/-- On a JSON text surrounded by white-space runes that arrives in the first chunk
and fits the buffer, `DiscoverTCP` returns what the decoder stores of its value. -/
theorem discoverTCP_of_text (c : MaxineClient) (serviceName : GoString) (port : Int)
    (host r : GoString) (val : GoValue) (pre post : GoString) (more : List GoString)
    (h : checkedValue r = .ok val) (hpre : spaceRunes pre = true) (hpost : spaceRunes post = true)
    (hlen : (pre ++ r ++ post).length ≤ 1024) :
    DiscoverTCP c (mockStream ((pre ++ r ++ post) :: more)) serviceName port host
      = (some (decodeNode val).1, (decodeNode val).2) := by
  have hne : pre ++ r ++ post ≠ [] := by
    have := checkedValue_ne_nil r val h
    simp [this]
  rw [DiscoverTCP_chunk _ _ _ _ _ _ hne, List.take_of_length_le hlen]
  simp only [jsonUnmarshalNode, TrimSpace_text r val pre post h hpre hpost]

/-- The decoder stores the node a value denotes. -/
theorem decodeNode_denotes (val : GoValue) (v : ServiceNode) (h : denotesNode val v = true) :
    decodeNode val = (v, none) := by
  have e0 : fieldIndex nodeFieldNames (ascii "nodeName") = some 0 := by decide
  have e1 : fieldIndex nodeFieldNames (ascii "address") = some 1 := by decide
  unfold denotesNode at h
  split at h
  · rename_i k1 s1 k2 s2
    simp only [Bool.or_eq_true, Bool.and_eq_true, beq_iff_eq] at h
    rcases h with ⟨⟨⟨rfl, rfl⟩, rfl⟩, rfl⟩ | ⟨⟨⟨rfl, rfl⟩, rfl⟩, rfl⟩
    · simp [decodeNode, storeNodeMember, e0, e1, zeroNode]
    · simp [decodeNode, storeNodeMember, e0, e1, zeroNode]
  · simp at h

theorem encodesNode_value (r : GoString) (v : ServiceNode) (h : encodesNode r v = true) :
    ∃ val, checkedValue r = .ok val ∧ denotesNode val v = true := by
  unfold encodesNode at h
  cases hc : checkedValue r with
  | error e => simp [hc] at h
  | ok val => exact ⟨val, rfl, by simpa [hc] using h⟩

/-- What `json.Marshal` writes for a node with valid UTF-8 fields is an encoding of it. -/
theorem encodesNode_marshal (v : ServiceNode) (h1 : utf8Valid v.NodeName = true)
    (h2 : utf8Valid v.Address = true) : encodesNode (marshalServiceNode v) v = true := by
  have hp := parseTop_marshalServiceNode v [] h1 h2
  rw [List.append_nil] at hp
  simp [encodesNode, checkedValue, hp, skipWs, nodeValue, denotesNode]

/-! ## Objects and `null`: what follows them does not matter -/

theorem parseValue_obj_first (f d c : Nat) (cs : GoString) (ms : List (GoString × GoValue))
    (rest : GoString) (h : parseValue f d (c :: cs) = .ok (.obj ms, rest)) : c = 123 := by
  cases f with
  | zero => simp [parseValue] at h
  | succ f =>
    by_contra hc
    rw [parseValue] at h
    simp only [hc, if_false] at h
    repeat' split at h
    all_goals simp at h

theorem parseValue_null_first (f d c : Nat) (cs : GoString) (rest : GoString)
    (h : parseValue f d (c :: cs) = .ok (.null, rest)) : c :: cs = [110, 117, 108, 108] ++ rest := by
  cases f with
  | zero => simp [parseValue] at h
  | succ f =>
    by_cases hc : c = 110
    · subst hc
      rw [parseValue] at h
      simp only [show (110 : Nat) ≠ 123 by decide, show (110 : Nat) ≠ 91 by decide,
        show (110 : Nat) ≠ 34 by decide, show (110 : Nat) ≠ 116 by decide,
        show (110 : Nat) ≠ 102 by decide, if_false, if_true] at h
      split at h
      · rename_i r hr
        simp only [Except.ok.injEq, Prod.mk.injEq, true_and] at h
        subst h
        have := (expectLit_local _ _ _ hr).1
        rw [this]
        rfl
      · simp at h
    · exfalso
      rw [parseValue] at h
      simp only [hc, if_false] at h
      repeat' split at h
      all_goals simp at h

/-- The first JSON value of an input, when it is `null` or an object: the same
bytes give the same value whatever follows them. -/
theorem parseTop_core_closed (r : GoString) (val : GoValue) (rest : GoString)
    (h : parseTop r = .ok (val, rest)) (hv : isNullOrObject val = true) :
    ∃ ws b tl, r = ws ++ (b :: tl) ++ rest ∧ (∀ x ∈ ws, isSpace x = true)
      ∧ asciiNonSpace b = true ∧ asciiNonSpace (lastByte (b :: tl)) = true
      ∧ (val = .null ∨ b = 123)
      ∧ ∀ f R, 2 * ((b :: tl) ++ R).length + 1 ≤ f →
          parseValue f 0 ((b :: tl) ++ R) = .ok (val, R) := by
  obtain ⟨ws, b, tl, hr, hws, hb, hl, hloc⟩ := parseTop_core r val rest h
  have h0 := hloc (2 * (b :: tl).length + 1) [] (by simp) (Or.inl (Or.inl rfl))
  rw [List.append_nil] at h0
  have hd : isDigit (lastByte (b :: tl)) = false ∧ (val = .null ∨ b = 123) := by
    cases val with
    | null =>
      have := parseValue_null_first _ _ _ _ _ h0
      rw [this]
      exact ⟨by decide, Or.inl rfl⟩
    | obj ms =>
      have hb123 := parseValue_obj_first _ _ _ _ _ _ h0
      subst hb123
      obtain ⟨pre, hpre, _⟩ := parseValue_object_local _ _ _ _ _ h0
      rw [hpre, lastByte_append_cons]
      exact ⟨by decide, Or.inr rfl⟩
    | bool b => simp [isNullOrObject] at hv
    | num l => simp [isNullOrObject] at hv
    | str s => simp [isNullOrObject] at hv
    | arr xs => simp [isNullOrObject] at hv
    | chan => simp [isNullOrObject] at hv
    | int i => simp [isNullOrObject] at hv
  exact ⟨ws, b, tl, hr, hws, hb, hl, hd.2, fun f R hf => hloc f R hf (Or.inr hd.1)⟩

/-- A proper beginning of the bytes of an object is not a JSON value, nor does it
begin with one. -/
theorem parseValue_cut (tl c2 : GoString) (val : GoValue) (f : Nat) (k : GoString)
    (hcore : ∀ f R, 2 * ((123 :: tl) ++ R).length + 1 ≤ f →
      parseValue f 0 ((123 :: tl) ++ R) = .ok (val, R))
    (hk : (123 :: k) ++ c2 = 123 :: tl) (hc2 : c2 ≠ []) (hf : 2 * (123 :: k).length + 1 ≤ f) :
    ∃ e, parseValue f 0 (123 :: k) = .error e := by
  cases hp : parseValue f 0 (123 :: k) with
  | error e => exact ⟨e, rfl⟩
  | ok res =>
    exfalso
    obtain ⟨v1, r1⟩ := res
    have hbig : parseValue (f + 2 * (123 :: tl).length + 1) 0 (123 :: k) = .ok (v1, r1) := by
      rw [← hp]
      exact parseValue_fuel_eq _ _ _ _ (by omega) hf
    obtain ⟨pre, hpre, hloc⟩ := parseValue_object_local _ _ _ _ _ hbig
    have h1 := hloc (r1 ++ c2)
    have e1 : pre ++ 125 :: (r1 ++ c2) = (123 :: tl) ++ [] := by
      rw [← hk, hpre]; simp
    rw [e1, hcore _ [] (by simp)] at h1
    simp only [Except.ok.injEq, Prod.mk.injEq] at h1
    have : r1 ++ c2 = [] := h1.2.symm
    exact hc2 (List.append_eq_nil.mp this).2

theorem checkedValue_spaces (p : GoString) (h : ∀ x ∈ p, isSpace x = true) :
    checkedValue p = .error .jsonSyntax := by
  have : skipWs p = [] := by
    have := skipWs_spaces_append p [] h
    simpa [skipWs] using this
  simp [checkedValue, parseTop, this, parseValue_nil]

/-- Where a reply is cut inside the bytes of an object: the part read is white
space only, or white space followed by a proper beginning of the object. -/
theorem cut_shape (r p t : GoString) (ms : List (GoString × GoValue))
    (h : checkedValue r = .ok (.obj ms)) (hr : r = p ++ t) (ht : ∃ x ∈ t, isSpace x = false) :
    (∀ x ∈ p, isSpace x = true)
    ∨ ∃ ws k c2 tl, p = ws ++ 123 :: k ∧ (∀ x ∈ ws, isSpace x = true) ∧ (123 :: k) ++ c2 = 123 :: tl
        ∧ c2 ≠ []
        ∧ ∀ f R, 2 * ((123 :: tl) ++ R).length + 1 ≤ f →
            parseValue f 0 ((123 :: tl) ++ R) = .ok (.obj ms, R) := by
  unfold checkedValue at h
  cases hp : parseTop r with
  | error e => simp [hp] at h
  | ok res =>
    obtain ⟨v1, rest⟩ := res
    simp only [hp] at h
    split_ifs at h with hs
    have hv : v1 = .obj ms := by simpa using h
    subst hv
    obtain ⟨ws, b, tl, hdec, hws, hb, hl, hb123, hloc⟩ :=
      parseTop_core_closed r _ rest hp rfl
    have hb' : b = 123 := by
      rcases hb123 with h0 | h0
      · cases h0
      · exact h0
    subst hb'
    have hrest := skipWs_nil_all rest hs
    obtain ⟨x, hx, hxs⟩ := ht
    rw [hr] at hdec
    rcases List.append_eq_append_iff.mp hdec with ⟨a, ha1, ha2⟩ | ⟨a, ha1, ha2⟩
    · -- the cut lies before the end of the object
      have hane : a ≠ [] := by
        intro h0
        subst h0
        simp only [List.nil_append] at ha2
        rw [ha2] at hx
        have := hrest x hx
        rw [this] at hxs
        cases hxs
      rcases List.append_eq_append_iff.mp ha1 with ⟨a2, hb1, hb2⟩ | ⟨a2, hb1, hb2⟩
      · cases a2 with
        | nil =>
          left
          rw [hb1, List.append_nil]
          exact hws
        | cons y a2 =>
          right
          have hy : y = 123 := by
            simp only [List.cons_append, List.cons.injEq] at hb2
            exact hb2.1.symm
          subst hy
          exact ⟨ws, a2, a, tl, hb1, hws, hb2.symm, hane, hloc⟩
      · left
        intro z hz
        exact hws z (by rw [hb1]; simp [hz])
    · exfalso
      have : x ∈ rest := by
        rw [ha2]; simp [hx]
      have := hrest x this
      rw [this] at hxs
      cases hxs

theorem checkedValue_of_parse_error (p : GoString) (e : Err) (h : parseTop p = .error e) :
    checkedValue p = .error .jsonSyntax := by
  simp [checkedValue, h]

/-- A reply cut inside the bytes of an object is rejected by `json.Unmarshal`,
also after `bytes.TrimSpace`, and by the stream decoder. -/
theorem jsonUnmarshalNode_cut_text (r p t : GoString) (ms : List (GoString × GoValue))
    (h : checkedValue r = .ok (.obj ms)) (hr : r = p ++ t) (ht : ∃ x ∈ t, isSpace x = false) :
    jsonUnmarshalNode p = (zeroNode, some .jsonSyntax)
    ∧ jsonUnmarshalNode (TrimSpace p) = (zeroNode, some .jsonSyntax)
    ∧ ∃ e, jsonDecodeNode p = (zeroNode, some e) := by
  rcases cut_shape r p t ms h hr ht with hsp | ⟨ws, k, c2, tl, hp, hws, hk, hc2, hcore⟩
  · have hsk : skipWs p = [] := by
      have := skipWs_spaces_append p [] hsp
      simpa [skipWs] using this
    refine ⟨?_, ?_, ?_⟩
    · simp [jsonUnmarshalNode, checkedValue_spaces p hsp]
    · rw [TrimSpace_spaceRunes p (spaceRunes_of_ascii p
        (fun x hx => asciiSpace_of_isSpace x (hsp x hx)))]
      simp [jsonUnmarshalNode, checkedValue_spaces [] (by simp)]
    · exact ⟨.eof, by simp [jsonDecodeNode, streamValue, hsk]⟩
  · have hskip : skipWs p = 123 :: k := by
      rw [hp]
      exact skipWs_spaces_cons ws 123 k hws (by decide)
    obtain ⟨e, he⟩ := parseValue_cut tl c2 (.obj ms) (2 * p.length + 2) k hcore hk hc2 (by
      have : (123 :: k).length ≤ p.length := by rw [hp]; simp
      omega)
    have hpt : parseTop p = .error e := by
      unfold parseTop
      rw [hskip, he]
    refine ⟨?_, ?_, ?_⟩
    · simp [jsonUnmarshalNode, checkedValue_of_parse_error p e hpt]
    · have htrim : TrimSpace p = TrimSpace (123 :: k) := by
        unfold TrimSpace
        rw [hp, trimLeft_spaceRunes ws k 123
          (spaceRunes_of_ascii ws (fun x hx => asciiSpace_of_isSpace x (hws x hx))) (by decide),
          trimLeft_cons_nonSpace 123 k (by decide)]
      obtain ⟨t2, ht2⟩ := TrimSpace_initial 123 k (by decide)
      rw [htrim]
      cases hc0 : TrimSpace (123 :: k) with
      | nil => simp [jsonUnmarshalNode, checkedValue_spaces [] (by simp)]
      | cons y k0 =>
        rw [hc0] at ht2
        have hy : y = 123 := by
          simp only [List.cons_append, List.cons.injEq] at ht2
          exact ht2.1.symm
        subst hy
        have hk2 : (123 :: k0) ++ (t2 ++ c2) = 123 :: tl := by
          rw [← hk, ht2]; simp
        obtain ⟨e2, he2⟩ := parseValue_cut tl (t2 ++ c2) (.obj ms) (2 * (123 :: k0).length + 2) k0
          hcore hk2 (by simp [hc2]) (by omega)
        have hpt2 : parseTop (123 :: k0) = .error e2 := by
          unfold parseTop
          rw [skipWs_cons_of_not_space 123 k0 (by decide), he2]
        simp [jsonUnmarshalNode, checkedValue_of_parse_error _ e2 hpt2]
    · have hne : skipWs p ≠ [] := by rw [hskip]; simp
      exact ⟨e, by simp [jsonDecodeNode, streamValue, hne, hpt]⟩

/-- `DiscoverUDP` on a datagram whose first 1024 bytes stop inside an object. -/
theorem discoverUDP_cut (c : MaxineClient) (serviceName : GoString) (port : Int)
    (host r q t : GoString) (ms : List (GoString × GoValue))
    (h : checkedValue r = .ok (.obj ms)) (hr : r = q.take 1024 ++ t)
    (ht : ∃ x ∈ t, isSpace x = false) :
    DiscoverUDP c (mockPeer q) serviceName port host = (some zeroNode, some Err.jsonSyntax) := by
  rw [DiscoverUDP_datagram, (jsonUnmarshalNode_cut_text r _ t ms h hr ht).1]

/-- `DiscoverTCP` on a stream whose first chunk stops inside an object. -/
theorem discoverTCP_cut (c : MaxineClient) (serviceName : GoString) (port : Int)
    (host r q t : GoString) (more : List GoString) (ms : List (GoString × GoValue))
    (h : checkedValue r = .ok (.obj ms)) (hr : r = q.take 1024 ++ t)
    (ht : ∃ x ∈ t, isSpace x = false) (hq : q ≠ []) :
    DiscoverTCP c (mockStream (q :: more)) serviceName port host
      = (some zeroNode, some Err.jsonSyntax) := by
  rw [DiscoverTCP_chunk _ _ _ _ _ _ hq, (jsonUnmarshalNode_cut_text r _ t ms h hr ht).2.1]

/-- HTTP `Discover` on a body that stops inside an object. -/
theorem discover_http_cut (c : MaxineClient) (serviceName : GoString)
    (r q t : GoString) (ms : List (GoString × GoValue))
    (h : checkedValue r = .ok (.obj ms)) (hr : r = q ++ t) (ht : ∃ x ∈ t, isSpace x = false) :
    ∃ e, Discover c (mockRegistry 200 q) serviceName = (some zeroNode, some e) := by
  obtain ⟨e, he⟩ := (jsonUnmarshalNode_cut_text r _ t ms h hr ht).2.2
  exact ⟨e, by rw [Discover_ok, he]⟩

theorem denotesNode_obj (val : GoValue) (v : ServiceNode) (h : denotesNode val v = true) :
    ∃ ms, val = .obj ms := by
  unfold denotesNode at h
  split at h
  · exact ⟨_, rfl⟩
  · simp at h

/-! ## What follows `null` or an object -/

/-- The first value of an input, when it is `null` or an object, is also the first
value of any longer input. -/
theorem parseTop_append_closed (c : GoString) (val : GoValue) (rest d : GoString)
    (h : parseTop c = .ok (val, rest)) (hv : isNullOrObject val = true) :
    parseTop (c ++ d) = .ok (val, rest ++ d) := by
  obtain ⟨ws, b, tl, hr, hws, hb, _, _, hloc⟩ := parseTop_core_closed c val rest h hv
  have e : c ++ d = ws ++ (b :: tl) ++ (rest ++ d) := by
    rw [hr]; simp
  rw [e]
  apply parseTop_of_core ws b tl (rest ++ d) val hws hb
  apply hloc
  simp
  omega

theorem parseTop_ok_skipWs (r : GoString) (res : GoValue × GoString) (h : parseTop r = .ok res) :
    skipWs r ≠ [] := by
  intro h0
  unfold parseTop at h
  rw [h0, parseValue_nil] at h
  simp at h

/-- What `json.Unmarshal` accepts as `null` or an object, the stream decoder reads
as the same value whatever follows. -/
theorem streamValue_append_closed (c : GoString) (val : GoValue) (d : GoString)
    (h : checkedValue c = .ok val) (hv : isNullOrObject val = true) :
    streamValue (c ++ d) = .ok val := by
  unfold checkedValue at h
  cases hp : parseTop c with
  | error e => simp [hp] at h
  | ok res =>
    obtain ⟨v1, rest⟩ := res
    simp only [hp] at h
    split_ifs at h with hs
    have hv1 : v1 = val := by simpa using h
    subst hv1
    have h2 := parseTop_append_closed c v1 rest d hp hv
    have hne := parseTop_ok_skipWs _ _ h2
    simp [streamValue, hne, h2]

/-- A JSON text followed by bytes that do not begin with white space is not a
JSON text. -/
theorem checkedValue_trailing (r : GoString) (val : GoValue) (x : Nat) (rest : GoString)
    (h : checkedValue r = .ok val) (hv : isNullOrObject val = true) (hx : isSpace x = false) :
    checkedValue (r ++ x :: rest) = .error .jsonSyntax := by
  unfold checkedValue at h
  cases hp : parseTop r with
  | error e => simp [hp] at h
  | ok res =>
    obtain ⟨v1, ws2⟩ := res
    simp only [hp] at h
    split_ifs at h with hs
    have hv1 : v1 = val := by simpa using h
    subst hv1
    have h2 := parseTop_append_closed r v1 ws2 (x :: rest) hp hv
    have hsk : skipWs (ws2 ++ x :: rest) = x :: rest :=
      skipWs_spaces_cons ws2 x rest (skipWs_nil_all ws2 hs) hx
    simp [checkedValue, h2, hsk]

/-! ## The errors of the decoder -/

theorem storeNodeMember_error (st : ServiceNode × Option Err) (m : GoString × GoValue) :
    (storeNodeMember st m).2
      = if badNodeMember m = true then saveError st.2 .jsonType else st.2 := by
  unfold storeNodeMember badNodeMember
  cases hf : fieldIndex nodeFieldNames m.1 with
  | none => simp
  | some i =>
    cases hv : m.2 <;> cases i <;> simp [isStringOrNull]

theorem foldl_storeNodeMember_error (ms : List (GoString × GoValue)) :
    ∀ st : ServiceNode × Option Err,
      (ms.foldl storeNodeMember st).2
        = match st.2 with
          | some e => some e
          | none => if ms.any badNodeMember = true then some .jsonType else none := by
  induction ms with
  | nil =>
    intro st
    cases h : st.2 <;> simp [h]
  | cons m ms ih =>
    intro st
    rw [List.foldl_cons, ih, storeNodeMember_error]
    by_cases hb : badNodeMember m = true
    · cases h : st.2 <;> simp [hb, h, saveError]
    · have hb2 : badNodeMember m = false := by simpa using hb
      simp only [hb2, Bool.false_eq_true, if_false, List.any_cons, Bool.false_or]

/-- The error of decoding an object into a node: a type error exactly when some
member names a field and holds neither a string nor `null`. -/
theorem decodeNode_obj_error (ms : List (GoString × GoValue)) :
    (decodeNode (.obj ms)).2 = if ms.any badNodeMember = true then some .jsonType else none := by
  simp [decodeNode, foldl_storeNodeMember_error]

theorem decodeNode_other (val : GoValue) (h : isNullOrObject val = false) :
    decodeNode val = (zeroNode, some .jsonType) := by
  cases val <;> simp [isNullOrObject] at h <;> rfl

theorem decodeNode_error_kind (val : GoValue) :
    (decodeNode val).2 = none ∨ (decodeNode val).2 = some .jsonType := by
  cases val with
  | obj ms =>
    rw [decodeNode_obj_error]
    by_cases h : ms.any badNodeMember = true
    · right; simp [h]
    · left; simp [h]
  | null => left; rfl
  | bool b => right; rfl
  | num l => right; rfl
  | str s => right; rfl
  | arr xs => right; rfl
  | chan => right; rfl
  | int i => right; rfl

theorem checkedValue_error (r : GoString) (e : Err) (h : checkedValue r = .error e) :
    e = .jsonSyntax := by
  unfold checkedValue at h
  cases hp : parseTop r with
  | error e1 => simp [hp] at h; exact h.symm
  | ok res =>
    simp only [hp] at h
    split_ifs at h
    simp at h
    exact h.symm

/-- `json.Unmarshal` into a node returns no error, a syntax error or a type error. -/
theorem jsonUnmarshalNode_error_kind (data : GoString) :
    (jsonUnmarshalNode data).2 = none ∨ (jsonUnmarshalNode data).2 = some .jsonSyntax
      ∨ (jsonUnmarshalNode data).2 = some .jsonType := by
  unfold jsonUnmarshalNode
  cases hc : checkedValue data with
  | error e =>
    have := checkedValue_error data e hc
    subst this
    right; left; rfl
  | ok val =>
    rcases decodeNode_error_kind val with h | h
    · left; exact h
    · right; right; exact h

/-! ## The errors of the scanner -/

theorem consOut_eq_error (x : GoString) (r : Except Err (GoString × GoString)) (e : Err)
    (h : consOut x r = .error e) : r = .error e := by
  cases r with
  | error e1 => simpa [consOut] using h
  | ok p => simp [consOut] at h

theorem strBody_error (sk : Bool) (k : Nat) (bs : GoString) : ∀ (e : Err),
    strBody sk k bs = .error e → isScanError e = true := by
  induction sk, k, bs using strBody.induct <;> intro e h <;> rw [strBody.eq_def] at h <;>
    simp only [*, if_true, if_false, reduceCtorEq] at h
  case case16 hn ih =>
    have hn2 : utf8Len (_ :: _) = 0 := hn
    rw [if_pos hn2] at h
    exact ih e (consOut_eq_error _ _ _ h)
  all_goals first
    | (simp at h; done)
    | (simp at h; subst h; rfl)
    | (rename_i ih; exact ih e h)
    | (rename_i ih; exact ih e (consOut_eq_error _ _ _ h))

theorem digits1_error (bs : GoString) (e : Err) (h : digits1 bs = .error e) :
    isScanError e = true := by
  unfold digits1 at h
  split at h
  · simp at h; subst h; rfl
  · split_ifs at h
    simp at h; subst h; rfl

theorem numExp_error (bs : GoString) (e : Err) (h : numExp bs = .error e) :
    isScanError e = true := by
  unfold numExp at h
  repeat' split at h
  all_goals first
    | (simp at h; done)
    | (simp at h; subst h; rfl)
    | (rename_i heq; simp at h; subst h; exact digits1_error _ _ heq)

theorem numFrac_error (bs : GoString) (e : Err) (h : numFrac bs = .error e) :
    isScanError e = true := by
  unfold numFrac at h
  repeat' split at h
  all_goals first
    | (simp at h; done)
    | exact numExp_error _ _ h
    | (rename_i heq; simp at h; subst h; first
        | exact digits1_error _ _ heq
        | exact numExp_error _ _ heq)

theorem numInt_error (bs : GoString) (e : Err) (h : numInt bs = .error e) :
    isScanError e = true := by
  unfold numInt at h
  repeat' split at h
  all_goals first
    | (simp at h; done)
    | (simp at h; subst h; rfl)
    | (rename_i heq; simp at h; subst h; exact numFrac_error _ _ heq)

theorem parseNumber_error (bs : GoString) (e : Err) (h : parseNumber bs = .error e) :
    isScanError e = true := by
  unfold parseNumber at h
  repeat' split at h
  all_goals first
    | (simp at h; done)
    | exact numInt_error _ _ h
    | (rename_i heq; simp at h; subst h; exact numInt_error _ _ heq)

theorem expectLit_error (lit : GoString) : ∀ (bs : GoString) (e : Err),
    expectLit lit bs = .error e → isScanError e = true := by
  induction lit with
  | nil => intro bs e h; simp [expectLit] at h
  | cons l ls ih =>
    intro bs e h
    cases bs with
    | nil => simp [expectLit] at h; subst h; rfl
    | cons b bs =>
      simp only [expectLit] at h
      split_ifs at h
      · exact ih bs e h
      · simp at h; subst h; rfl

/-- The parser fails only with the errors of the scanner. -/
theorem parse_error (f : Nat) :
    (∀ d bs e, parseValue f d bs = .error e → isScanError e = true)
    ∧ (∀ d bs e, parseElems f d bs = .error e → isScanError e = true)
    ∧ (∀ d bs e, parseMembers f d bs = .error e → isScanError e = true) := by
  induction f with
  | zero =>
    refine ⟨?_, ?_, ?_⟩ <;> intro d bs e h
    · simp [parseValue] at h; subst h; rfl
    · simp [parseElems] at h; subst h; rfl
    · simp [parseMembers] at h; subst h; rfl
  | succ f ih =>
    obtain ⟨ihV, ihE, ihM⟩ := ih
    refine ⟨?_, ?_, ?_⟩
    · intro d bs e h
      cases bs with
      | nil => simp [parseValue] at h; subst h; rfl
      | cons c cs =>
        rw [parseValue] at h
        repeat' split at h
        all_goals first
          | (simp at h; done)
          | (simp at h; subst h; rfl)
          | (rename_i heq; simp at h; subst h; first
              | exact ihE _ _ _ heq
              | exact ihM _ _ _ heq
              | exact strBody_error _ _ _ _ heq
              | exact expectLit_error _ _ _ heq
              | exact parseNumber_error _ _ heq)
    · intro d bs e h
      rw [parseElems] at h
      repeat' split at h
      all_goals first
        | (simp at h; done)
        | (simp at h; subst h; rfl)
        | (rename_i heq; simp at h; subst h; first
            | exact ihE _ _ _ heq
            | exact ihV _ _ _ heq)
    · intro d bs e h
      rw [parseMembers] at h
      repeat' split at h
      all_goals first
        | (simp at h; done)
        | (simp at h; subst h; rfl)
        | (rename_i heq; simp at h; subst h; first
            | exact ihM _ _ _ heq
            | exact ihV _ _ _ heq
            | exact strBody_error _ _ _ _ heq)

/-! ## Discover: the round trip -/

theorem Valid_false (r : GoString) (h : Valid r = false) :
    checkedValue r = .error .jsonSyntax := by
  unfold Valid at h
  cases hc : checkedValue r with
  | error e => rw [checkedValue_error r e hc]
  | ok v => simp [hc] at h

theorem take_append_drop_nonspace (q t : GoString) (r : GoString) (h : r = q ++ t)
    (ht : ∃ x ∈ t, isSpace x = false) :
    r = q.take 1024 ++ (q.drop 1024 ++ t) ∧ ∃ x ∈ q.drop 1024 ++ t, isSpace x = false := by
  constructor
  · rw [← List.append_assoc, List.take_append_drop]
    exact h
  · obtain ⟨x, hx, hxs⟩ := ht
    exact ⟨x, by simp [hx], hxs⟩

/-! ## Discover: malformed replies -/

/-- Every outcome of the stream decoder is a node with no error or a decode error. -/
theorem jsonDecodeNode_error_kind (body : GoString) :
    (jsonDecodeNode body).2 = none
      ∨ ∃ e, (jsonDecodeNode body).2 = some e ∧ isDecodeError e = true := by
  unfold jsonDecodeNode streamValue
  split_ifs with hs
  · exact Or.inr ⟨.eof, rfl, rfl⟩
  · cases hp : parseTop body with
    | error e =>
      have he := (parse_error _).1 _ _ _ hp
      refine Or.inr ⟨e, rfl, ?_⟩
      cases e <;> simp [isScanError] at he <;> rfl
    | ok res =>
      obtain ⟨val, rest⟩ := res
      rcases decodeNode_error_kind val with h | h
      · left; simpa using h
      · right; exact ⟨.jsonType, by simpa using h, rfl⟩

/-- HTTP `Discover` on a body that does not begin with a JSON value. -/
theorem discover_http_no_value (c : MaxineClient) (serviceName r : GoString)
    (h : beginsWithValue r = false) :
    ∃ e, Discover c (mockRegistry 200 r) serviceName = (some zeroNode, some e)
      ∧ (e = .eof ∨ e = .unexpectedEOF ∨ e = .jsonSyntax) := by
  rw [Discover_ok]
  unfold beginsWithValue at h
  cases hp : parseTop r with
  | ok res => simp [hp] at h
  | error e =>
    unfold jsonDecodeNode streamValue
    split_ifs with hs
    · exact ⟨.eof, rfl, Or.inl rfl⟩
    · have he := (parse_error _).1 _ _ _ hp
      refine ⟨e, by simp [hp], ?_⟩
      cases e <;> simp [isScanError] at he
      · exact Or.inr (Or.inr rfl)
      · exact Or.inr (Or.inl rfl)

theorem firstChunk_cases (chunks : List GoString) :
    firstChunk chunks = .error .eof ∨ ∃ q, q ≠ [] ∧ firstChunk chunks = .ok q := by
  induction chunks with
  | nil => left; rfl
  | cons q more ih =>
    cases q with
    | nil => simpa [firstChunk] using ih
    | cons b q => right; exact ⟨b :: q, by simp, rfl⟩

/-- `DiscoverTCP` on any stream: `io.EOF` and no node when the peer sends nothing,
otherwise the result of `json.Unmarshal` on the trimmed first chunk. -/
theorem DiscoverTCP_stream (c : MaxineClient) (serviceName : GoString) (port : Int)
    (host : GoString) (chunks : List GoString) :
    DiscoverTCP c (mockStream chunks) serviceName port host = (none, some Err.eof)
    ∨ ∃ q : GoString, DiscoverTCP c (mockStream chunks) serviceName port host
        = (some (jsonUnmarshalNode (TrimSpace (q.take 1024))).1,
            (jsonUnmarshalNode (TrimSpace (q.take 1024))).2) := by
  rcases firstChunk_cases chunks with h | ⟨q, _, h⟩
  · left; simp [DiscoverTCP, mockStream, connRead, h]
  · right; exact ⟨q, by simp [DiscoverTCP, mockStream, connRead, h]⟩

theorem jsonUnmarshalNode_decode_kind (data : GoString) :
    (jsonUnmarshalNode data).2 = none
      ∨ ∃ e, (jsonUnmarshalNode data).2 = some e ∧ isDecodeError e = true := by
  rcases jsonUnmarshalNode_error_kind data with h | h | h
  · exact Or.inl h
  · exact Or.inr ⟨_, h, rfl⟩
  · exact Or.inr ⟨_, h, rfl⟩

theorem encodesNode_obj (r : GoString) (v : ServiceNode) (h : encodesNode r v = true) :
    ∃ ms, checkedValue r = .ok (.obj ms) ∧ decodeNode (.obj ms) = (v, none) := by
  obtain ⟨val, hc, hd⟩ := encodesNode_value r v h
  obtain ⟨ms, hms⟩ := denotesNode_obj val v hd
  subst hms
  exact ⟨ms, hc, decodeNode_denotes _ v hd⟩

/-- A JSON text for `null` or an object, followed by bytes that are not white
space only, is not a JSON text. -/
theorem checkedValue_followed (r : GoString) (val : GoValue) (T : GoString)
    (h : checkedValue r = .ok val) (hv : isNullOrObject val = true) (hT : skipWs T ≠ []) :
    checkedValue (r ++ T) = .error .jsonSyntax := by
  unfold checkedValue at h
  cases hp : parseTop r with
  | error e => simp [hp] at h
  | ok res =>
    obtain ⟨v1, ws2⟩ := res
    simp only [hp] at h
    split_ifs at h with hs
    have hv1 : v1 = val := by simpa using h
    subst hv1
    have h2 := parseTop_append_closed r v1 ws2 T hp hv
    have hsk : skipWs (ws2 ++ T) = skipWs T :=
      skipWs_spaces_append ws2 T (skipWs_nil_all ws2 hs)
    simp [checkedValue, h2, hsk, hT]

/-- After trimming, a JSON object followed by bytes that neither begin with JSON
white space nor end with white space is still followed by them. -/
theorem jsonUnmarshalNode_TrimSpace_trailing (r : GoString) (ms : List (GoString × GoValue))
    (x : Nat) (rest : GoString) (h : checkedValue r = .ok (.obj ms)) (hx : isSpace x = false)
    (hl : asciiNonSpace (lastByte (x :: rest)) = true) :
    jsonUnmarshalNode (TrimSpace (r ++ x :: rest)) = (zeroNode, some .jsonSyntax) := by
  obtain ⟨ws, b, tl, ws2, hr, hws, hws2, hb, _, _, hc⟩ := checkedValue_core r _ h
  have e : r ++ x :: rest = ws ++ (b :: (tl ++ ws2 ++ x :: rest)) ++ [] := by
    rw [hr]; simp
  have hlast : lastByte (b :: (tl ++ ws2 ++ x :: rest)) = lastByte (x :: rest) := by
    have : b :: (tl ++ ws2 ++ x :: rest) = (b :: tl ++ ws2) ++ x :: rest := by simp
    rw [this, lastByte_append_cons]
  rw [e, TrimSpace_runes ws [] b _
    (spaceRunes_of_ascii ws (fun y hy => asciiSpace_of_isSpace y (hws y hy))) rfl hb
    (by rw [hlast]; exact hl)]
  have e2 : b :: (tl ++ ws2 ++ x :: rest) = (b :: tl) ++ (ws2 ++ x :: rest) := by simp
  have hT : skipWs (ws2 ++ x :: rest) ≠ [] := by
    rw [skipWs_spaces_cons ws2 x rest hws2 hx]; simp
  rw [e2]
  simp only [jsonUnmarshalNode, checkedValue_followed (b :: tl) _ _ hc rfl hT]

/-! ## Discover: what a success returns -/

/-- On a JSON text within the buffer that arrives in the first chunk, the three
variants return what the decoder stores of its value. -/
theorem discover_all_of_text (c : MaxineClient) (serviceName : GoString) (port : Int)
    (host r : GoString) (val : GoValue) (n : ServiceNode) (e : Option Err)
    (more : List GoString) (h : checkedValue r = .ok val) (hd : decodeNode val = (n, e))
    (hlen : r.length ≤ 1024) :
    Discover c (mockRegistry 200 r) serviceName = (some n, e)
    ∧ DiscoverUDP c (mockPeer r) serviceName port host = (some n, e)
    ∧ DiscoverTCP c (mockStream (r :: more)) serviceName port host = (some n, e) := by
  refine ⟨?_, ?_, ?_⟩
  · rw [discover_http_of_text c serviceName r val h, hd]
  · rw [discoverUDP_of_text c serviceName port host r val h hlen, hd]
  · have := discoverTCP_of_text c serviceName port host r val [] [] more h rfl rfl
      (by simpa using hlen)
    simp only [List.nil_append, List.append_nil] at this
    rw [this, hd]

theorem foldl_storeNodeMember_unknown (ms : List (GoString × GoValue))
    (h : ∀ m ∈ ms, fieldIndex nodeFieldNames m.1 = none) (st : ServiceNode × Option Err) :
    ms.foldl storeNodeMember st = st := by
  induction ms with
  | nil => rfl
  | cons m ms ih =>
    have hm := h m (by simp)
    have : storeNodeMember st m = st := by
      unfold storeNodeMember
      rw [hm]
    rw [List.foldl_cons, this]
    exact ih (fun x hx => h x (by simp [hx]))

theorem acceptedAsNode_iff (val : GoValue) :
    (decodeNode val).2 = none ↔ acceptedAsNode val = true := by
  cases val with
  | obj ms =>
    rw [decodeNode_obj_error]
    by_cases hb : ms.any badNodeMember = true
    · simp [acceptedAsNode, hb]
    · have hb2 : ms.any badNodeMember = false := by simpa using hb
      simp only [acceptedAsNode, hb2]
      simp
  | null => simp [acceptedAsNode, decodeNode]
  | bool b => simp [acceptedAsNode, decodeNode]
  | num l => simp [acceptedAsNode, decodeNode]
  | str s => simp [acceptedAsNode, decodeNode]
  | arr xs => simp [acceptedAsNode, decodeNode]
  | chan => simp [acceptedAsNode, decodeNode]
  | int i => simp [acceptedAsNode, decodeNode]

/-- C9 (amended): the client does not validate the decoded node.  Whenever a
variant returns without error it returns a non-nil node.  On a reply of at most
1024 bytes that arrives in the first chunk, all three variants return: the node
`v` for every well-formed encoding of `v`, whether or not its fields are empty;
the zero node for a JSON text `null` and for an object none of whose members names
a field (such as the empty object); a node with an empty address for an object
that has only `nodeName`, and one with an empty name for an object that has only
`address`.  `DiscoverUDP` returns no error exactly when the datagram is a JSON text
whose value is `null` or an object in which every member that names a field holds
a string or `null`: no condition on the strings. -/
theorem discover_success_node (c : MaxineClient) (serviceName : GoString) (port : Int)
    (host : GoString) :
    (∀ peer : HttpPeer, (Discover c peer serviceName).2 = none →
        (Discover c peer serviceName).1 ≠ none)
    ∧ (∀ dial : Dialer, (DiscoverUDP c dial serviceName port host).2 = none →
        (DiscoverUDP c dial serviceName port host).1 ≠ none)
    ∧ (∀ dial : Dialer, (DiscoverTCP c dial serviceName port host).2 = none →
        (DiscoverTCP c dial serviceName port host).1 ≠ none)
    ∧ (∀ (v : ServiceNode) (r : GoString), encodesNode r v = true → r.length ≤ 1024 →
        ∀ more : List GoString,
        Discover c (mockRegistry 200 r) serviceName = (some v, none)
        ∧ DiscoverUDP c (mockPeer r) serviceName port host = (some v, none)
        ∧ DiscoverTCP c (mockStream (r :: more)) serviceName port host = (some v, none))
    ∧ (∀ r : GoString, checkedValue r = .ok .null → r.length ≤ 1024 →
        ∀ more : List GoString,
        Discover c (mockRegistry 200 r) serviceName = (some zeroNode, none)
        ∧ DiscoverUDP c (mockPeer r) serviceName port host = (some zeroNode, none)
        ∧ DiscoverTCP c (mockStream (r :: more)) serviceName port host = (some zeroNode, none))
    ∧ (∀ (r : GoString) (ms : List (GoString × GoValue)), checkedValue r = .ok (.obj ms) →
        (∀ m ∈ ms, fieldIndex nodeFieldNames m.1 = none) → r.length ≤ 1024 →
        ∀ more : List GoString,
        Discover c (mockRegistry 200 r) serviceName = (some zeroNode, none)
        ∧ DiscoverUDP c (mockPeer r) serviceName port host = (some zeroNode, none)
        ∧ DiscoverTCP c (mockStream (r :: more)) serviceName port host = (some zeroNode, none))
    ∧ (∀ r s : GoString, checkedValue r = .ok (.obj [(ascii "nodeName", .str s)]) →
        r.length ≤ 1024 → ∀ more : List GoString,
        Discover c (mockRegistry 200 r) serviceName
          = (some { NodeName := s, Address := [] }, none)
        ∧ DiscoverUDP c (mockPeer r) serviceName port host
          = (some { NodeName := s, Address := [] }, none)
        ∧ DiscoverTCP c (mockStream (r :: more)) serviceName port host
          = (some { NodeName := s, Address := [] }, none))
    ∧ (∀ r s : GoString, checkedValue r = .ok (.obj [(ascii "address", .str s)]) →
        r.length ≤ 1024 → ∀ more : List GoString,
        Discover c (mockRegistry 200 r) serviceName
          = (some { NodeName := [], Address := s }, none)
        ∧ DiscoverUDP c (mockPeer r) serviceName port host
          = (some { NodeName := [], Address := s }, none)
        ∧ DiscoverTCP c (mockStream (r :: more)) serviceName port host
          = (some { NodeName := [], Address := s }, none))
    ∧ (∀ r : GoString, r.length ≤ 1024 →
        ((DiscoverUDP c (mockPeer r) serviceName port host).2 = none
          ↔ ∃ val, checkedValue r = .ok val ∧ acceptedAsNode val = true)) := by
  have e0 : fieldIndex nodeFieldNames (ascii "nodeName") = some 0 := by decide
  have e1 : fieldIndex nodeFieldNames (ascii "address") = some 1 := by decide
  refine ⟨?_, ?_, ?_, ?_, ?_, ?_, ?_, ?_, ?_⟩
  · intro peer
    unfold Discover
    cases peer (getRequest (discoverURL c serviceName)) with
    | error e => simp
    | ok resp => by_cases hs : resp.StatusCode = 200 <;> simp [hs]
  · intro dial
    unfold DiscoverUDP
    repeat' split
    all_goals simp
  · intro dial
    unfold DiscoverTCP
    repeat' split
    all_goals simp
  · intro v r hr hlen more
    obtain ⟨val, hc, hd⟩ := encodesNode_value r v hr
    exact discover_all_of_text c serviceName port host r val v none more hc
      (decodeNode_denotes val v hd) hlen
  · intro r hc hlen more
    exact discover_all_of_text c serviceName port host r .null zeroNode none more hc rfl hlen
  · intro r ms hc hms hlen more
    exact discover_all_of_text c serviceName port host r (.obj ms) zeroNode none more hc
      (by simp [decodeNode, foldl_storeNodeMember_unknown ms hms]) hlen
  · intro r s hc hlen more
    exact discover_all_of_text c serviceName port host r _ _ none more hc
      (by simp [decodeNode, storeNodeMember, e0, zeroNode]) hlen
  · intro r s hc hlen more
    exact discover_all_of_text c serviceName port host r _ _ none more hc
      (by simp [decodeNode, storeNodeMember, e1, zeroNode]) hlen
  · intro r hlen
    rw [DiscoverUDP_datagram, List.take_of_length_le hlen]
    simp only [jsonUnmarshalNode]
    cases hc : checkedValue r with
    | error e => simp
    | ok val =>
      simp only [Except.ok.injEq, exists_eq_left']
      exact acceptedAsNode_iff val

/-- C9 witness: the replies `null` and an object with only a `nodeName`, over UDP
and TCP, and an encoding of a node with an empty name over HTTP. -/
theorem discover_success_node_witness :
    DiscoverUDP exampleClient (mockPeer (ascii "null")) (ascii "svc-a") 9000 (ascii "h")
        = (some zeroNode, none)
    ∧ DiscoverTCP exampleClient (mockStream [ascii "\x7b\"nodeName\":\"n1\"\x7d"]) (ascii "svc-a")
        9000 (ascii "h") = (some { NodeName := ascii "n1", Address := [] }, none)
    ∧ Discover exampleClient
        (mockRegistry 200 (ascii "\x7b\"nodeName\":\"\",\"address\":\"h1:8080\"\x7d")) (ascii "svc-a")
        = (some { NodeName := [], Address := ascii "h1:8080" }, none) :=
  have h := discover_success_node exampleClient (ascii "svc-a") 9000 (ascii "h")
  ⟨(h.2.2.2.2.1 (ascii "null") (by rfl) (by decide) []).2.1,
    (h.2.2.2.2.2.2.1 (ascii "\x7b\"nodeName\":\"n1\"\x7d") (ascii "n1") (by rfl) (by decide)
      []).2.2,
    (h.2.2.2.1 { NodeName := [], Address := ascii "h1:8080" }
      (ascii "\x7b\"nodeName\":\"\",\"address\":\"h1:8080\"\x7d") (by decide) (by decide) []).1⟩

/-! ## The three transports compared -/

/-- What `json.Unmarshal` makes of the first 1024 bytes without error, the stream
decoder makes of the whole body. -/
theorem jsonDecodeNode_of_unmarshal_take (r : GoString) (n : ServiceNode)
    (h : jsonUnmarshalNode (r.take 1024) = (n, none)) : jsonDecodeNode r = (n, none) := by
  unfold jsonUnmarshalNode at h
  cases hc : checkedValue (r.take 1024) with
  | error e => simp [hc] at h
  | ok val =>
    simp only [hc] at h
    have hv : isNullOrObject val = true := by
      by_contra hv
      have hv2 : isNullOrObject val = false := by simpa using hv
      rw [decodeNode_other val hv2] at h
      simp at h
    have := streamValue_append_closed (r.take 1024) val (r.drop 1024) hc hv
    rw [List.take_append_drop] at this
    simp only [jsonDecodeNode, this, h]

/-- C10 (amended): how the three variants relate on a reply `r`.  `DiscoverTCP`,
when the first chunk of the stream is `r`, returns what `DiscoverUDP` returns on
`bytes.TrimSpace` of the first 1024 bytes of `r`, whatever arrives later.  Whenever
`DiscoverUDP` on the datagram `r` succeeds with a node, so do `DiscoverTCP` when
the first chunk is `r` and HTTP `Discover` on a 200 response with body `r`, with
the same node.  When `r` is a JSON text of at most 1024 bytes that arrives in the
first chunk, the three return the same result, error or not. -/
theorem discover_variants_relation (c : MaxineClient) (serviceName : GoString) (port : Int)
    (host : GoString) (r : GoString) :
    (r ≠ [] → ∀ more : List GoString,
      DiscoverTCP c (mockStream (r :: more)) serviceName port host
        = DiscoverUDP c (mockPeer (TrimSpace (r.take 1024))) serviceName port host)
    ∧ (∀ n : ServiceNode,
        DiscoverUDP c (mockPeer r) serviceName port host = (some n, none) →
        (∀ more : List GoString,
          DiscoverTCP c (mockStream (r :: more)) serviceName port host = (some n, none))
        ∧ Discover c (mockRegistry 200 r) serviceName = (some n, none))
    ∧ (Valid r = true → r.length ≤ 1024 → ∀ more : List GoString,
        DiscoverUDP c (mockPeer r) serviceName port host
          = Discover c (mockRegistry 200 r) serviceName
        ∧ DiscoverTCP c (mockStream (r :: more)) serviceName port host
          = Discover c (mockRegistry 200 r) serviceName) := by
  refine ⟨?_, ?_, ?_⟩
  · intro hne more
    have hl : (TrimSpace (r.take 1024)).length ≤ 1024 :=
      Nat.le_trans (TrimSpace_length_le _) (by simp)
    rw [DiscoverTCP_chunk _ _ _ _ _ _ hne, DiscoverUDP_datagram, List.take_of_length_le hl]
  · intro n h
    rw [DiscoverUDP_datagram] at h
    have h2 : jsonUnmarshalNode (r.take 1024) = (n, none) := by
      have ha : (jsonUnmarshalNode (r.take 1024)).1 = n := by simpa using congrArg Prod.fst h
      have hb : (jsonUnmarshalNode (r.take 1024)).2 = none := by simpa using congrArg Prod.snd h
      exact Prod.ext ha hb
    have hne : r ≠ [] := by
      intro h0
      subst h0
      revert h2
      simp [jsonUnmarshalNode, checkedValue, parseTop, skipWs, parseValue]
    constructor
    · intro more
      rw [DiscoverTCP_chunk _ _ _ _ _ _ hne, jsonUnmarshalNode_TrimSpace _ n h2]
    · rw [Discover_ok, jsonDecodeNode_of_unmarshal_take r n h2]
  · intro hv hlen more
    unfold Valid at hv
    cases hc : checkedValue r with
    | error e => simp [hc] at hv
    | ok val =>
      obtain ⟨h1, h2, h3⟩ := discover_all_of_text c serviceName port host r val
        (decodeNode val).1 (decodeNode val).2 more hc rfl hlen
      rw [h1, h2, h3]
      exact ⟨rfl, rfl⟩

/-- C10 witness: the scenario node between a space and a newline. -/
theorem discover_variants_relation_witness :
    DiscoverTCP exampleClient (mockStream [32 :: marshalServiceNode exampleNode ++ [10]])
        (ascii "svc-a") 9000 (ascii "h") = (some exampleNode, none)
    ∧ Discover exampleClient (mockRegistry 200 (32 :: marshalServiceNode exampleNode ++ [10]))
        (ascii "svc-a") = (some exampleNode, none) :=
  have h := (discover_variants_relation exampleClient (ascii "svc-a") 9000 (ascii "h")
    (32 :: marshalServiceNode exampleNode ++ [10])).2.1 exampleNode (by decide)
  ⟨h.1 [], h.2⟩

/-! ## The heartbeat loop -/

theorem hbRun_succ (c : MaxineClient) (world : Nat → HttpPeer) (n : Nat) (s : HbState) :
    hbRun c world (n + 1) s = (hbStep c world (hbRun c world n s)).2 := by
  induction n generalizing s with
  | zero => rfl
  | succ n ih =>
    rw [hbRun, ih]
    rfl

theorem hbRun_reachable (c : MaxineClient) (world : Nat → HttpPeer) (payload : RegisterPayload)
    (n : Nat) : HbReachable c world payload (hbRun c world n (SendHeartbeat c payload).2) := by
  induction n with
  | zero => exact HbReachable.start
  | succ n ih =>
    rw [hbRun_succ]
    exact HbReachable.step _ _ _ ih rfl

/-- After `2k` steps the goroutine is about to make its `k`-th call of `Register`. -/
theorem hbRun_even (c : MaxineClient) (world : Nat → HttpPeer) (payload : RegisterPayload)
    (k : Nat) :
    (hbRun c world (2 * k) (SendHeartbeat c payload).2).phase = Phase.registering
    ∧ (hbRun c world (2 * k) (SendHeartbeat c payload).2).attempts = k
    ∧ (hbRun c world (2 * k) (SendHeartbeat c payload).2).payload = payload := by
  induction k with
  | zero => exact ⟨rfl, rfl, rfl⟩
  | succ k ih =>
    obtain ⟨h1, h2, h3⟩ := ih
    have e : 2 * (k + 1) = 2 * k + 1 + 1 := by ring
    rw [e, hbRun_succ, hbRun_succ]
    simp [hbStep, h1, h2, h3]

/-- C6: the heartbeat loop as a step relation.  `SendHeartbeat` returns nothing to
its caller and starts the goroutine about to call `Register`, with nothing
printed.  In every reachable state the payload is the one given, a step exists
(no state is terminal), and any step is the one the loop prescribes.  From
`registering`: a `Register` call with that payload, leading to `sleeping`; when the
call returns no error nothing is printed, when it returns an error exactly one call
`fmt.Printf("Heartbeat failed: %v\n", err)` with that error is added, and nothing
else changes.  From `sleeping`: a sleep of exactly 5 seconds leading back to
`registering`.  For every `k` the loop reaches its `k`-th call of `Register`,
whatever the earlier calls returned: after `2k` steps it is about to call
`Register` with the payload on the registry as it is then, and the step after that
is the sleep of 5 seconds. -/
theorem heartbeat_loop (c : MaxineClient) (world : Nat → HttpPeer) (payload : RegisterPayload)
    (s : HbState) (hs : HbReachable c world payload s) :
    (SendHeartbeat c payload).1 = ()
    ∧ (SendHeartbeat c payload).2
        = { phase := Phase.registering, payload := payload, attempts := 0, printed := [] }
    ∧ s.payload = payload
    ∧ (∃ e t, HbStep c world s e t ∧ HbReachable c world payload t)
    ∧ (∀ e t, HbStep c world s e t →
        (s.phase = Phase.registering →
          e = HbEvent.register payload (Register c (world s.attempts) payload)
          ∧ t.phase = Phase.sleeping ∧ t.payload = payload
          ∧ t.attempts = s.attempts + 1
          ∧ (Register c (world s.attempts) payload = none → t.printed = s.printed)
          ∧ (∀ err, Register c (world s.attempts) payload = some err →
              t.printed
                = s.printed ++ [{ format := ascii "Heartbeat failed: %v\n", arg := err }]))
        ∧ (s.phase = Phase.sleeping →
          e = HbEvent.sleep 5000000000
          ∧ t.phase = Phase.registering ∧ t.payload = payload
          ∧ t.attempts = s.attempts ∧ t.printed = s.printed))
    ∧ (∀ k : Nat,
        HbReachable c world payload (hbRun c world (2 * k) (SendHeartbeat c payload).2)
        ∧ (hbStep c world (hbRun c world (2 * k) (SendHeartbeat c payload).2)).1
            = HbEvent.register payload (Register c (world k) payload)
        ∧ (hbStep c world (hbRun c world (2 * k + 1) (SendHeartbeat c payload).2)).1
            = HbEvent.sleep 5000000000) := by
  have hp := hbReachable_payload c world payload s hs
  refine ⟨rfl, rfl, hp, ⟨(hbStep c world s).1, (hbStep c world s).2, rfl, ?_⟩, ?_, ?_⟩
  · exact HbReachable.step s _ _ hs rfl
  · intro e t hstep
    unfold HbStep hbStep at hstep
    cases hph : s.phase <;> simp [hph] at hstep <;> obtain ⟨he, ht⟩ := hstep
      <;> subst he <;> subst ht
    · simp only [hp, report, true_and, reduceCtorEq, false_implies, and_true, implies_true]
      intro _
      refine ⟨?_, ?_⟩
      · intro h0; rw [h0]
      · intro err h0; rw [h0]
    · simp [hp, Second]
  · intro k
    obtain ⟨h1, h2, h3⟩ := hbRun_even c world payload k
    refine ⟨hbRun_reachable c world payload (2 * k), ?_, ?_⟩
    · simp [hbStep, h1, h2, h3]
    · rw [hbRun_succ]
      simp [hbStep, h1, Second]

/-- C6 witness: a registry that is down for the first call.  The failure is printed
once, and the third call of `Register` is made and succeeds. -/
theorem heartbeat_loop_witness :
    (hbStep exampleClient flakyWorld (SendHeartbeat exampleClient examplePayload).2).2.printed
        = [{ format := ascii "Heartbeat failed: %v\n",
             arg := Err.msg (ascii "registration failed: down") }]
    ∧ (hbStep exampleClient flakyWorld
          (hbRun exampleClient flakyWorld 4 (SendHeartbeat exampleClient examplePayload).2)).1
        = HbEvent.register examplePayload (Register exampleClient (flakyWorld 2) examplePayload)
    ∧ Register exampleClient (flakyWorld 2) examplePayload = none :=
  have h := heartbeat_loop exampleClient flakyWorld examplePayload _ HbReachable.start
  ⟨((h.2.2.2.2.1 _ _ rfl).1 rfl).2.2.2.2.2 (Err.msg (ascii "registration failed: down"))
      (by decide),
    (h.2.2.2.2.2 2).2.1, by decide⟩

/-! ## Round trip of dynamic values -/

theorem sortMembers_ascending (ms : List (GoString × GoString))
    (h : keysAscending (ms.map Prod.fst) = true) : sortMembers ms = ms := by
  induction ms with
  | nil => rfl
  | cons m ms ih =>
    simp only [List.map_cons, keysAscending, Bool.and_eq_true] at h
    rw [sortMembers, ih h.2]
    cases ms with
    | nil => rfl
    | cons x xs =>
      have := h.1
      simp only [List.map_cons, List.all_cons, Bool.and_eq_true] at this
      simp [insertMember, this.1.1]

theorem tailOK_cons (c : Nat) (X : GoString) (h : endsNumber c = true) : tailOK (c :: X) :=
  Or.inr ⟨c, X, rfl, h⟩

theorem rt_null : RTValue .null := by
  refine ⟨ascii "null", rfl, ⟨110, [117, 108, 108], rfl, by decide, by decide⟩, ?_⟩
  intro f d R hf _ _
  obtain ⟨g, rfl⟩ : ∃ g, f = g + 1 := ⟨f - 1, by omega⟩
  have e : ascii "null" ++ R = 110 :: 117 :: 108 :: 108 :: R := rfl
  rw [e, parseValue]
  simp [expectLit]

theorem rt_bool (b : Bool) : RTValue (.bool b) := by
  cases b with
  | true =>
    refine ⟨ascii "true", rfl, ⟨116, [114, 117, 101], rfl, by decide, by decide⟩, ?_⟩
    intro f d R hf _ _
    obtain ⟨g, rfl⟩ : ∃ g, f = g + 1 := ⟨f - 1, by omega⟩
    have e : ascii "true" ++ R = 116 :: 114 :: 117 :: 101 :: R := rfl
    rw [e, parseValue]
    simp [expectLit]
  | false =>
    refine ⟨ascii "false", rfl, ⟨102, [97, 108, 115, 101], rfl, by decide, by decide⟩, ?_⟩
    intro f d R hf _ _
    obtain ⟨g, rfl⟩ : ∃ g, f = g + 1 := ⟨f - 1, by omega⟩
    have e : ascii "false" ++ R = 102 :: 97 :: 108 :: 115 :: 101 :: R := rfl
    rw [e, parseValue]
    simp [expectLit]

theorem rt_str (s : GoString) (h : utf8Valid s = true) : RTValue (.str s) := by
  refine ⟨marshalString s, rfl, ⟨34, _, rfl, by decide, by decide⟩, ?_⟩
  intro f d R hf _ _
  obtain ⟨g, rfl⟩ : ∃ g, f = g + 1 := ⟨f - 1, by omega⟩
  exact parseValue_marshalString g d s R h

theorem isNumberLit_parse (lit : GoString) (h : isNumberLit lit = true) :
    parseNumber lit = .ok (lit, []) := by
  unfold isNumberLit at h
  split at h
  · rename_i t heq
    have := (parseNumber_local _ _ _ heq).1
    rw [List.append_nil] at this
    rw [heq, ← this]
  · simp at h

theorem rt_num (lit : GoString) (h : isNumberLit lit = true) : RTValue (.num lit) := by
  have hp := isNumberLit_parse lit h
  obtain ⟨_, _, _, ⟨b, tl, hlit, hb⟩, hloc⟩ := parseNumber_local _ _ _ hp
  have hb2 : b = 45 ∨ (48 ≤ b ∧ b ≤ 57) := by
    rcases hb with hb | hb
    · exact Or.inl hb
    · right; simpa [isDigit] using hb
  refine ⟨lit, rfl, ⟨b, tl, hlit, ?_, ?_⟩, ?_⟩
  · simp [isSpace]; omega
  · omega
  · intro f d R hf _ hR
    obtain ⟨g, rfl⟩ : ∃ g, f = g + 1 := ⟨f - 1, by omega⟩
    have hn := hloc R hR
    rw [hlit] at hn ⊢
    simp only [List.cons_append] at hn ⊢
    rw [parseValue]
    have n1 : b ≠ 123 := by omega
    have n2 : b ≠ 91 := by omega
    have n3 : b ≠ 34 := by omega
    have n4 : b ≠ 116 := by omega
    have n5 : b ≠ 102 := by omega
    have n6 : b ≠ 110 := by omega
    simp only [n1, n2, n3, n4, n5, n6, if_false, hn]

theorem rt_elems_nil : RTElems [] :=
  ⟨[], rfl, fun _ => rfl, fun h => absurd rfl h⟩

theorem rt_elems_cons (x : GoValue) (xs : List GoValue) (hx : RTValue x) (hxs : RTElems xs) :
    RTElems (x :: xs) := by
  obtain ⟨e, he, ⟨b, tl, hbt, hbs, hb93⟩, hpx⟩ := hx
  obtain ⟨es, hes, hnil, hcons⟩ := hxs
  refine ⟨e :: es, by simp [marshalElems, he, hes], by simp, fun _ => ?_⟩
  cases xs with
  | nil =>
    have hes0 := hnil rfl
    subst hes0
    refine ⟨⟨b, tl, by simpa [joinComma] using hbt, hbs, hb93⟩, ?_⟩
    intro f d R hf hd
    obtain ⟨g, rfl⟩ : ∃ g, f = g + 1 := ⟨f - 1, by omega⟩
    simp only [joinComma] at hf ⊢
    have hv := hpx g d (93 :: R) (by omega) (by simp [nestingElems] at hd; omega)
      (tailOK_cons 93 R (by decide))
    rw [parseElems, hv]
    simp [skipWs, isSpace]
  | cons y ys =>
    obtain ⟨⟨b2, tl2, hj, hb2s, _⟩, hpxs⟩ := hcons (by simp)
    obtain ⟨e2, es2, hes2⟩ : ∃ e2 es2, es = e2 :: es2 := by
      cases es with
      | nil =>
        exfalso
        simp [marshalElems] at hes
        split at hes <;> simp at hes
      | cons e2 es2 => exact ⟨e2, es2, rfl⟩
    have hjoin : joinComma (e :: es) = e ++ 44 :: joinComma es := by
      rw [hes2]; rfl
    refine ⟨⟨b, tl ++ 44 :: joinComma es, by rw [hjoin, hbt]; rfl, hbs, hb93⟩, ?_⟩
    intro f d R hf hd
    obtain ⟨g, rfl⟩ : ∃ g, f = g + 1 := ⟨f - 1, by omega⟩
    rw [hjoin, List.append_assoc] at hf ⊢
    simp only [List.cons_append] at hf ⊢
    have hd2 : d + nesting x ≤ maxNestingDepth ∧ d + nestingElems (y :: ys) ≤ maxNestingDepth := by
      simp only [nestingElems] at hd ⊢
      omega
    have hlen : (e ++ 44 :: (joinComma es ++ 93 :: R)).length
        = e.length + 1 + (joinComma es ++ 93 :: R).length := by
      simp; omega
    have hv := hpx g d (44 :: (joinComma es ++ 93 :: R)) (by omega) hd2.1
      (tailOK_cons 44 _ (by decide))
    have hrest := hpxs g d R (by omega) hd2.2
    have hsk : skipWs (joinComma es ++ 93 :: R) = joinComma es ++ 93 :: R := by
      rw [hj, List.cons_append]
      exact skipWs_cons_of_not_space _ _ hb2s
    rw [parseElems, hv]
    simp [skipWs, isSpace, hsk, hrest]

theorem rt_arr (xs : List GoValue) (h : RTElems xs) : RTValue (.arr xs) := by
  obtain ⟨es, hes, hnil, hcons⟩ := h
  refine ⟨91 :: joinComma es ++ [93], by simp [marshalValue, hes],
    ⟨91, joinComma es ++ [93], rfl, by decide, by decide⟩, ?_⟩
  intro f d R hf hd _
  obtain ⟨g, rfl⟩ : ∃ g, f = g + 1 := ⟨f - 1, by omega⟩
  have hdep : ¬ maxNestingDepth ≤ d := by
    simp only [nesting] at hd
    omega
  have e1 : 91 :: joinComma es ++ [93] ++ R = 91 :: (joinComma es ++ 93 :: R) := by simp
  rw [e1] at hf ⊢
  rw [parseValue]
  simp only [show (91 : Nat) ≠ 123 by decide, if_false, if_true, hdep]
  cases xs with
  | nil =>
    have := hnil rfl
    subst this
    simp [joinComma, skipWs, isSpace]
  | cons y ys =>
    obtain ⟨⟨b, tl, hj, hbs, hb93⟩, hp⟩ := hcons (by simp)
    have hsk : skipWs (joinComma es ++ 93 :: R) = b :: (tl ++ 93 :: R) := by
      rw [hj, List.cons_append]
      exact skipWs_cons_of_not_space _ _ hbs
    have hpe := hp g (d + 1) R (by simp only [List.length_cons] at hf; omega)
      (by simp only [nesting] at hd; omega)
    rw [hj, List.cons_append] at hpe
    rw [hsk]
    simp only [hb93, if_false, hpe]

theorem rt_members_nil : RTMembers [] :=
  ⟨[], rfl, rfl, fun _ => rfl, fun h => absurd rfl h⟩

theorem memberText_eq (k e : GoString) :
    memberText (k, e) = 34 :: (appendStringFrom false 0 k ++ 34 :: 58 :: e) := by
  simp [memberText, marshalString]

theorem rt_members_cons (k : GoString) (v : GoValue) (kvs : List (GoString × GoValue))
    (hk : utf8Valid k = true) (hv : RTValue v) (h : RTMembers kvs) :
    RTMembers ((k, v) :: kvs) := by
  obtain ⟨e, he, ⟨b, tl, hbt, hbs, _⟩, hpv⟩ := hv
  obtain ⟨ms, hms, hkeys, hnil, hcons⟩ := h
  refine ⟨(k, e) :: ms, by simp [marshalMembers, he, hms], by simp [hkeys], by simp, fun _ => ?_⟩
  have hske : ∀ X, skipWs (e ++ X) = e ++ X := by
    intro X
    rw [hbt, List.cons_append]
    exact skipWs_cons_of_not_space _ _ hbs
  cases kvs with
  | nil =>
    have hms0 := hnil rfl
    subst hms0
    refine ⟨appendStringFrom false 0 k ++ 34 :: 58 :: e, by simp [joinComma, memberText_eq], ?_⟩
    intro f d R hf hd
    obtain ⟨g, rfl⟩ : ∃ g, f = g + 1 := ⟨f - 1, by omega⟩
    have e1 : appendStringFrom false 0 k ++ 34 :: 58 :: e ++ 125 :: R
        = appendStringFrom false 0 k ++ 34 :: (58 :: (e ++ 125 :: R)) := by simp
    rw [e1] at hf ⊢
    have hlen : (appendStringFrom false 0 k ++ 34 :: (58 :: (e ++ 125 :: R))).length
        = (appendStringFrom false 0 k).length + 2 + (e ++ 125 :: R).length := by
      simp; omega
    have hval := hpv g d (125 :: R) (by omega) (by simp only [nestingMembers] at hd; omega)
      (tailOK_cons 125 R (by decide))
    rw [parseMembers, strBody_appendString k _ hk]
    simp [skipWs, isSpace, hske, hval]
  | cons kv2 kvs2 =>
    obtain ⟨body2, hj2, hp2⟩ := hcons (by simp)
    obtain ⟨m2, ms2, hms2⟩ : ∃ m2 ms2, ms = m2 :: ms2 := by
      cases ms with
      | nil => simp at hkeys
      | cons m2 ms2 => exact ⟨m2, ms2, rfl⟩
    have hjoin : joinComma (((k, e) :: ms).map memberText)
        = 34 :: (appendStringFrom false 0 k ++ 34 :: 58 :: (e ++ 44 :: 34 :: body2)) := by
      rw [List.map_cons, ← hj2, hms2, List.map_cons]
      simp [joinComma, memberText_eq]
    refine ⟨_, hjoin, ?_⟩
    intro f d R hf hd
    obtain ⟨g, rfl⟩ : ∃ g, f = g + 1 := ⟨f - 1, by omega⟩
    have e1 : appendStringFrom false 0 k ++ 34 :: 58 :: (e ++ 44 :: 34 :: body2) ++ 125 :: R
        = appendStringFrom false 0 k ++ 34 :: (58 :: (e ++ 44 :: 34 :: (body2 ++ 125 :: R))) := by
      simp
    rw [e1] at hf ⊢
    have hlen : (appendStringFrom false 0 k ++ 34 :: (58 :: (e ++ 44 :: 34 :: (body2 ++ 125 :: R)))).length
        = (appendStringFrom false 0 k).length + 2 + (e ++ 44 :: 34 :: (body2 ++ 125 :: R)).length := by
      simp; omega
    have hlen2 : (e ++ 44 :: 34 :: (body2 ++ 125 :: R)).length
        = e.length + 2 + (body2 ++ 125 :: R).length := by
      simp; omega
    have hd2 : d + nesting v ≤ maxNestingDepth
        ∧ d + nestingMembers (kv2 :: kvs2) ≤ maxNestingDepth := by
      simp only [nestingMembers] at hd ⊢
      omega
    have hval := hpv g d (44 :: 34 :: (body2 ++ 125 :: R)) (by omega) hd2.1
      (tailOK_cons 44 _ (by decide))
    have hrest := hp2 g d R (by omega) hd2.2
    rw [parseMembers, strBody_appendString k _ hk]
    simp [skipWs, isSpace, hske, hval, hrest]

theorem rt_obj (kvs : List (GoString × GoValue)) (h : RTMembers kvs)
    (hk : keysAscending (kvs.map Prod.fst) = true) : RTValue (.obj kvs) := by
  obtain ⟨ms, hms, hkeys, hnil, hcons⟩ := h
  have hsort : sortMembers ms = ms := sortMembers_ascending ms (by rw [hkeys]; exact hk)
  refine ⟨123 :: joinComma (ms.map memberText) ++ [125],
    by simp [marshalValue, hms, objectText, hsort],
    ⟨123, joinComma (ms.map memberText) ++ [125], rfl, by decide, by decide⟩, ?_⟩
  intro f d R hf hd _
  obtain ⟨g, rfl⟩ : ∃ g, f = g + 1 := ⟨f - 1, by omega⟩
  have hdep : ¬ maxNestingDepth ≤ d := by
    simp only [nesting] at hd
    omega
  have e1 : 123 :: joinComma (ms.map memberText) ++ [125] ++ R
      = 123 :: (joinComma (ms.map memberText) ++ 125 :: R) := by simp
  rw [e1] at hf ⊢
  rw [parseValue]
  simp only [if_true, hdep, if_false]
  cases kvs with
  | nil =>
    have := hnil rfl
    subst this
    simp [joinComma, skipWs, isSpace]
  | cons kv kvs2 =>
    obtain ⟨body, hj, hp⟩ := hcons (by simp)
    have hpm := hp g (d + 1) R (by rw [hj] at hf; simp only [List.length_cons, List.cons_append] at hf; omega)
      (by simp only [nesting] at hd; omega)
    rw [hj, List.cons_append]
    simp [skipWs, isSpace, hpm]

mutual
/-- Every plain value is read back from its encoding. -/
theorem roundtrip_value : ∀ v : GoValue, plainValue v = true → RTValue v
  | .null, _ => rt_null
  | .bool b, _ => rt_bool b
  | .num lit, h => rt_num lit (by simpa [plainValue] using h)
  | .str s, h => rt_str s (by simpa [plainValue] using h)
  | .arr xs, h => rt_arr xs (roundtrip_elems xs (by simpa [plainValue] using h))
  | .obj kvs, h => by
    have h2 : plainMembers kvs = true ∧ keysAscending (kvs.map Prod.fst) = true := by
      simpa [plainValue] using h
    exact rt_obj kvs (roundtrip_members kvs h2.1) h2.2
  | .chan, h => by simp [plainValue] at h
  | .int i, h => by simp [plainValue] at h
/-- The elements of a slice of plain values are read back in order. -/
theorem roundtrip_elems : ∀ xs : List GoValue, plainElems xs = true → RTElems xs
  | [], _ => rt_elems_nil
  | x :: xs, h => by
    have h2 : plainValue x = true ∧ plainElems xs = true := by simpa [plainElems] using h
    exact rt_elems_cons x xs (roundtrip_value x h2.1) (roundtrip_elems xs h2.2)
/-- The members of a map of plain values are read back in order. -/
theorem roundtrip_members : ∀ kvs : List (GoString × GoValue), plainMembers kvs = true →
    RTMembers kvs
  | [], _ => rt_members_nil
  | (k, v) :: kvs, h => by
    have h2 : (utf8Valid k = true ∧ plainValue v = true) ∧ plainMembers kvs = true := by
      simpa [plainMembers] using h
    exact rt_members_cons k v kvs h2.1.1 (roundtrip_value v h2.1.2) (roundtrip_members kvs h2.2)
end

/-! ## Round trip of the Register request body -/

theorem parseMembers_ws_last (f d : Nat) (key s w2 w3 w4 rest : GoString)
    (hk : utf8Valid key = true) (hs : utf8Valid s = true)
    (h2 : ∀ b ∈ w2, isSpace b = true) (h3 : ∀ b ∈ w3, isSpace b = true)
    (h4 : ∀ b ∈ w4, isSpace b = true) :
    parseMembers (f + 2) d (appendStringFrom false 0 key ++ 34 :: (w2 ++ 58 :: (w3
        ++ marshalString s ++ (w4 ++ 125 :: rest))))
      = .ok ([(key, .str s)], rest) := by
  have e3 : skipWs (w3 ++ marshalString s ++ (w4 ++ 125 :: rest))
      = marshalString s ++ (w4 ++ 125 :: rest) := by
    rw [List.append_assoc, skipWs_spaces_append w3 _ h3, skipWs_marshalString]
  rw [parseMembers, strBody_appendString key _ hk]
  simp only [skipWs_spaces_cons w2 58 _ h2 (by decide), if_true, e3,
    parseValue_marshalString f d s _ hs, skipWs_spaces_cons w4 125 rest h4 (by decide)]
  simp

theorem parseMembers_ws_more (f d : Nat) (key s w2 w3 w4 w5 more : GoString)
    (ms : List (GoString × GoValue)) (rest : GoString)
    (hk : utf8Valid key = true) (hs : utf8Valid s = true)
    (h2 : ∀ b ∈ w2, isSpace b = true) (h3 : ∀ b ∈ w3, isSpace b = true)
    (h4 : ∀ b ∈ w4, isSpace b = true) (h5 : ∀ b ∈ w5, isSpace b = true)
    (hmore : parseMembers (f + 1) d more = .ok (ms, rest)) :
    parseMembers (f + 2) d (appendStringFrom false 0 key ++ 34 :: (w2 ++ 58 :: (w3
        ++ marshalString s ++ (w4 ++ 44 :: (w5 ++ 34 :: more)))))
      = .ok ((key, .str s) :: ms, rest) := by
  have e3 : skipWs (w3 ++ marshalString s ++ (w4 ++ 44 :: (w5 ++ 34 :: more)))
      = marshalString s ++ (w4 ++ 44 :: (w5 ++ 34 :: more)) := by
    rw [List.append_assoc, skipWs_spaces_append w3 _ h3, skipWs_marshalString]
  rw [parseMembers, strBody_appendString key _ hk]
  simp only [skipWs_spaces_cons w2 58 _ h2 (by decide), if_true, e3,
    parseValue_marshalString f d s _ hs, skipWs_spaces_cons w4 44 _ h4 (by decide),
    skipWs_spaces_cons w5 34 more h5 (by decide), hmore]

/-- A two-member object with white space between its tokens is a JSON text for the
object with those members. -/
theorem checkedValue_twoMemberText (w : Nat → GoString) (k1 s1 k2 s2 : GoString)
    (hw : ∀ i, ∀ b ∈ w i, isSpace b = true)
    (hk1 : utf8Valid k1 = true) (hs1 : utf8Valid s1 = true)
    (hk2 : utf8Valid k2 = true) (hs2 : utf8Valid s2 = true) :
    checkedValue (twoMemberText w k1 s1 k2 s2) = .ok (.obj [(k1, .str s1), (k2, .str s2)]) := by
  have hlast := fun f => parseMembers_ws_last f 1 k2 s2 (w 6) (w 7) (w 8) (w 9) hk2 hs2
    (hw 6) (hw 7) (hw 8)
  have hmem := fun f => parseMembers_ws_more (f + 1) 1 k1 s1 (w 2) (w 3) (w 4) (w 5) _ _ _ hk1 hs1
    (hw 2) (hw 3) (hw 4) (hw 5) (hlast f)
  obtain ⟨g, hg⟩ : ∃ g, 2 * (twoMemberText w k1 s1 k2 s2).length + 2 = g + 4 :=
    ⟨2 * (twoMemberText w k1 s1 k2 s2).length - 2, by
      have : 1 ≤ (twoMemberText w k1 s1 k2 s2).length := by
        simp [twoMemberText]
        omega
      omega⟩
  have hp : parseTop (twoMemberText w k1 s1 k2 s2)
      = .ok (.obj [(k1, .str s1), (k2, .str s2)], w 9) := by
    unfold parseTop
    rw [hg]
    unfold twoMemberText
    rw [skipWs_spaces_cons (w 0) 123 _ (hw 0) (by decide), parseValue]
    have e1 : skipWs (w 1 ++ marshalString k1 ++ (w 2 ++ 58 :: (w 3 ++ marshalString s1
        ++ (w 4 ++ 44 :: (w 5 ++ marshalString k2 ++ (w 6 ++ 58 :: (w 7 ++ marshalString s2
        ++ (w 8 ++ 125 :: w 9))))))))
        = 34 :: (appendStringFrom false 0 k1 ++ 34 :: (w 2 ++ 58 :: (w 3 ++ marshalString s1
        ++ (w 4 ++ 44 :: (w 5 ++ 34 :: (appendStringFrom false 0 k2 ++ 34 :: (w 6 ++ 58 :: (w 7
        ++ marshalString s2 ++ (w 8 ++ 125 :: w 9))))))))) := by
      rw [List.append_assoc, skipWs_spaces_append (w 1) _ (hw 1), skipWs_marshalString]
      simp [marshalString]
    simp only [if_true, e1, hmem g, maxNestingDepth]
    simp
  have hs9 : skipWs (w 9) = [] := by
    have := skipWs_spaces_append (w 9) [] (hw 9)
    simpa [skipWs] using this
  simp [checkedValue, hp, hs9]

/-- Every layout of the two members of a node, in either order, with JSON white
space between the tokens, is a well-formed encoding of the node. -/
theorem encodesNode_layout (v : ServiceNode) (w : Nat → GoString)
    (hw : ∀ i, ∀ b ∈ w i, isSpace b = true)
    (h1 : utf8Valid v.NodeName = true) (h2 : utf8Valid v.Address = true) :
    encodesNode (twoMemberText w (ascii "nodeName") v.NodeName (ascii "address") v.Address) v
      = true
    ∧ encodesNode (twoMemberText w (ascii "address") v.Address (ascii "nodeName") v.NodeName) v
      = true := by
  have ha := checkedValue_twoMemberText w (ascii "nodeName") v.NodeName (ascii "address")
    v.Address hw (by decide) h1 (by decide) h2
  have hb := checkedValue_twoMemberText w (ascii "address") v.Address (ascii "nodeName")
    v.NodeName hw (by decide) h2 (by decide) h1
  constructor
  · simp [encodesNode, ha, denotesNode]
  · simp [encodesNode, hb, denotesNode]

/-! ## Discover: the claims on well-formed and malformed replies -/

/-- C2 (amended): for every service name, every node `v` and every well-formed
JSON encoding `r` of `v` (any spelling of the object with the members `nodeName`
and `address`): HTTP `Discover` (status 200) returns `v` whatever the length of
`r`; `DiscoverUDP` returns `v` when `r` is at most 1024 bytes; `DiscoverTCP`
returns `v` when `r`, surrounded by any white-space runes, is at most 1024 bytes
and arrives in the first chunk of the stream (what arrives later is not read).
When the first 1024 bytes of the datagram, or of the first chunk, stop before the
end of the object, `DiscoverUDP` and `DiscoverTCP` return a syntax error and a zero
node.  For a node with valid UTF-8 fields, what `json.Marshal` writes is such an
encoding, and so is every layout of the two members, in either order, with JSON
white space between the tokens. -/
theorem discover_roundtrip (c : MaxineClient) (serviceName : GoString) (port : Int)
    (host : GoString) (v : ServiceNode) :
    (∀ r : GoString, encodesNode r v = true →
      Discover c (mockRegistry 200 r) serviceName = (some v, none)
      ∧ (r.length ≤ 1024 →
          DiscoverUDP c (mockPeer r) serviceName port host = (some v, none))
      ∧ (∀ (pre post : GoString) (more : List GoString),
          spaceRunes pre = true → spaceRunes post = true →
          (pre ++ r ++ post).length ≤ 1024 →
          DiscoverTCP c (mockStream ((pre ++ r ++ post) :: more)) serviceName port host
            = (some v, none))
      ∧ (∀ q t : GoString, r = q.take 1024 ++ t → (∃ x ∈ t, isSpace x = false) →
          DiscoverUDP c (mockPeer q) serviceName port host
            = (some zeroNode, some Err.jsonSyntax)
          ∧ (q ≠ [] → ∀ more : List GoString,
              DiscoverTCP c (mockStream (q :: more)) serviceName port host
                = (some zeroNode, some Err.jsonSyntax))))
    ∧ (utf8Valid v.NodeName = true → utf8Valid v.Address = true →
        encodesNode (marshalServiceNode v) v = true
        ∧ ∀ w : Nat → GoString, (∀ i, ∀ b ∈ w i, isSpace b = true) →
            encodesNode
                (twoMemberText w (ascii "nodeName") v.NodeName (ascii "address") v.Address) v
              = true
            ∧ encodesNode
                (twoMemberText w (ascii "address") v.Address (ascii "nodeName") v.NodeName) v
              = true) := by
  refine ⟨?_, fun h1 h2 => ⟨encodesNode_marshal v h1 h2,
    fun w hw => encodesNode_layout v w hw h1 h2⟩⟩
  intro r hr
  obtain ⟨val, hc, hd⟩ := encodesNode_value r v hr
  have hdec := decodeNode_denotes val v hd
  obtain ⟨ms, hms⟩ := denotesNode_obj val v hd
  refine ⟨?_, ?_, ?_, ?_⟩
  · rw [discover_http_of_text c serviceName r val hc, hdec]
  · intro hlen
    rw [discoverUDP_of_text c serviceName port host r val hc hlen, hdec]
  · intro pre post more hpre hpost hlen
    rw [discoverTCP_of_text c serviceName port host r val pre post more hc hpre hpost hlen, hdec]
  · intro q t hq ht
    rw [hms] at hc
    exact ⟨discoverUDP_cut c serviceName port host r q t ms hc hq ht,
      fun hne more => discoverTCP_cut c serviceName port host r q t more ms hc hq ht hne⟩

/-- C2 witness: an encoding of the scenario node with white space, the members in
the other order and an escape, sent over TCP between a no-break space and a line
end, with a second chunk after it. -/
theorem discover_roundtrip_witness :
    DiscoverTCP exampleClient
      (mockStream (([0xC2, 0xA0] ++ spacedEncoding ++ [13, 10]) :: [ascii "later"]))
      (ascii "svc-a") 9000 (ascii "h") = (some exampleNode, none) :=
  ((discover_roundtrip exampleClient (ascii "svc-a") 9000 (ascii "h") exampleNode).1
    spacedEncoding (by decide)).2.2.1 [0xC2, 0xA0] [13, 10] [ascii "later"] (by decide)
    (by decide) (by decide)

/-- C3 (amended): what the three variants return on a reply that is empty or not
a well-formed encoding.  (1) An empty reply: `io.EOF` from the decoder over HTTP,
a syntax error over UDP, `io.EOF` from the read over TCP when the peer closes
without sending.  (2) A reply that is not a JSON text: a syntax error and a zero
node over UDP (within the 1024-byte buffer) and over TCP (first chunk, within the
buffer, with no white space around it to trim); over HTTP, when the body does not
even begin with a JSON value, `io.EOF`, `io.ErrUnexpectedEOF` or a syntax error.
(3) A JSON text whose value is not an object or `null`: a type error and a zero
node on all three.  (4) An object in which a member named like a field holds
neither a string nor `null`: a type error on all three.  (5) A well-formed
encoding cut before the end of its object: an error on all three.  (6) A
well-formed encoding followed by bytes that do not begin with JSON white space: a
syntax error over UDP and over TCP (when the bytes do not end in white space), but
over HTTP the node, without error.  (7) HTTP `Discover` looks only at the first
JSON value of the body: it returns a type error when the decoder does not accept
that value as a node, and no error when it does, whatever follows.  (8) On every
reply each variant returns: a node with no error, or an error of the decoder (with
a non-nil node, except for `io.EOF` from the TCP read). -/
theorem discover_malformed_reply (c : MaxineClient) (serviceName : GoString) (port : Int)
    (host : GoString) :
    (Discover c (mockRegistry 200 []) serviceName = (some zeroNode, some Err.eof)
      ∧ DiscoverUDP c (mockPeer []) serviceName port host = (some zeroNode, some Err.jsonSyntax)
      ∧ DiscoverTCP c (mockStream []) serviceName port host = (none, some Err.eof))
    ∧ (∀ r : GoString, Valid r = false →
        (r.length ≤ 1024 →
          DiscoverUDP c (mockPeer r) serviceName port host = (some zeroNode, some Err.jsonSyntax))
        ∧ (r ≠ [] → r.length ≤ 1024 → TrimSpace r = r → ∀ more : List GoString,
            DiscoverTCP c (mockStream (r :: more)) serviceName port host
              = (some zeroNode, some Err.jsonSyntax))
        ∧ (beginsWithValue r = false →
            ∃ e, Discover c (mockRegistry 200 r) serviceName = (some zeroNode, some e)
              ∧ (e = Err.eof ∨ e = Err.unexpectedEOF ∨ e = Err.jsonSyntax)))
    ∧ (∀ (r : GoString) (val : GoValue), checkedValue r = .ok val → isNullOrObject val = false →
        Discover c (mockRegistry 200 r) serviceName = (some zeroNode, some Err.jsonType)
        ∧ (r.length ≤ 1024 →
            DiscoverUDP c (mockPeer r) serviceName port host = (some zeroNode, some Err.jsonType)
            ∧ ∀ more : List GoString,
                DiscoverTCP c (mockStream (r :: more)) serviceName port host
                  = (some zeroNode, some Err.jsonType)))
    ∧ (∀ (r : GoString) (ms : List (GoString × GoValue)), checkedValue r = .ok (.obj ms) →
        ms.any badNodeMember = true →
        (Discover c (mockRegistry 200 r) serviceName).2 = some Err.jsonType
        ∧ (r.length ≤ 1024 →
            (DiscoverUDP c (mockPeer r) serviceName port host).2 = some Err.jsonType
            ∧ ∀ more : List GoString,
                (DiscoverTCP c (mockStream (r :: more)) serviceName port host).2
                  = some Err.jsonType))
    ∧ (∀ (v : ServiceNode) (r q t : GoString), encodesNode r v = true → r = q ++ t →
        (∃ x ∈ t, isSpace x = false) →
        (∃ e, Discover c (mockRegistry 200 q) serviceName = (some zeroNode, some e))
        ∧ DiscoverUDP c (mockPeer q) serviceName port host = (some zeroNode, some Err.jsonSyntax)
        ∧ (q ≠ [] → ∀ more : List GoString,
            DiscoverTCP c (mockStream (q :: more)) serviceName port host
              = (some zeroNode, some Err.jsonSyntax)))
    ∧ (∀ (v : ServiceNode) (r : GoString) (x : Nat) (rest : GoString), encodesNode r v = true →
        isSpace x = false →
        Discover c (mockRegistry 200 (r ++ x :: rest)) serviceName = (some v, none)
        ∧ ((r ++ x :: rest).length ≤ 1024 →
            DiscoverUDP c (mockPeer (r ++ x :: rest)) serviceName port host
              = (some zeroNode, some Err.jsonSyntax)
            ∧ (asciiNonSpace (lastByte (x :: rest)) = true → ∀ more : List GoString,
                DiscoverTCP c (mockStream ((r ++ x :: rest) :: more)) serviceName port host
                  = (some zeroNode, some Err.jsonSyntax))))
    ∧ (∀ (r : GoString) (val : GoValue) (rest : GoString), parseTop r = .ok (val, rest) →
        (acceptedAsNode val = false →
          ∃ n, Discover c (mockRegistry 200 r) serviceName = (some n, some Err.jsonType))
        ∧ (acceptedAsNode val = true →
          ∃ n, Discover c (mockRegistry 200 r) serviceName = (some n, none)))
    ∧ (∀ r : GoString,
        (∃ n, Discover c (mockRegistry 200 r) serviceName = (some n, none)
          ∨ ∃ e, Discover c (mockRegistry 200 r) serviceName = (some n, some e)
              ∧ isDecodeError e = true)
        ∧ (∃ n, DiscoverUDP c (mockPeer r) serviceName port host = (some n, none)
          ∨ ∃ e, DiscoverUDP c (mockPeer r) serviceName port host = (some n, some e)
              ∧ isDecodeError e = true))
    ∧ (∀ chunks : List GoString,
        DiscoverTCP c (mockStream chunks) serviceName port host = (none, some Err.eof)
        ∨ ∃ n, DiscoverTCP c (mockStream chunks) serviceName port host = (some n, none)
          ∨ ∃ e, DiscoverTCP c (mockStream chunks) serviceName port host = (some n, some e)
              ∧ isDecodeError e = true) := by
  refine ⟨⟨?_, ?_, ?_⟩, ?_, ?_, ?_, ?_, ?_, ?_, ?_, ?_⟩
  · simp [Discover, mockRegistry, jsonDecodeNode, streamValue, skipWs]
  · simp [DiscoverUDP, mockPeer, connRead, jsonUnmarshalNode, checkedValue, parseTop, skipWs,
      parseValue]
  · simp [DiscoverTCP, mockStream, connRead, firstChunk]
  · intro r hr
    have hc := Valid_false r hr
    refine ⟨?_, ?_, ?_⟩
    · intro hlen
      rw [DiscoverUDP_datagram, List.take_of_length_le hlen]
      simp [jsonUnmarshalNode, hc]
    · intro hne hlen htrim more
      rw [DiscoverTCP_chunk _ _ _ _ _ _ hne, List.take_of_length_le hlen, htrim]
      simp [jsonUnmarshalNode, hc]
    · exact discover_http_no_value c serviceName r
  · intro r val hc hv
    have hd := decodeNode_other val hv
    refine ⟨?_, ?_⟩
    · rw [discover_http_of_text c serviceName r val hc, hd]
    · intro hlen
      refine ⟨?_, ?_⟩
      · rw [discoverUDP_of_text c serviceName port host r val hc hlen, hd]
      · intro more
        have := discoverTCP_of_text c serviceName port host r val [] [] more hc rfl rfl
          (by simpa using hlen)
        simp only [List.nil_append, List.append_nil] at this
        rw [this, hd]
  · intro r ms hc hbad
    have hd : (decodeNode (.obj ms)).2 = some Err.jsonType := by
      rw [decodeNode_obj_error, if_pos hbad]
    refine ⟨?_, ?_⟩
    · rw [discover_http_of_text c serviceName r _ hc]
      exact hd
    · intro hlen
      refine ⟨?_, ?_⟩
      · rw [discoverUDP_of_text c serviceName port host r _ hc hlen]
        exact hd
      · intro more
        have := discoverTCP_of_text c serviceName port host r _ [] [] more hc rfl rfl
          (by simpa using hlen)
        simp only [List.nil_append, List.append_nil] at this
        rw [this]
        exact hd
  · intro v r q t hr hq ht
    obtain ⟨ms, hc, _⟩ := encodesNode_obj r v hr
    obtain ⟨hq2, ht2⟩ := take_append_drop_nonspace q t r hq ht
    exact ⟨discover_http_cut c serviceName r q t ms hc hq ht,
      discoverUDP_cut c serviceName port host r q _ ms hc hq2 ht2,
      fun hne more => discoverTCP_cut c serviceName port host r q _ more ms hc hq2 ht2 hne⟩
  · intro v r x rest hr hx
    obtain ⟨ms, hc, hd⟩ := encodesNode_obj r v hr
    refine ⟨?_, ?_⟩
    · rw [Discover_ok]
      simp only [jsonDecodeNode, streamValue_append_closed r _ (x :: rest) hc rfl, hd]
    · intro hlen
      refine ⟨?_, ?_⟩
      · rw [DiscoverUDP_datagram, List.take_of_length_le hlen]
        simp [jsonUnmarshalNode, checkedValue_trailing r _ x rest hc rfl hx]
      · intro hl more
        rw [DiscoverTCP_chunk _ _ _ _ _ _ (by simp), List.take_of_length_le hlen,
          jsonUnmarshalNode_TrimSpace_trailing r ms x rest hc hx hl]
  · intro r val rest hp
    have hne := parseTop_ok_skipWs r _ hp
    have hdec : jsonDecodeNode r = decodeNode val := by
      simp [jsonDecodeNode, streamValue, hne, hp]
    refine ⟨?_, ?_⟩
    · intro ha
      refine ⟨(decodeNode val).1, ?_⟩
      rw [Discover_ok, hdec]
      rcases decodeNode_error_kind val with h | h
      · rw [(acceptedAsNode_iff val).mp h] at ha
        cases ha
      · rw [h]
    · intro ha
      refine ⟨(decodeNode val).1, ?_⟩
      rw [Discover_ok, hdec, (acceptedAsNode_iff val).mpr ha]
  · intro r
    refine ⟨?_, ?_⟩
    · refine ⟨(jsonDecodeNode r).1, ?_⟩
      rw [Discover_ok]
      rcases jsonDecodeNode_error_kind r with h | ⟨e, h, he⟩
      · left; rw [h]
      · right; exact ⟨e, by rw [h], he⟩
    · refine ⟨(jsonUnmarshalNode (r.take 1024)).1, ?_⟩
      rw [DiscoverUDP_datagram]
      rcases jsonUnmarshalNode_decode_kind (r.take 1024) with h | ⟨e, h, he⟩
      · left; rw [h]
      · right; exact ⟨e, by rw [h], he⟩
  · intro chunks
    rcases DiscoverTCP_stream c serviceName port host chunks with h | ⟨q, h⟩
    · left; exact h
    · right
      refine ⟨(jsonUnmarshalNode (TrimSpace (q.take 1024))).1, ?_⟩
      rw [h]
      rcases jsonUnmarshalNode_decode_kind (TrimSpace (q.take 1024)) with h2 | ⟨e, h2, he⟩
      · left; rw [h2]
      · right; exact ⟨e, by rw [h2], he⟩

/-- C3 witness: a reply that is not JSON over UDP and TCP, and the JSON text
`[1,2]`, which is not an object, over HTTP. -/
theorem discover_malformed_reply_witness :
    DiscoverUDP exampleClient (mockPeer notJsonReply) (ascii "svc-a") 9000 (ascii "h")
        = (some zeroNode, some Err.jsonSyntax)
    ∧ DiscoverTCP exampleClient (mockStream [notJsonReply]) (ascii "svc-a") 9000 (ascii "h")
        = (some zeroNode, some Err.jsonSyntax)
    ∧ Discover exampleClient (mockRegistry 200 (ascii "[1,2]")) (ascii "svc-a")
        = (some zeroNode, some Err.jsonType) :=
  have h := discover_malformed_reply exampleClient (ascii "svc-a") 9000 (ascii "h")
  have h2 := h.2.1 notJsonReply (by decide)
  ⟨h2.1 (by decide), h2.2.1 (by decide) (by decide) (by decide) [],
    (h.2.2.1 (ascii "[1,2]") (.arr [.num [49], .num [50]]) (by rfl) (by rfl)).1⟩

end Maxine

